import Mathlib

/-!
# Verification of the Kuin parser (`kuin/parser.py`, `kuin/nodes.py`)

This file is a shallow embedding of the Kuin language front-end parser.  The
source program is a pyparsing grammar (`kuin/parser.py`) whose parse actions
build AST nodes (`kuin/nodes.py`).  The embedding has three layers:

1. a data model for Python-level parse results: tokens (`Tok`), named results
   (`NB`), and AST nodes (`KNode`) mirroring the classes of `nodes.py`;
2. a deep embedding (`PE`) of the pyparsing combinators actually used by the
   grammar, together with a fuel-indexed interpreter `run` that reproduces
   pyparsing's parse semantics (whitespace skipping, comment-ignorables,
   backtracking `MatchFirst`, greedy `ZeroOrMore`/`OneOrMore`, `Combine`
   adjacency, named results, fatal parse errors, and Python exceptions
   escaping from parse actions);
3. a transcription of the grammar of `parser.py`, definition by definition,
   and the entry points `parse_expr` / `parse_stmt`.

Python floats are modelled as rationals (exact arithmetic; the claims under
study only exercise integer values).  `parse_string`'s `expandtabs()`
preprocessing is not modelled; all concrete inputs are tab-free, and tab
expansion only rewrites whitespace runs and comment interiors there.
-/

set_option maxRecDepth 10000

namespace Kuin

/-- Python exceptions that can escape the parser: `assert False` in
`Node.parse` / `assert_symbol` / `SymbolNode.__init__` (AssertionError),
tuple-unpacking mismatches in `ExprNode.parse_as_*` (ValueError), and
`[0]` on an empty result in `parse_expr` (IndexError). -/
inductive CrashKind where
  | assertionError
  | valueError
  | indexError
  deriving DecidableEq, Repr

mutual

/-- A Python value appearing in a pyparsing token list: strings, booleans,
ints, floats (as rationals), `None`, tuples, nested `ParseResults` (from
`Group`), and AST nodes. -/
inductive Tok where
  | str (s : String)
  | pybool (b : Bool)
  | pyint (i : Int)
  | pyreal (q : ℚ)
  | pynone
  | tup (ts : List Tok)
  | group (toks : List Tok) (names : List NB)
  | node (n : KNode)

/-- One named-result binding event: `setResultsName(name)` with
`listAllMatches` flag and the bound value. -/
inductive NB where
  | mk (name : String) (listAll : Bool) (val : Tok)

/-- A key/value pair (used for enum members and switch cases, which Python
stores as 2-tuples inside node payloads). -/
inductive EPair where
  | mk (key val : Tok)

/-- AST nodes, one constructor per class of `kuin/nodes.py`. -/
inductive KNode where
  | symbol (s : String)
  | exprN (op : Tok) (operands : List Tok)
  | valueN (range : List Tok)
  | arrayN (arr idx : Tok)
  | newN (ty : Tok)
  | ifN (clauses : List EPair) (blockName : Option Tok)
  | switchN (target : Tok) (cases : List EPair) (blockName : Option Tok)
  | whileN (cond : Tok) (skip : Option Tok) (body : List Tok)
  | forN (start stop : Tok) (step : Option Tok) (blockName : Option Tok) (body : List Tok)
  | foreachN (items : Tok) (blockName : Option Tok) (body : List Tok)
  | tryN (blockName ignoreValue : Option Tok) (body : List Tok)
         (catchValue : Option Tok) (catchBody finallyBody : List Tok)
  | ifdefN (mode : Tok) (blockName : Option Tok) (body : List Tok)
  | blockN (blockName : Option Tok) (body : List Tok)
  | doN (expr : Tok)
  | importN
  | breakN (blockName : Option Tok)
  | continueN (blockName : Option Tok)
  | returnN (value : Option Tok)
  | assertN (expr : Tok)
  | throwN (code : Tok) (message : Option Tok)
  | funcN (funcname : Tok) (args : List Tok)
  | varN (varname typename : Tok) (value : Option Tok)
  | constN (varname typename value : Tok)
  | aliasN (aliasName typename : Tok)
  | collectionTypeN
  | dictTypeN
  | funcTypeN
  | arrayTypeN (baseType : Tok) (size : List Tok)
  | classMemberM (member : Tok) (visibility : String) (override : Bool)
  | classN (name : Tok) (parent : Option Tok) (members : List Tok)
  | enumN (name : Tok) (members : List EPair)

end

namespace NB

def name : NB → String
  | .mk n _ _ => n

def listAll : NB → Bool
  | .mk _ a _ => a

def val : NB → Tok
  | .mk _ _ v => v

end NB

/-! ## Named results (`ParseResults._tokdict`)

A result carries a token list and a list of binding events.  Lookup of a
modal name returns the last bound value; lookup of a `listAllMatches` name
(`'name*'` in the source) returns a `ParseResults` of all bound values
(modelled as a `Tok.group`). -/

/-- Keys of a binding list, first-occurrence order, no duplicates
(`ParseResults.keys()`). -/
def nbKeys (ns : List NB) : List String :=
  ns.foldl (fun acc b => if acc.contains b.name then acc else acc ++ [b.name]) []

/-- All values bound to a name, in binding order. -/
def nbAll (ns : List NB) (k : String) : List Tok :=
  (ns.filter (fun b => b.name == k)).map NB.val

/-- `ParseResults.__getitem__` for a string key: last value for a modal
name, grouped list of all values for a `listAllMatches` name. -/
def nbGet (ns : List NB) (k : String) : Option Tok :=
  match ns.filter (fun b => b.name == k) with
  | [] => none
  | bs@(b :: _) => if b.listAll then some (.group (bs.map NB.val) []) else (bs.map NB.val).getLast?

/-- `cls(**r)`: the keyword-argument view of a result's named part. -/
def nbKwargs (ns : List NB) : List (String × Tok) :=
  (nbKeys ns).filterMap (fun k => (nbGet ns k).map (fun v => (k, v)))

/-- Keyword-argument validation done implicitly by a Python `__init__`
signature: every supplied key must be a parameter and every parameter
without a default must be supplied; otherwise `cls(**r)` raises `TypeError`
(which `Node.parse` turns into `assert False`). -/
def kwOk (kw : List (String × Tok)) (allowed required : List String) : Bool :=
  kw.all (fun p => allowed.contains p.1) && required.all (fun k => (kw.lookup k).isSome)

/-! ## Python `str()` of tokens (used by `Combine`) -/

mutual

/-- `str(tok)` as used by `ParseResults._asStringList`.  For `SymbolNode`
this is `Node.__repr__`, i.e. the symbol wrapped in backticks; nested
`ParseResults` are flattened.  Only strings and symbols actually occur
inside the `Combine`s of this grammar. -/
def pyStr : Tok → String
  | .str s => s
  | .pybool b => if b then "True" else "False"
  | .pyint i => toString i
  | .pyreal _ => "<float>"
  | .pynone => "None"
  | .tup ts => pyStrList ts
  | .group ts _ => pyStrList ts
  | .node (.symbol s) => "`" ++ s ++ "`"
  | .node _ => "<node>"

def pyStrList : List Tok → String
  | [] => ""
  | t :: ts => pyStr t ++ pyStrList ts

end

/-- `Combine.postParse`: concatenate the `str()` of all tokens. -/
def pyJoin (ts : List Tok) : String :=
  pyStrList ts

/-! ## Character classes and leaf regex matchers

Each `Regex(...)` of `parser.py` is implemented as a matcher on a
`List Char` at an absolute position, returning the end position of the match
(Python `re.match` anchored at `loc`).  Matched text is recovered from the
input. -/

def isIdentStart (c : Char) : Bool :=
  (('A' ≤ c && c ≤ 'Z') || ('a' ≤ c && c ≤ 'z') || c == '_')

def isIdentCont (c : Char) : Bool :=
  isIdentStart c || ('0' ≤ c && c ≤ '9')

def isDigit (c : Char) : Bool :=
  '0' ≤ c && c ≤ '9'

def isUpperAlnum (c : Char) : Bool :=
  isDigit c || ('A' ≤ c && c ≤ 'Z')

def isUpperHex (c : Char) : Bool :=
  isDigit c || ('A' ≤ c && c ≤ 'F')

/-- pyparsing whitespace characters (`ParserElement.DEFAULT_WHITE_CHARS`). -/
def isWs (c : Char) : Bool :=
  c == ' ' || c == '\n' || c == '\t' || c == '\r'

/-- `\x20` and `\x09`–`\x0D`: the class excluded by the `SourceName` regex. -/
def isSrcWs (c : Char) : Bool :=
  c == ' ' || ('\x09' ≤ c && c ≤ '\x0D')

/-- `Keyword.DEFAULT_KEYWORD_CHARS`: alphanumerics, `_` and `$`. -/
def isKwChar (c : Char) : Bool :=
  isIdentCont c || c == '$'

/-- Character at an absolute position. -/
def at? (s : List Char) (loc : Nat) : Option Char :=
  s.get? loc

/-- Length of the greedy run of characters satisfying `p` at the head of a
list.  (All matchers are structurally recursive so that concrete parses
reduce definitionally.) -/
def runLen (p : Char → Bool) : List Char → Nat
  | [] => 0
  | c :: cs => if p c then runLen p cs + 1 else 0

/-- Greedy run of characters satisfying `p`, starting at `loc`; returns the
end position. -/
def runEnd (p : Char → Bool) (s : List Char) (loc : Nat) : Nat :=
  loc + runLen p (s.drop loc)

/-- `[A-Za-z_][0-9A-Za-z_]*` -/
def rxIdent (s : List Char) (loc : Nat) : Option Nat :=
  match at? s loc with
  | some c => if isIdentStart c then some (runEnd isIdentCont s (loc + 1)) else none
  | none => none

/-- `[^\x20\x09-\x0D]+` (`SourceName`) -/
def rxSourceName (s : List Char) (loc : Nat) : Option Nat :=
  match at? s loc with
  | some c =>
    if isSrcWs c then none else some (runEnd (fun c => !isSrcWs c) s (loc + 1))
  | none => none

/-- `[+-]` (number sign) -/
def rxSign (s : List Char) (loc : Nat) : Option Nat :=
  match at? s loc with
  | some c => if c == '+' || c == '-' then some (loc + 1) else none
  | none => none

/-- `[^\"'{}]+` (comment chunk) -/
def rxChunk (s : List Char) (loc : Nat) : Option Nat :=
  match at? s loc with
  | some c =>
    if c == '"' || c == '\'' || c == '{' || c == '}' then none
    else some (runEnd (fun c => !(c == '"' || c == '\'' || c == '{' || c == '}')) s (loc + 1))
  | none => none

/-- Helper: a greedy digit run over class `p` followed by an optional
`.` + nonempty run (the `(?:\.(D+))?` idiom of the three number regexes). -/
def rxDigitsDot (p : Char → Bool) (s : List Char) (loc : Nat) : Option Nat :=
  match at? s loc with
  | some c =>
    if p c then
      let e := runEnd p s (loc + 1)
      match at? s e with
      | some '.' =>
        match at? s (e + 1) with
        | some d => if p d then some (runEnd p s (e + 2)) else some e
        | none => some e
      | _ => some e
    else none
  | none => none

/-- `([0-9]+)(?:\.([0-9]+))?` (`Base10`) -/
def rxBase10 (s : List Char) (loc : Nat) : Option Nat :=
  rxDigitsDot isDigit s loc

/-- `#([0-9A-F]+)(?:\.([0-9A-F]+))?` (`Base16`) -/
def rxBase16 (s : List Char) (loc : Nat) : Option Nat :=
  match at? s loc with
  | some '#' =>
    match rxDigitsDot isUpperHex s (loc + 1) with
    | some e => some e
    | none => none
  | _ => none

/-- `([1-9][0-9]?)#([0-9A-Z]+)(?:\.([0-9A-Z]+))?` (`BaseX`).  The radix is
one or two digits; the two-digit alternative is preferred, with regex
backtracking to one digit when no `#` follows. -/
def rxBaseX (s : List Char) (loc : Nat) : Option Nat :=
  match at? s loc with
  | some c =>
    if '1' ≤ c && c ≤ '9' then
      let afterRadix :=
        match at? s (loc + 1) with
        | some d =>
          if isDigit d && at? s (loc + 2) == some '#' then some (loc + 2)
          else if at? s (loc + 1) == some '#' then some (loc + 1)
          else none
        | none => none
      match afterRadix with
      | some h =>
        match rxDigitsDot isUpperAlnum s (h + 1) with
        | some e => some e
        | none => none
      | none => none
    else none
  | none => none

/-- Body scanner for `"(\\.|[^"])*"`, applied after the opening quote.
Mirrors the Python regex engine's preferences: at each position first try
to extend the `*` loop (escape pair has priority over single character;
`.` does not match a newline), then try the closing quote; backtrack on
failure.  Returns the number of characters consumed, closing quote
included. -/
def strScanL : List Char → Option Nat
  | [] => none
  | c :: rest =>
    let viaPair : Option Nat :=
      if c == '\\' then
        match rest with
        | d :: rest2 => if d ≠ '\n' then (strScanL rest2).map (· + 2) else none
        | [] => none
      else none
    match viaPair with
    | some e => some e
    | none =>
      let viaSingle : Option Nat := if c ≠ '"' then (strScanL rest).map (· + 1) else none
      match viaSingle with
      | some e => some e
      | none => if c == '"' then some 1 else none

/-- `"(\\.|[^"])*"` (`String` literal) -/
def rxString (s : List Char) (loc : Nat) : Option Nat :=
  match at? s loc with
  | some '"' => (strScanL (s.drop (loc + 1))).map (fun k => loc + 1 + k)
  | _ => none

/-- `'(\\.|[^'])'` (`Char` literal) -/
def rxChar (s : List Char) (loc : Nat) : Option Nat :=
  match at? s loc with
  | some '\'' =>
    let pair :=
      match at? s (loc + 1), at? s (loc + 2) with
      | some '\\', some d =>
        if d ≠ '\n' && at? s (loc + 3) == some '\'' then some (loc + 4) else none
      | _, _ => none
    match pair with
    | some e => some e
    | none =>
      match at? s (loc + 1) with
      | some c => if c ≠ '\'' && at? s (loc + 2) == some '\'' then some (loc + 3) else none
      | none => none
  | _ => none

/-- Substring of the input between two absolute positions. -/
def slice (s : List Char) (a b : Nat) : String :=
  String.mk ((s.drop a).take (b - a))

/-! ## Parse actions (`nodes.py` constructors and the `parser.py` lambdas) -/

/-- What a parse action can do besides produce tokens: raise
`ParseFatalException` (`number_action`) or let a Python exception escape. -/
inductive AErr where
  | fatal
  | crash (k : CrashKind)
  deriving DecidableEq, Repr

/-- Python truthiness of a token (`bool(x)`); a `ParseResults` is truthy
when it has tokens or named results. -/
def truthy : Tok → Bool
  | .str s => s ≠ ""
  | .pybool b => b
  | .pyint i => i ≠ 0
  | .pyreal q => q ≠ 0
  | .pynone => false
  | .tup ts => !ts.isEmpty
  | .group ts ns => !ts.isEmpty || !ns.isEmpty
  | .node _ => true

/-- `tuple(x or [])` for an optional named result (used for statement
bodies): absent or falsy gives `()`; a `ParseResults` yields its token
list.  `tuple` of a non-iterable raises `TypeError`, which `Node.parse`
turns into an assertion failure. -/
def pyTupleOr : Option Tok → Except AErr (List Tok)
  | none => .ok []
  | some t =>
    if !truthy t then .ok []
    else
      match t with
      | .group ts _ => .ok ts
      | .tup ts => .ok ts
      | _ => .error (.crash .assertionError)

/-- `tuple(x)` with no `or` guard (`ArrayTypeNode`, `SwitchNode`). -/
def pyTuple : Tok → Except AErr (List Tok)
  | .group ts _ => .ok ts
  | .tup ts => .ok ts
  | _ => .error (.crash .assertionError)

/-- `assert_symbol`: `None` or a `SymbolNode`, else `AssertionError`. -/
def assertSymbol : Option Tok → Except AErr Unit
  | none => .ok ()
  | some (.node (.symbol _)) => .ok ()
  | some _ => .error (.crash .assertionError)

/-- `current_value += 1` on the enum counter.  Python accepts ints, floats
and bools (`True + 1 == 2`); anything else raises `TypeError`, which
`Node.parse` converts to an assertion failure. -/
def pyAdd1 : Tok → Except AErr Tok
  | .pyint i => .ok (.pyint (i + 1))
  | .pyreal q => .ok (.pyreal (q + 1))
  | .pybool b => .ok (.pyint ((if b then 1 else 0) + 1))
  | _ => .error (.crash .assertionError)

/-- Value of one digit character for `int(s, base)`. -/
def digitVal (c : Char) : Option Nat :=
  if '0' ≤ c && c ≤ '9' then some (c.toNat - '0'.toNat)
  else if 'A' ≤ c && c ≤ 'Z' then some (c.toNat - 'A'.toNat + 10)
  else if 'a' ≤ c && c ≤ 'z' then some (c.toNat - 'a'.toNat + 10)
  else none

/-- Python `int(s, base)` on the digit strings produced by the number
regexes: every digit must be below the base, and the string must be
nonempty; otherwise `ValueError`. -/
def intParse (cs : List Char) (base : Nat) : Option Nat :=
  match cs with
  | [] => none
  | _ =>
    cs.foldl (fun acc c =>
      match acc, digitVal c with
      | some a, some d => if d < base then some (a * base + d) else none
      | _, _ => none) (some 0)

/-- `re.sub(r'\\(.)', repl, s)` of `string_action`: escape pairs collapse
(`\n`, `\r` to control characters, everything else to the escaped
character); a backslash before a newline is not an escape (`.` does not
match newline). -/
def unescape : List Char → List Char
  | [] => []
  | '\\' :: c :: rest =>
    if c ≠ '\n' then
      (if c == 'n' then '\n' else if c == 'r' then '\r' else c) :: unescape rest
    else '\\' :: unescape (c :: rest)
  | c :: rest => c :: unescape rest

/-- `string_action`: strip the enclosing quotes and process escapes. -/
def stringAction (s : String) : String :=
  String.mk (unescape ((s.toList.drop 1).dropLast))

/-- Split `body` at the first occurrence of `sep` (`str.split(sep, 1)`),
or `none` if absent. -/
def splitOnce (sep : Char) : List Char → Option (List Char × List Char)
  | [] => none
  | c :: rest =>
    if c == sep then some ([], rest)
    else (splitOnce sep rest).map (fun p => (c :: p.1, p.2))

/-- Python `int(x)` on a numeric token (truncation toward zero for
floats, 0/1 for bools); non-numeric raises (unreachable: the exponent of a
number is itself a parsed number). -/
def pyIntOf : Tok → Option Int
  | .pyint i => some i
  | .pyreal q => some (if 0 ≤ q then ⌊q⌋ else -⌊-q⌋)
  | .pybool b => some (if b then 1 else 0)
  | _ => none

/-- `number_action` (`parser.py`), on the named pieces of a numeric
literal: `sign` (`r.get('sign','')`), `body` (the matched literal text)
and `precision` (`r.get('precision','')`, an already-parsed number).

* an explicit radix outside `2..36` or equal to `10`/`16` is a fatal parse
  error (`ParseFatalException`);
* digits outside the radix alphabet make `int(...)`/`int(...)` raise
  `ValueError`, which the action converts to a fatal parse error;
* without a fractional part and exponent the value stays a Python `int`;
  a fraction or an applied exponent produces a float (modelled as `ℚ`). -/
def numberCore (sign : String) (body : List Char) (precision : Option Tok) :
    Except AErr Tok :=
  let radixDigits : Except AErr (Nat × List Char) :=
    match splitOnce '#' body with
    | some (pre, rest) =>
      if pre.isEmpty then .ok (16, rest)
      else
        match intParse pre 10 with
        | some r =>
          if !(2 ≤ r && r ≤ 36) || r == 10 || r == 16 then .error .fatal
          else .ok (r, rest)
        | none => .error (.crash .valueError)
    | none => .ok (10, body)
  match radixDigits with
  | .error e => .error e
  | .ok (radix, digits) =>
    let mantissa : Except AErr Tok :=
      match splitOnce '.' digits with
      | some (ip, fp) =>
        match intParse ip radix, intParse fp radix with
        | some i, some f =>
          .ok (.pyreal ((i : ℚ) + (f : ℚ) / (radix : ℚ) ^ fp.length))
        | _, _ => .error .fatal
      | none =>
        match intParse digits radix with
        | some n => .ok (.pyint n)
        | none => .error .fatal
    match mantissa with
    | .error e => .error e
    | .ok num =>
      let withExp : Except AErr Tok :=
        match precision with
        | none => .ok num
        | some p =>
          if truthy p then
            match pyIntOf p with
            | some e =>
              let b : ℚ := match num with
                | .pyint i => (i : ℚ)
                | .pyreal q => q
                | _ => 0
              .ok (.pyreal (b * (radix : ℚ) ^ (e : ℤ)))
            | none => .error (.crash .valueError)
          else .ok num
      match withExp with
      | .error e => .error e
      | .ok n2 =>
        if sign == "-" then
          match n2 with
          | .pyint i => .ok (.pyint (-i))
          | .pyreal q => .ok (.pyreal (-q))
          | _ => .ok n2
        else .ok n2

/-! ## Parse-action dispatch -/

/-- Identifiers for the parse actions of `parser.py` / `nodes.py`. -/
inductive ActId where
  | symbolParse | exprUnary | exprBinary | exprTernary
  | stringAct | charAct | boolTrue | boolFalse | numberAct
  | valueItem | valueNode | arraySize
  | switchCase | switchDefault | enumMember
  | ifdefRelease | ifdefDebug
  | collectionType | dictType | funcType | arrayType
  | funcCall | arrayAccess | newNode
  | ifNode | switchNode | whileNode | forNode | foreachNode | tryNode
  | ifdefNode | blockNode
  | doNode | breakNode | continueNode | returnNode | assertNode | throwNode
  | varNode | constNode | aliasNode | enumNode | classNode
  deriving DecidableEq, Repr

def kwGet (kw : List (String × Tok)) (k : String) : Option Tok :=
  kw.lookup k

/-- A required keyword argument; its absence is a `TypeError` from
`cls(**r)`, hence `assert False` in `Node.parse`. -/
def reqArg (kw : List (String × Tok)) (k : String) : Except AErr Tok :=
  match kwGet kw k with
  | some t => .ok t
  | none => .error (.crash .assertionError)

/-- `SwitchNode.__init__` case processing:
`tuple([(c[0][0], tuple(c[0][1])) for c in case])`. -/
def switchCaseList : List Tok → Except AErr (List EPair)
  | [] => .ok []
  | c :: rest => do
    match c with
    | .group (t :: _) _ =>
      match t with
      | .tup (v :: b :: _) => do
        let bodyToks ← pyTuple b
        let tail ← switchCaseList rest
        pure (.mk v (.tup bodyToks) :: tail)
      | .tup _ => Except.error (.crash .indexError)
      | _ => Except.error (.crash .assertionError)
    | .group [] _ => Except.error (.crash .indexError)
    | _ => Except.error (.crash .assertionError)

/-- `EnumNode.__init__` member processing: iterate `(key, value)` pairs
with a running counter starting at 0; an explicit value replaces the
counter, every step then increments it (where incrementing a non-numeric,
non-boolean value is a `TypeError`, i.e. an assertion failure via
`Node.parse`). -/
def enumFold (current : Tok) : List Tok → Except AErr (List EPair)
  | [] => .ok []
  | t :: rest =>
    match t with
    | .tup [k, v] => do
      let value := match v with | .pynone => current | _ => v
      let next ← pyAdd1 value
      let tail ← enumFold next rest
      pure (.mk k value :: tail)
    | .tup _ => Except.error (.crash .valueError)
    | _ => Except.error (.crash .assertionError)

/-- `ClassNode.Member` construction over `zip(member, visibility,
override)` (Python `zip` truncates to the shortest list). -/
def classMemberZip : List Tok → List Tok → List Tok → List Tok
  | m :: ms, v :: vs, o :: os =>
    let vis := match v with | .str s => s | _ => ""
    let ov := match o with | .pynone => false | _ => true
    .node (.classMemberM m vis ov) :: classMemberZip ms vs os
  | _, _, _ => []

/-- `IfNode.__init__` elif-clause processing. -/
def ifElifClauses (ec eb : Option Tok) : Except AErr (List EPair) :=
  match ec, eb with
  | some c, some b =>
    if truthy c && truthy b then
      match c, b with
      | .group cs _, .group bs _ =>
        if cs.length == bs.length then
          .ok (List.zipWith (fun x y => EPair.mk x y) cs bs)
        else .error (.crash .assertionError)
      | _, _ => .error (.crash .assertionError)
    else .error (.crash .assertionError)
  | none, none => .ok []
  | _, _ => .error (.crash .assertionError)

/-- The parse actions.  Each receives the result's tokens and named part
and produces replacement tokens (pyparsing then rebuilds the result, so
inner names are dropped). -/
def applyAct (a : ActId) (toks : List Tok) (names : List NB) :
    Except AErr (List Tok) := do
  let kw := nbKwargs names
  match a with
  | .symbolParse =>
    -- SymbolNode.parse: keep an existing SymbolNode, wrap a string,
    -- anything else fails SymbolNode.__init__'s isinstance assert.
    match toks with
    | .node (.symbol s) :: _ => pure [.node (.symbol s)]
    | .str s :: _ => pure [.node (.symbol s)]
    | _ :: _ => Except.error (.crash .assertionError)
    | [] => Except.error (.crash .indexError)
  | .exprUnary =>
    -- ExprNode.parse_as_unary: `op, expr = r[0]`
    match toks with
    | [.group [op, e] _] => pure [.node (.exprN op [e])]
    | [.group _ _] => Except.error (.crash .valueError)
    | _ => Except.error (.crash .assertionError)
  | .exprBinary =>
    -- ExprNode.parse_as_binary: `left, op, right = r[0]`; a chain of three
    -- or more operands makes the unpacking raise ValueError.
    match toks with
    | [.group [l, op, r] _] => pure [.node (.exprN op [l, r])]
    | [.group _ _] => Except.error (.crash .valueError)
    | _ => Except.error (.crash .assertionError)
  | .exprTernary =>
    match toks with
    | [.group [c, t, f] _] => pure [.node (.exprN (.node (.symbol "?()")) [c, t, f])]
    | [.group _ _] => Except.error (.crash .valueError)
    | _ => Except.error (.crash .assertionError)
  | .stringAct =>
    match toks with
    | .str s :: _ => pure [.str (stringAction s)]
    | _ => Except.error (.crash .assertionError)
  | .charAct =>
    match toks with
    | .str s :: _ => pure [.str (stringAction s)]
    | _ => Except.error (.crash .assertionError)
  | .boolTrue => pure [.pybool true]
  | .boolFalse => pure [.pybool false]
  | .numberAct =>
    let sign := match nbGet names "sign" with | some (.str s) => s | _ => ""
    match nbGet names "body" with
    | some (.str body) => do
      let n ← numberCore sign body.toList (nbGet names "precision")
      pure [n]
    | _ => Except.error (.crash .indexError)  -- r['body'] KeyError; unreachable
  | .valueItem =>
    -- `(r[0]["start"], r[0].get("end"))`
    match toks with
    | .group _ ns :: _ =>
      match nbGet ns "start" with
      | some s => pure [.tup [s, (nbGet ns "end").getD .pynone]]
      | none => Except.error (.crash .indexError)
    | _ :: _ => Except.error (.crash .assertionError)
    | [] => Except.error (.crash .indexError)
  | .valueNode => pure [.node (.valueN toks)]
  | .arraySize =>
    -- array_size_action: `[None]` for an empty match, `[r[0]]` otherwise
    match toks with
    | [] => pure [.pynone]
    | [t] => pure [t]
    | _ => Except.error (.crash .assertionError)
  | .switchCase => do
    let v ← reqArg kw "value"
    pure [.tup [v, (kwGet kw "body").getD .pynone]]
  | .switchDefault => pure [.tup [.pynone, (kwGet kw "body").getD .pynone]]
  | .enumMember => do
    let k ← reqArg kw "key"
    pure [.tup [k, (kwGet kw "value").getD .pynone]]
  | .ifdefRelease => pure [.node (.symbol "release")]
  | .ifdefDebug => pure [.node (.symbol "debug")]
  | .collectionType => pure [.node .collectionTypeN]
  | .dictType => pure [.node .dictTypeN]
  | .funcType => pure [.node .funcTypeN]
  | .arrayType => do
    if !kwOk kw ["base_type", "size"] ["base_type", "size"] then
      Except.error (.crash .assertionError)
    else do
      let bt ← reqArg kw "base_type"
      let sz ← reqArg kw "size"
      let szToks ← pyTuple sz
      pure [.node (.arrayTypeN bt szToks)]
  | .funcCall => do
    if !kwOk kw ["funcname", "args"] ["funcname"] then
      Except.error (.crash .assertionError)
    else do
      let f ← reqArg kw "funcname"
      let args ← pyTupleOr (kwGet kw "args")
      pure [.node (.funcN f args)]
  | .arrayAccess => do
    if !kwOk kw ["array", "index"] ["array", "index"] then
      Except.error (.crash .assertionError)
    else do
      let arr ← reqArg kw "array"
      let idx ← reqArg kw "index"
      pure [.node (.arrayN arr idx)]
  | .newNode => do
    if !kwOk kw ["type"] ["type"] then Except.error (.crash .assertionError)
    else do
      let ty ← reqArg kw "type"
      pure [.node (.newN ty)]
  | .ifNode => do
    if !kwOk kw ["then_cond", "then_body", "elif_cond", "elif_body",
                 "else_body", "block_name"] ["then_cond"] then
      Except.error (.crash .assertionError)
    else do
      let bn := kwGet kw "block_name"
      assertSymbol bn
      let tc ← reqArg kw "then_cond"
      let tb ← pyTupleOr (kwGet kw "then_body")
      let elifs ← ifElifClauses (kwGet kw "elif_cond") (kwGet kw "elif_body")
      let elseClauses : List EPair ←
        match kwGet kw "else_body" with
        | some e =>
          if truthy e then do
            let ts ← pyTuple e
            pure [EPair.mk .pynone (.tup ts)]
          else pure []
        | none => pure []
      pure [.node (.ifN (.mk tc (.tup tb) :: elifs ++ elseClauses) bn)]
  | .switchNode => do
    if !kwOk kw ["target", "case", "block_name"] ["target"] then
      Except.error (.crash .assertionError)
    else do
      let bn := kwGet kw "block_name"
      assertSymbol bn
      let tgt ← reqArg kw "target"
      match kwGet kw "case" with
      | some (.group cs _) => do
        let cases ← switchCaseList cs
        pure [.node (.switchN tgt cases bn)]
      | some _ => Except.error (.crash .assertionError)
      | none => Except.error (.crash .assertionError)  -- iterating None: TypeError
  | .whileNode => do
    -- WhileNode.__init__(self, cond, skip=None, body=None): note the
    -- missing `block_name` parameter — a named while statement passes an
    -- unexpected keyword argument, so `cls(**r)` raises TypeError and
    -- Node.parse fails its assertion.
    if !kwOk kw ["cond", "skip", "body"] ["cond"] then
      Except.error (.crash .assertionError)
    else do
      let c ← reqArg kw "cond"
      let b ← pyTupleOr (kwGet kw "body")
      pure [.node (.whileN c (kwGet kw "skip") b)]
  | .forNode => do
    if !kwOk kw ["start", "end", "step", "block_name", "body"] ["start", "end"] then
      Except.error (.crash .assertionError)
    else do
      let bn := kwGet kw "block_name"
      assertSymbol bn
      let st ← reqArg kw "start"
      let en ← reqArg kw "end"
      let b ← pyTupleOr (kwGet kw "body")
      pure [.node (.forN st en (kwGet kw "step") bn b)]
  | .foreachNode => do
    if !kwOk kw ["items", "block_name", "body"] ["items"] then
      Except.error (.crash .assertionError)
    else do
      let bn := kwGet kw "block_name"
      assertSymbol bn
      let it ← reqArg kw "items"
      let b ← pyTupleOr (kwGet kw "body")
      pure [.node (.foreachN it bn b)]
  | .tryNode => do
    if !kwOk kw ["block_name", "ignore_value", "body", "catch_value",
                 "catch_body", "finally_body"] [] then
      Except.error (.crash .assertionError)
    else do
      let bn := kwGet kw "block_name"
      assertSymbol bn
      let b ← pyTupleOr (kwGet kw "body")
      let cb ← pyTupleOr (kwGet kw "catch_body")
      let fb ← pyTupleOr (kwGet kw "finally_body")
      pure [.node (.tryN bn (kwGet kw "ignore_value") b (kwGet kw "catch_value") cb fb)]
  | .ifdefNode => do
    if !kwOk kw ["mode", "block_name", "body"] ["mode"] then
      Except.error (.crash .assertionError)
    else do
      let bn := kwGet kw "block_name"
      assertSymbol bn
      let m ← reqArg kw "mode"
      let b ← pyTupleOr (kwGet kw "body")
      pure [.node (.ifdefN m bn b)]
  | .blockNode => do
    if !kwOk kw ["block_name", "body"] [] then
      Except.error (.crash .assertionError)
    else do
      let bn := kwGet kw "block_name"
      assertSymbol bn
      let b ← pyTupleOr (kwGet kw "body")
      pure [.node (.blockN bn b)]
  | .doNode => do
    if !kwOk kw ["expr"] ["expr"] then Except.error (.crash .assertionError)
    else do
      let e ← reqArg kw "expr"
      pure [.node (.doN e)]
  | .breakNode => do
    if !kwOk kw ["block_name"] [] then Except.error (.crash .assertionError)
    else do
      let bn := kwGet kw "block_name"
      assertSymbol bn
      pure [.node (.breakN bn)]
  | .continueNode => do
    if !kwOk kw ["block_name"] [] then Except.error (.crash .assertionError)
    else do
      let bn := kwGet kw "block_name"
      assertSymbol bn
      pure [.node (.continueN bn)]
  | .returnNode => do
    if !kwOk kw ["value"] [] then Except.error (.crash .assertionError)
    else pure [.node (.returnN (kwGet kw "value"))]
  | .assertNode => do
    if !kwOk kw ["expr"] ["expr"] then Except.error (.crash .assertionError)
    else do
      let e ← reqArg kw "expr"
      pure [.node (.assertN e)]
  | .throwNode => do
    if !kwOk kw ["code", "message"] ["code"] then Except.error (.crash .assertionError)
    else do
      let c ← reqArg kw "code"
      pure [.node (.throwN c (kwGet kw "message"))]
  | .varNode => do
    if !kwOk kw ["varname", "typename", "value"] ["varname", "typename"] then
      Except.error (.crash .assertionError)
    else do
      let vn ← reqArg kw "varname"
      assertSymbol (some vn)
      let tn ← reqArg kw "typename"
      pure [.node (.varN vn tn (kwGet kw "value"))]
  | .constNode => do
    if !kwOk kw ["varname", "typename", "value"] ["varname", "typename", "value"] then
      Except.error (.crash .assertionError)
    else do
      let vn ← reqArg kw "varname"
      let tn ← reqArg kw "typename"
      let v ← reqArg kw "value"
      pure [.node (.constN vn tn v)]
  | .aliasNode => do
    if !kwOk kw ["alias", "typename"] ["alias", "typename"] then
      Except.error (.crash .assertionError)
    else do
      let al ← reqArg kw "alias"
      let tn ← reqArg kw "typename"
      pure [.node (.aliasN al tn)]
  | .enumNode => do
    if !kwOk kw ["name", "member"] ["name", "member"] then
      Except.error (.crash .assertionError)
    else do
      let nm ← reqArg kw "name"
      match kwGet kw "member" with
      | some (.group ms _) => do
        let pairs ← enumFold (.pyint 0) ms
        pure [.node (.enumN nm pairs)]
      | some _ => Except.error (.crash .assertionError)
      | none => Except.error (.crash .assertionError)
  | .classNode => do
    if !kwOk kw ["name", "parent", "member", "visibility", "override"] ["name"] then
      Except.error (.crash .assertionError)
    else do
      let nm ← reqArg kw "name"
      let members : List Tok :=
        match kwGet kw "member" with
        | some m =>
          if truthy m then
            match m with
            | .group ms _ =>
              let n := ms.length
              let vs := match kwGet kw "visibility" with
                | some (.group vs _) => vs
                | _ => List.replicate n .pynone
              let os := match kwGet kw "override" with
                | some (.group os _) => os
                | _ => List.replicate n .pynone
              classMemberZip ms vs os
            | _ => []
          else []
        | none => []
      pure [.node (.classN nm (kwGet kw "parent") members)]

/-! ## The pyparsing combinators used by the grammar (deep embedding)

`PE` mirrors the parser-element classes of pyparsing as configured by
`parser.py` after import time: every element reachable from `Sentences`
has the `Comment` ignorable (from `Sentences << ZeroOrMore(Sentence)
.ignore(Comment)`, whose `ignore` propagates recursively), and the inside
of every `Combine` is an adjacent copy with all skipping disabled.  The
interpreter threads these two facts as context flags instead of storing
per-object attributes:

* `adj` — inside a `Combine` subtree: no whitespace or ignorable skipping;
* `ig`  — the `Comment` ignorable is active (false only inside comment
  matching itself, whose elements are not reachable from `Sentences`; the
  shared `String`/`Char` leaves do carry the ignorable there, but skipping
  a nested comment before them consumes exactly what the `Comment`
  alternative of the comment body would, so the match is unchanged).

Two further observational simplifications (each invisible in this grammar
because every consumer of a position first re-applies the idempotent
whitespace/ignorable skip, and `Combine` builds its text from tokens, not
input slices): `Optional`/`NotAny`/`FollowedBy` report the original
location rather than the pre-skipped one on an empty result, and a
composite's own pre-skip is delegated to its first/alternative children
(`And` passes `callPreParse=False` to its first child but pre-parses with
that child's own whitespace flags, so the two are the same function). -/

inductive RxId where
  | ident | sourceName | sign | baseX | base10 | base16 | string | char | chunk
  deriving DecidableEq, Repr

def rxMatch : RxId → List Char → Nat → Option Nat
  | .ident => rxIdent
  | .sourceName => rxSourceName
  | .sign => rxSign
  | .baseX => rxBaseX
  | .base10 => rxBase10
  | .base16 => rxBase16
  | .string => rxString
  | .char => rxChar
  | .chunk => rxChunk

/-- The `Forward` objects of `parser.py` (plus the two local `thisExpr`
forwards created by `make_unary_expr` and the right-associative
`make_binary_expr`). -/
inductive FwdId where
  | expr | assign | unary | number | type' | sentences | cls | comment
  deriving DecidableEq, Repr

inductive PE where
  | rx (r : RxId)
  | lit (s : String)
  | kw (s : String)
  | oneOf (ss : List String)
  | andP (ps : List PE)
  | orP (ps : List PE)
  | opt (p : PE)
  | many0 (p : PE)
  | many1 (p : PE)
  | notAny (p : PE)
  | followedBy (p : PE)
  | grp (p : PE)
  | supp (p : PE)
  | comb (p : PE)
  | named (nm : String) (listAll bindAll : Bool) (p : PE)
  | act (a : ActId) (p : PE)
  | fwd (f : FwdId)

/-- `Literal` match: plain prefix comparison. -/
def litAt (s : List Char) (loc : Nat) (pat : String) : Bool :=
  pat.toList.isPrefixOf (s.drop loc)

/-- `Keyword` match: prefix plus word boundaries on both sides
(`identChars` is alphanumerics, `_`, `$`). -/
def kwAt (s : List Char) (loc : Nat) (pat : String) : Bool :=
  litAt s loc pat
    && (match at? s (loc + pat.length) with
        | some c => !isKwChar c
        | none => true)
    && (loc == 0 ||
        match at? s (loc - 1) with
        | some c => !isKwChar c
        | none => true)

/-- `oneOf`: first symbol of the (already conflict-reordered) list that is
a prefix of the input at `loc`. -/
def oneOfAt (s : List Char) (loc : Nat) : List String → Option String
  | [] => none
  | p :: ps => if litAt s loc p then some p else oneOfAt s loc ps

/-- Parse outcome: success with the new location, tokens and named
results; an ordinary `ParseException`; a `ParseFatalException`; a Python
exception escaping a parse action; or fuel exhaustion. -/
inductive POut where
  | ok (loc : Nat) (toks : List Tok) (names : List NB)
  | err
  | fatal
  | crash (k : CrashKind)
  | timeout

/-! ## The grammar of `parser.py`, transcribed definition by definition

Prefix `pe` distinguishes the grammar constants from Lean builtins.  The
`oneOf` symbol lists are written in the conflict-reordered form produced by
pyparsing's `one_of` (a longer symbol is moved before any of its prefixes);
for the keyword set this puts `ifdef` before `if` and `foreach` before
`for`, the other lists keep their source order except `<=`/`<>` before `<`
and `>=` before `>`. -/

def peLPAREN : PE := .supp (.lit "(")
def peRPAREN : PE := .supp (.lit ")")
def peLBRACK : PE := .supp (.lit "[")
def peRBRACK : PE := .supp (.lit "]")
def peLABRACK : PE := .supp (.lit "<")
def peRABRACK : PE := .supp (.lit ">")
def peCOMMA : PE := .supp (.lit ",")
def peCOLON : PE := .supp (.lit ":")
def peDCOLON : PE := .supp (.lit "::")

def keywordList : List String :=
  ["ifdef", "if", "elif", "else", "switch", "case", "default", "while",
   "foreach", "for", "try", "catch", "finally", "release", "debug",
   "block", "end", "break", "continue", "return", "do", "throw", "func",
   "class", "enum", "var", "const", "alias", "import", "assert", "true",
   "false"]

def peKEYWORDS : PE := .oneOf keywordList

/-- `Name = NotAny(KEYWORDS) + Regex(r'[A-Za-z_][0-9A-Za-z_]*')`, parse
action `SymbolNode.parse`.  `BlockName`, `CName`, `FName`, `VName`,
`EName` and `ConstName` are the same object renamed (`setName` returns
`self`). -/
def peName : PE := .act .symbolParse (.andP [.notAny peKEYWORDS, .rx .ident])

def peSourceName : PE := .rx .sourceName

def peClassName : PE :=
  .act .symbolParse (.comb (.andP
    [.opt (.andP [peSourceName, .lit "@"]),
     .many0 (.andP [peName, .lit "."]), peName]))

def peFunctionName : PE :=
  .act .symbolParse (.comb (.andP [.opt (.andP [peClassName, .lit "."]), peName]))

def peVariableName : PE :=
  .act .symbolParse (.comb (.andP [.opt (.andP [peClassName, .lit "."]), peName]))

def peEnumName : PE :=
  .act .symbolParse (.comb (.andP [.opt (.andP [peClassName, .lit "#"]), peName]))

def peConstantName : PE :=
  .act .symbolParse (.orP
    [.comb (.andP [.opt (.andP [peClassName, .lit "."]), peName]),
     .comb (.andP [peEnumName, .lit "#", peName])])

def pePrimitiveType : PE :=
  .act .symbolParse (.orP
    [.oneOf ["int", "float", "char", "bool"],
     .oneOf ["byte8", "byte16", "byte32", "byte64"],
     .oneOf ["sbyte8", "sbyte16", "sbyte32", "sbyte64"]])

/-- `delimitedList(expr)` = `expr + ZeroOrMore(Suppress(",") + expr)`. -/
def dlist (p : PE) : PE := .andP [p, .many0 (.andP [peCOMMA, p])]

def peListType : PE :=
  .act .collectionType (.andP
    [.kw "list", peLABRACK, .named "item_type" false false (.fwd .type'), peRABRACK])

def peStackType : PE :=
  .act .collectionType (.andP
    [.kw "stack", peLABRACK, .named "item_type" false false (.fwd .type'), peRABRACK])

def peQueueType : PE :=
  .act .collectionType (.andP
    [.kw "queue", peLABRACK, .named "item_type" false false (.fwd .type'), peRABRACK])

def peDictType : PE :=
  .act .dictType (.andP
    [.kw "dict", peLABRACK, .named "keytype" false false (.fwd .type'), peCOMMA,
     .named "valtype" false false (.fwd .type'), peRABRACK])

def peFuncType : PE :=
  .act .funcType (.andP
    [.kw "func", peLABRACK, peLPAREN,
     .named "argtype" true true (dlist (.fwd .type')), peRPAREN,
     peCOLON, .named "rettype" false false (.fwd .type'), peRABRACK])

def peArrayType : PE :=
  .act .arrayType (.andP
    [.named "size" false true
       (.many1 (.act .arraySize (.andP [peLBRACK, .opt (.fwd .expr), peRBRACK]))),
     .named "base_type" false false (.fwd .type')])

/-- The target of the `Type` forward. -/
def peTypeBody : PE :=
  .orP [pePrimitiveType, peEnumName, peClassName,
        peListType, peStackType, peQueueType, peDictType,
        peFuncType, peArrayType]

def peString : PE := .act .stringAct (.rx .string)
def peChar : PE := .act .charAct (.rx .char)

def peBoolean : PE :=
  .orP [.act .boolTrue (.kw "true"), .act .boolFalse (.kw "false")]

/-- The target of the `Number` forward. -/
def peNumberBody : PE :=
  .act .numberAct (.andP
    [.opt (.named "sign" false false (.rx .sign)),
     .named "body" false false (.orP [.rx .baseX, .rx .base10, .rx .base16]),
     .opt (.andP [.lit "e", .named "precision" false false (.fwd .number)])])

def peValue : PE :=
  .act .valueNode (dlist (.act .valueItem (.grp (.andP
    [.named "start" false false (.fwd .expr),
     .opt (.andP [.supp (.kw "@to"), .named "end" false false (.fwd .expr)])]))))

/-! ### The expression cascade -/

def peBaseExpr : PE :=
  .orP [peString, peChar, peBoolean, peVariableName, peConstantName, peName]

def peNestedExpr : PE := .andP [peLPAREN, .fwd .expr, peRPAREN]

def peTmpAtom : PE := .orP [peBaseExpr, peNestedExpr]

/-- Level 2: function call. -/
def peTmpCall : PE :=
  .orP [.act .funcCall (.andP
          [.followedBy (.andP [peFunctionName, peLPAREN]),
           .named "funcname" false false peFunctionName, peLPAREN,
           .opt (.named "args" false true (dlist (.fwd .expr))), peRPAREN]),
        peTmpAtom]

/-- Level 2: array access. -/
def peTmpIndex : PE :=
  .orP [.act .arrayAccess (.andP
          [.followedBy (.andP [peVariableName, peLBRACK]),
           .named "array" false false peVariableName,
           peLBRACK, .named "index" false false (.fwd .expr), peRBRACK]),
        peTmpCall]

/-- Level 3: `@new`. -/
def peTmpNew : PE :=
  .orP [.act .newNode (.andP
          [.followedBy (.andP [.lit "@new", .fwd .type']),
           .andP [.supp (.lit "@new"), .named "type" false false (.fwd .type')]]),
        peTmpIndex]

def peUnaryOp : PE := .act .symbolParse (.oneOf ["+", "-", "!"])

/-- Level 3: unary operators (`make_unary_expr`, right-associative); the
target of the local `thisExpr` forward. -/
def peUnaryThis : PE :=
  .orP [.act .exprUnary (.andP
          [.followedBy (.andP [peUnaryOp, .fwd .unary]),
           .grp (.andP [.opt peUnaryOp, .fwd .unary])]),
        peTmpNew]

/-- `tmp_expr = Number | make_unary_expr(...)`. -/
def peTmpUnary : PE := .orP [.fwd .number, .fwd .unary]

def peClassCheckOp : PE := .act .symbolParse (.oneOf ["@is", "@nis"])

/-- Level 4: class check. -/
def peTmpIs : PE :=
  .orP [.andP [.followedBy (.andP [peTmpUnary, peClassCheckOp, peClassName]),
               .act .exprBinary (.grp (.andP
                 [peTmpUnary, .many1 (.andP [peClassCheckOp, peClassName])]))],
        peTmpUnary]

def peCastOp : PE := .act .symbolParse (.lit "$")

/-- Level 5: cast. -/
def peTmpCast : PE :=
  .orP [.andP [.followedBy (.andP [peTmpIs, peCastOp, .fwd .type']),
               .act .exprBinary (.grp (.andP [peTmpIs, peCastOp, .fwd .type']))],
        peTmpIs]

/-- `make_binary_expr(lastExpr, opExpr, opAssoc.LEFT)`. -/
def makeBinaryLeft (lastExpr opExpr : PE) : PE :=
  .orP [.act .exprBinary (.andP
          [.followedBy (.andP [lastExpr, opExpr, lastExpr]),
           .grp (.andP [lastExpr, .many1 (.andP [opExpr, lastExpr])])]),
        lastExpr]

/-- Level 7: `* / %`. -/
def peTmpMul : PE := makeBinaryLeft peTmpCast (.act .symbolParse (.oneOf ["*", "/", "%"]))

/-- Level 8: `+ -`. -/
def peTmpAdd : PE := makeBinaryLeft peTmpMul (.act .symbolParse (.oneOf ["+", "-"]))

/-- Level 9: `~`. -/
def peTmpCat : PE := makeBinaryLeft peTmpAdd (.act .symbolParse (.lit "~"))

/-- Level 10: comparisons (conflict-reordered operator list). -/
def peTmpCmp : PE :=
  makeBinaryLeft peTmpCat (.act .symbolParse (.oneOf ["=", "<>", "<=", "<", ">=", ">"]))

/-- Levels 11–12: `& |`. -/
def peTmpAndOr : PE := makeBinaryLeft peTmpCmp (.act .symbolParse (.oneOf ["&", "|"]))

/-- Level 13: the ternary `cond ?(a, b)`; `?` and `(` must be adjacent
(`Combine`). -/
def peTmpTernary : PE :=
  .orP [.andP [.followedBy (.andP
                 [peTmpAndOr, .comb (.andP [.lit "?", peLPAREN]),
                  peTmpAndOr, peCOMMA, peTmpAndOr, peRPAREN]),
               .act .exprTernary (.grp (.andP
                 [peTmpAndOr, .supp (.comb (.andP [.lit "?", peLPAREN])),
                  peTmpAndOr, peCOMMA, peTmpAndOr, peRPAREN]))],
        peTmpAndOr]

def peAssignOp : PE :=
  .act .symbolParse (.oneOf ["::", ":+", ":-", ":*", ":/", ":%", ":^", ":~"])

/-- Level 14: assignment operators (`make_binary_expr`, right-associative);
this is also the final `tmp_expr`, i.e. the target of the `Expr` forward. -/
def peTmpAssign : PE :=
  .orP [.act .exprBinary (.andP
          [.followedBy (.andP [peTmpTernary, peAssignOp, .fwd .assign]),
           .grp (.andP [peTmpTernary, .many1 (.andP [peAssignOp, .fwd .assign])])]),
        peTmpTernary]

/-! ### Statements -/

def peIf : PE :=
  .act .ifNode (.andP
    [.supp (.kw "if"),
     .opt (.named "block_name" false false peName),
     peLPAREN, .named "then_cond" false false (.fwd .expr), peRPAREN,
     .opt (.named "then_body" false false (.grp (.fwd .sentences))),
     .many0 (.andP
       [.supp (.kw "elif"),
        peLPAREN, .named "elif_cond" true false (.fwd .expr), peRPAREN,
        .opt (.named "elif_body" true false (.grp (.fwd .sentences)))]),
     .opt (.andP
       [.supp (.kw "else"),
        .opt (.named "else_body" false false (.grp (.fwd .sentences)))]),
     .supp (.andP [.kw "end", .kw "if"])])

def peSwitchCase : PE :=
  .act .switchCase (.andP
    [.supp (.kw "case"), .named "value" false false peValue,
     .opt (.named "body" false false (.grp (.fwd .sentences)))])

def peSwitchDefault : PE :=
  .act .switchDefault (.andP
    [.supp (.kw "default"),
     .opt (.named "body" false false (.grp (.fwd .sentences)))])

def peSwitch : PE :=
  .act .switchNode (.andP
    [.supp (.kw "switch"),
     .opt (.named "block_name" false false peName),
     peLPAREN, .named "target" false false (.fwd .expr), peRPAREN,
     .many0 (.named "case" true false (.grp peSwitchCase)),
     .opt (.named "case" true false (.grp peSwitchDefault)),
     .supp (.andP [.kw "end", .kw "switch"])])

def peWhile : PE :=
  .act .whileNode (.andP
    [.supp (.kw "while"),
     .opt (.named "block_name" false false peName),
     peLPAREN, .named "cond" false false (.fwd .expr),
     .opt (.andP [peCOMMA, .named "skip" false false (.fwd .expr)]), peRPAREN,
     .opt (.named "body" false false (.grp (.fwd .sentences))),
     .supp (.andP [.kw "end", .kw "while"])])

def peFor : PE :=
  .act .forNode (.andP
    [.supp (.kw "for"),
     .opt (.named "block_name" false false peName),
     peLPAREN, .named "start" false false (.fwd .expr), peCOMMA,
     .named "end" false false (.fwd .expr),
     .opt (.andP [peCOMMA, .named "step" false false (.fwd .expr)]), peRPAREN,
     .opt (.named "body" false false (.grp (.fwd .sentences))),
     .supp (.andP [.kw "end", .kw "for"])])

def peForeach : PE :=
  .act .foreachNode (.andP
    [.supp (.kw "foreach"),
     .opt (.named "block_name" false false peName),
     peLPAREN, .named "items" false false (.fwd .expr), peRPAREN,
     .opt (.named "body" false false (.grp (.fwd .sentences))),
     .supp (.andP [.kw "end", .kw "foreach"])])

def peTry : PE :=
  .act .tryNode (.andP
    [.supp (.kw "try"),
     .opt (.named "block_name" false false peName),
     peLPAREN, .opt (.named "ignore_value" false false peValue), peRPAREN,
     .opt (.named "body" false false (.grp (.fwd .sentences))),
     .opt (.andP
       [.supp (.kw "catch"),
        .opt (.named "catch_value" false false peValue),
        .opt (.named "catch_body" false false (.grp (.fwd .sentences)))]),
     .opt (.andP
       [.supp (.kw "finally"),
        .opt (.named "finally_body" false false (.grp (.fwd .sentences)))]),
     .supp (.andP [.kw "end", .kw "try"])])

def peIfdefMode : PE :=
  .orP [.act .ifdefRelease (.kw "release"), .act .ifdefDebug (.kw "debug")]

def peIfdef : PE :=
  .act .ifdefNode (.andP
    [.supp (.kw "ifdef"),
     .opt (.named "block_name" false false peName),
     peLPAREN, .named "mode" false false peIfdefMode, peRPAREN,
     .opt (.named "body" false false (.grp (.fwd .sentences))),
     .supp (.andP [.kw "end", .kw "ifdef"])])

def peBlock : PE :=
  .act .blockNode (.andP
    [.supp (.kw "block"),
     .opt (.named "block_name" false false peName),
     .opt (.named "body" false false (.grp (.fwd .sentences))),
     .supp (.andP [.kw "end", .kw "block"])])

def peDo : PE :=
  .act .doNode (.andP [.supp (.kw "do"), .named "expr" false false (.fwd .expr)])

def peImport : PE := .andP [.supp (.kw "import"), peSourceName]

def peBreak : PE :=
  .act .breakNode (.andP
    [.supp (.kw "break"), .opt (.named "block_name" false false peName)])

def peContinue : PE :=
  .act .continueNode (.andP
    [.supp (.kw "continue"), .opt (.named "block_name" false false peName)])

def peReturn : PE :=
  .act .returnNode (.andP
    [.supp (.kw "return"), .opt (.named "value" false false (.fwd .expr))])

def peAssert : PE :=
  .act .assertNode (.andP [.supp (.kw "assert"), .named "expr" false false (.fwd .expr)])

def peThrow : PE :=
  .act .throwNode (.andP
    [.supp (.kw "throw"), .named "code" false false (.fwd .expr),
     peCOMMA, .named "message" false false (.fwd .expr)])

/-! ### Definitions -/

/-- `Func` has no parse action and no node class: a function definition
parses to its loose tokens (name, parameter names and types, return type,
body group). -/
def peFunc : PE :=
  .andP
    [.supp (.kw "func"), peName,
     peLPAREN,
     .opt (.andP [peName, peCOLON, .fwd .type',
                  .many0 (.andP [peCOMMA, peName, peCOLON, .fwd .type'])]),
     peRPAREN,
     .opt (.andP [peCOLON, .fwd .type']),
     .opt (.grp (.fwd .sentences)),
     .supp (.andP [.kw "end", .kw "func"])]

def peVar : PE :=
  .act .varNode (.andP
    [.supp (.kw "var"), .named "varname" false false peName,
     peCOLON, .named "typename" false false (.fwd .type'),
     .opt (.andP [peDCOLON, .named "value" false false (.fwd .expr)])])

def peConst : PE :=
  .act .constNode (.andP
    [.supp (.kw "const"), .named "varname" false false peName,
     peCOLON, .named "typename" false false (.fwd .type'),
     peDCOLON, .named "value" false false (.fwd .expr)])

def peAlias : PE :=
  .act .aliasNode (.andP
    [.supp (.kw "alias"), .named "alias" false false peName,
     peCOLON, .named "typename" false false (.fwd .type')])

def peEnumMember : PE :=
  .act .enumMember (.andP
    [.named "key" false false peName,
     .opt (.andP [peDCOLON, .named "value" false false (.fwd .expr)])])

def peEnum : PE :=
  .act .enumNode (.andP
    [.supp (.kw "enum"), .named "name" false false peName,
     .named "member" false true (.many1 peEnumMember),
     .supp (.andP [.kw "end", .kw "enum"])])

def peClassMember : PE :=
  .orP [peFunc, peVar, peConst, peAlias, .fwd .cls, peEnum]

/-- The target of the `Class` forward. -/
def peClassBody : PE :=
  .act .classNode (.andP
    [.supp (.kw "class"), .named "name" false false peName,
     .opt (.andP [peCOLON, .named "parent" false false peClassName]),
     .many0 (.andP
       [.opt (.named "visibility" true false (.oneOf ["+", "-"])),
        .opt (.named "override" true false (.lit "*")),
        .named "member" true false peClassMember]),
     .supp (.andP [.kw "end", .kw "class"])])

/-- `Comment`: nestable braces whose body may contain string and char
literals; the target of the `Comment` forward. -/
def peCommentBody : PE :=
  .andP [.lit "\x7b",
         .many0 (.orP [peString, peChar, .fwd .comment, .rx .chunk]),
         .lit "\x7d"]

/-! ### Sentences -/

def peBlockStatement : PE :=
  .orP [peIf, peSwitch, peWhile, peFor, peForeach, peTry, peIfdef, peBlock]

def peSimpleSentence : PE :=
  .orP [peDo, peImport, peBreak, peContinue, peReturn, peAssert, peThrow]

def peDefinition : PE :=
  .orP [peFunc, peVar, peConst, peAlias, .fwd .cls, peEnum]

def peSentence : PE := .orP [peBlockStatement, peSimpleSentence, peDefinition]

/-- `Sentences << ZeroOrMore(Sentence).ignore(Comment)`; the ignorable is
handled by the interpreter's `ig` flag. -/
def peSentences : PE := .many0 peSentence

/-- Resolution of the forwards. -/
def fwdEnv : FwdId → PE
  | .expr => peTmpAssign
  | .assign => peTmpAssign
  | .unary => peUnaryThis
  | .number => peNumberBody
  | .type' => peTypeBody
  | .sentences => peSentences
  | .cls => peClassBody
  | .comment => peCommentBody

/-! ## The interpreter -/

/-- The ignorable installed by `.ignore(Comment)`: `Suppress(Comment)`. -/
def peIgnorable : PE := .supp (.fwd .comment)

/-- `_parse` of a parser element: `run fuel p s loc pre adj ig`.

* `pre` — `callPreParse`: perform the element's pre-parse (ignorable and
  whitespace skipping) before matching;
* `adj` — inside a `Combine`: all skipping disabled;
* `ig` — the `Comment` ignorable is active.

Fuel is consumed on every recursive step; exhaustion yields `.timeout`.
The skip itself runs `ZeroOrMore(Suppress(Comment))` with a leading
whitespace skip per attempt, exactly `_skipIgnorables`, then skips
whitespace. -/
def run : Nat → PE → List Char → Nat → Bool → Bool → Bool → POut
  | 0, _, _, _, _, _, _ => .timeout
  | Nat.succ f, p, s, loc, pre, adj, ig =>
    let doSkip : (Nat → POut) → POut := fun k =>
      if pre && !adj then
        if ig then
          match run f (.many0 peIgnorable) s loc true adj false with
          | .ok l2 _ _ => k (runEnd isWs s l2)
          | .timeout => .timeout
          | _ => k (runEnd isWs s loc)
        else k (runEnd isWs s loc)
      else k loc
    match p with
    | .rx r =>
      doSkip (fun l0 =>
        match rxMatch r s l0 with
        | some e => .ok e [.str (slice s l0 e)] []
        | none => .err)
    | .lit str =>
      doSkip (fun l0 =>
        if litAt s l0 str then .ok (l0 + str.length) [.str str] [] else .err)
    | .kw str =>
      doSkip (fun l0 =>
        if kwAt s l0 str then .ok (l0 + str.length) [.str str] [] else .err)
    | .oneOf ss =>
      doSkip (fun l0 =>
        match oneOfAt s l0 ss with
        | some m => .ok (l0 + m.length) [.str m] []
        | none => .err)
    | .andP [] => .ok loc [] []
    | .andP (q :: qs) =>
      (match run f q s loc pre adj ig with
       | .ok l t n =>
         match run f (.andP qs) s l true adj ig with
         | .ok l2 t2 n2 => .ok l2 (t ++ t2) (n ++ n2)
         | r => r
       | r => r)
    | .orP [] => .err
    | .orP (q :: qs) =>
      (match run f q s loc true adj ig with
       | .err => run f (.orP qs) s loc true adj ig
       | r => r)
    | .opt q =>
      (match run f q s loc pre adj ig with
       | .err => .ok loc [] []
       | r => r)
    | .many0 q =>
      (match run f q s loc true adj ig with
       | .ok l t n =>
         match run f (.many0 q) s l true adj ig with
         | .ok l2 t2 n2 => .ok l2 (t ++ t2) (n ++ n2)
         | .err => .ok l t n
         | r => r
       | .err => .ok loc [] []
       | r => r)
    | .many1 q =>
      (match run f q s loc true adj ig with
       | .ok l t n =>
         match run f (.many0 q) s l true adj ig with
         | .ok l2 t2 n2 => .ok l2 (t ++ t2) (n ++ n2)
         | .err => .ok l t n
         | r => r
       | r => r)
    | .notAny q =>
      -- `can_parse_next`: actions disabled, fatal converted; the only use
      -- is `NotAny(KEYWORDS)`, which has no actions.
      (match run f q s loc true adj ig with
       | .ok _ _ _ => .err
       | .err => .ok loc [] []
       | .fatal => .ok loc [] []
       | r => r)
    | .followedBy q =>
      (match run f q s loc true adj ig with
       | .ok _ _ n => .ok loc [] n
       | r => r)
    | .grp q =>
      (match run f q s loc pre adj ig with
       | .ok l t n => .ok l [.group t n] []
       | r => r)
    | .supp q =>
      (match run f q s loc pre adj ig with
       | .ok l _ _ => .ok l [] []
       | r => r)
    | .comb q =>
      doSkip (fun l0 =>
        match run f q s l0 false true ig with
        | .ok l t n => .ok l [.str (pyJoin t)] n
        | r => r)
    | .named nm la ba q =>
      (match run f q s loc pre adj ig with
       | .ok l t n =>
         match t with
         | [] => .ok l t n
         | v0 :: _ =>
           .ok l t (n ++ [.mk nm la (if ba then .group t [] else v0)])
       | r => r)
    | .act a q =>
      (match run f q s loc pre adj ig with
       | .ok l t n =>
         match applyAct a t n with
         | .ok t2 => .ok l t2 []
         | .error .fatal => .fatal
         | .error (.crash k) => .crash k
       | r => r)
    | .fwd id =>
      run f (fwdEnv id) s loc pre adj (if id == FwdId.comment then false else ig)

/-- The trailing `parseAll` check of `parseString`: skip ignorables and
whitespace from the final location and require end of input (`Empty() +
StringEnd()` after `self.preParse`). -/
def finishAll (fuel : Nat) (s : List Char) (loc : Nat) : Option Bool :=
  match run fuel (.many0 peIgnorable) s loc true false false with
  | .ok l _ _ => some (decide (s.length ≤ runEnd isWs s l))
  | .timeout => none
  | _ => some (decide (s.length ≤ runEnd isWs s loc))

/-- Outcome of `parse_expr`. -/
inductive EOut where
  | ok (t : Tok)
  | err
  | fatal
  | crash (k : CrashKind)
  | timeout

/-- Outcome of `parse_stmt`. -/
inductive SOut where
  | ok (toks : List Tok) (names : List NB)
  | err
  | fatal
  | crash (k : CrashKind)
  | timeout

/-- Fuel for the entry points, proportional to the input length.  Fuel is
a step bound only: the concrete theorems below show it is not reached on
their inputs. -/
def fuelFor (s : List Char) : Nat :=
  4000 + 400 * s.length

/-- `parse_expr(text)` (`parser.py`): parse one `Expr`, require all input
consumed, return the first result token. -/
def parse_expr (text : String) : EOut :=
  let s := text.toList
  match run (fuelFor s) (.fwd .expr) s 0 true false true with
  | .ok loc toks _ =>
    match finishAll (fuelFor s) s loc with
    | none => .timeout
    | some true =>
      match toks with
      | t :: _ => .ok t
      | [] => .crash .indexError
    | some false => .err
  | .err => .err
  | .fatal => .fatal
  | .crash k => .crash k
  | .timeout => .timeout

/-- `parse_stmt(text)` (`parser.py`): parse `Sentences`, require all input
consumed, return the token sequence with its named results. -/
def parse_stmt (text : String) : SOut :=
  let s := text.toList
  match run (fuelFor s) (.fwd .sentences) s 0 true false true with
  | .ok loc toks names =>
    match finishAll (fuelFor s) s loc with
    | none => .timeout
    | some true => .ok toks names
    | some false => .err
  | .err => .err
  | .fatal => .fatal
  | .crash k => .crash k
  | .timeout => .timeout

/-! ## Supporting lemmas for the number scanner -/

theorem splitOnce_eq_none {sep : Char} {l : List Char} (h : sep ∉ l) :
    splitOnce sep l = none := by
  induction l with
  | nil => rfl
  | cons a l ih =>
    have ha : ¬(a == sep) := by
      simp only [List.mem_cons, not_or] at h
      simp [beq_iff_eq]
      exact fun e => h.1 e.symm
    simp only [splitOnce, ha, if_false, Bool.false_eq_true]
    rw [ih (by simp only [List.mem_cons, not_or] at h; exact h.2)]
    rfl

theorem splitOnce_rest_subset {sep : Char} {l pre rest : List Char}
    (h : splitOnce sep l = some (pre, rest)) : ∀ x ∈ rest, x ∈ l := by
  induction l generalizing pre with
  | nil => simp [splitOnce] at h
  | cons a l ih =>
    by_cases ha : (a == sep) = true
    · simp only [splitOnce, ha, if_true] at h
      cases h
      exact fun x hx => List.mem_cons_of_mem _ hx
    · simp only [splitOnce, ha, Bool.false_eq_true, if_false] at h
      match h2 : splitOnce sep l with
      | none => rw [h2] at h; simp [Option.map] at h
      | some (p', r') =>
        rw [h2] at h
        simp only [Option.map, Option.some.injEq] at h
        cases h
        exact fun x hx => List.mem_cons_of_mem _ (ih h2 x hx)

/-- Without a fractional part and without an exponent, `number_action`
never yields a float: the body splits on `#` (if present), the digit part
contains no `.`, so the value is built by `int(body, radix)`. -/
theorem numberCore_int_of_no_dot (sign : String) (body : List Char)
    (h : '.' ∉ body) (q : ℚ) : numberCore sign body none ≠ .ok (.pyreal q) := by
  unfold numberCore
  cases h1 : splitOnce '#' body with
  | none =>
    cases h2 : intParse body 10 with
    | none => simp [splitOnce_eq_none h, h2]
    | some n =>
      by_cases hs : sign == "-" <;> simp [splitOnce_eq_none h, h2, hs]
  | some pr =>
    obtain ⟨pre, rest⟩ := pr
    have hrest : '.' ∉ rest := fun hx => h (splitOnce_rest_subset h1 '.' hx)
    by_cases hp : pre.isEmpty
    · cases h2 : intParse rest 16 with
      | none => simp [splitOnce_eq_none hrest, hp, h2]
      | some n =>
        by_cases hs : sign == "-" <;> simp [splitOnce_eq_none hrest, hp, h2, hs]
    · cases h3 : intParse pre 10 with
      | none => simp [hp, h3]
      | some r =>
        by_cases hr : ((r < 2 ∨ 36 < r) ∨ r = 10) ∨ r = 16
        · simp [hp, h3, hr]
        · cases h2 : intParse rest r with
          | none => simp [splitOnce_eq_none hrest, hp, h3, hr, h2]
          | some n =>
            by_cases hs : sign == "-" <;>
              simp [splitOnce_eq_none hrest, hp, h3, hr, h2, hs]

/-! ## Supporting lemmas for the enum counter -/

/-- Values Python can increment with `+= 1`. -/
def addable : Tok → Bool
  | .pyint _ => true
  | .pyreal _ => true
  | .pybool _ => true
  | _ => false

theorem pyAdd1_not_addable {v : Tok} (h : addable v = false) :
    pyAdd1 v = .error (.crash .assertionError) := by
  cases v <;> simp_all [addable, pyAdd1]

/-- If some member carries an explicit value that is not an int, float or
bool, building the enum node always fails (with the assertion failure from
`Node.parse` catching the `TypeError` of `value + 1`). -/
theorem enumFold_not_ok {v : Tok} (hadd : addable v = false) (hn : v ≠ .pynone) :
    ∀ (pre : List Tok) (cur : Tok) (post : List Tok) (k : Tok) (res : List EPair),
    enumFold cur (pre ++ .tup [k, v] :: post) ≠ .ok res := by
  intro pre
  induction pre with
  | nil =>
    intro cur post k res
    have hv : (match v with | .pynone => cur | _ => v) = v := by
      cases v <;> first | rfl | exact absurd rfl hn
    simp only [List.nil_append, enumFold, hv, pyAdd1_not_addable hadd]
    simp [bind, Except.bind]
  | cons t pre ih =>
    intro cur post k res
    simp only [List.cons_append, enumFold]
    match t with
    | .str _ | .pybool _ | .pyint _ | .pyreal _ | .pynone | .group _ _ | .node _ =>
      simp [enumFold]
    | .tup ts =>
      match ts with
      | [] => simp [enumFold]
      | [_] => simp [enumFold]
      | k' :: v' :: _ :: _ => simp [enumFold]
      | [k', v'] =>
        simp only [enumFold]
        cases h1 : pyAdd1 (match v' with | .pynone => cur | _ => v') with
        | error e => simp [bind, Except.bind, h1]
        | ok nxt =>
          simp only [bind, Except.bind, h1]
          cases h2 : enumFold nxt (pre ++ .tup [k, v] :: post) with
          | error e => simp
          | ok tail => exact absurd h2 (ih nxt post k tail)


/-! ## Positional helpers for the trailing-comment development -/

/-- Character lookup in the middle of a decomposed input. -/
theorem at?_mid (u : List Char) (c : Char) (v : List Char) :
    at? (u ++ c :: v) u.length = some c := by
  show (u ++ c :: v).get? u.length = some c
  rw [List.get?_append_right (Nat.le_refl _)]
  simp

/-- Character lookup at the end of the input. -/
theorem at?_end (u : List Char) : at? u u.length = none := by
  simp [at?, List.get?_eq_none]

/-- Dropping the left part of an appended list. -/
theorem drop_mid (u v : List Char) : (u ++ v).drop u.length = v := by
  simp [List.drop_left]

/-- A greedy run over an all-satisfying prefix continues into the tail. -/
theorem runLen_all {p : Char → Bool} {xs : List Char}
    (h : ∀ c ∈ xs, p c = true) (ys : List Char) :
    runLen p (xs ++ ys) = xs.length + runLen p ys := by
  induction xs with
  | nil => simp
  | cons a xs ih =>
    have ha : p a = true := h a (List.mem_cons_self a xs)
    simp [runLen, ha, ih (fun c hc => h c (List.mem_cons_of_mem a hc))]
    omega

/-- A greedy run is stopped by a failing head. -/
theorem runLen_head_false {p : Char → Bool} {c : Char}
    (h : p c = false) (v : List Char) : runLen p (c :: v) = 0 := by
  simp [runLen, h]

/-- A greedy run never exceeds the list length. -/
theorem runLen_le (p : Char → Bool) (xs : List Char) : runLen p xs ≤ xs.length := by
  induction xs with
  | nil => simp [runLen]
  | cons a xs ih => by_cases h : p a <;> simp [runLen, h] <;> omega

/-- A run over a satisfying block followed by a stopped tail. -/
theorem runEnd_block {p : Char → Bool} (u w v : List Char)
    (hw : ∀ c ∈ w, p c = true) (hv : runLen p v = 0) :
    runEnd p (u ++ (w ++ v)) u.length = u.length + w.length := by
  rw [runEnd, drop_mid, runLen_all hw, hv]
  omega

/-- A run stopped inside a block: the prefix before the first failing
character is shorter than the whole block. -/
theorem runLen_stops {p : Char → Bool} {xs : List Char}
    (h : ¬ ∀ c ∈ xs, p c = true) (ys : List Char) :
    runLen p (xs ++ ys) = runLen p xs ∧ runLen p xs < xs.length := by
  induction xs with
  | nil => exact absurd (by simp) h
  | cons a xs ih =>
    by_cases ha : p a = true
    · have h' : ¬ ∀ c ∈ xs, p c = true := by
        intro hall; exact h (by
          intro c hc
          rcases List.mem_cons.1 hc with rfl | hc
          · exact ha
          · exact hall c hc)
      have := ih h'
      simp [runLen, ha, this.1]
      omega
    · have ha' : p a = false := by simpa using ha
      simp [runLen, ha']

/-- `Literal` matches its own text in the middle of the input. -/
theorem litAt_mid (u : List Char) (pat : String) (v : List Char) :
    litAt (u ++ (pat.toList ++ v)) u.length pat = true := by
  rw [litAt, drop_mid]
  exact List.isPrefixOf_iff_prefix.2 (List.prefix_append _ _)

/-- `Literal` fails when the first characters differ. -/
theorem litAt_head_ne {pat : String} {p0 : Char} {pr : List Char}
    (hp : pat.toList = p0 :: pr) {c : Char} (hne : p0 ≠ c)
    (u v : List Char) : litAt (u ++ c :: v) u.length pat = false := by
  rw [litAt, drop_mid, hp]
  simp [List.isPrefixOf, hne]

/-- `Literal` with nonempty text fails at the end of the input. -/
theorem litAt_end {pat : String} {p0 : Char} {pr : List Char}
    (hp : pat.toList = p0 :: pr) (u : List Char) :
    litAt u u.length pat = false := by
  rw [litAt, List.drop_length, hp]
  simp [List.isPrefixOf]

/-! ## Well-formed comments -/

/-- Characters allowed in a comment chunk (`[^\"'{}]`). -/
def chunkOK (c : Char) : Bool :=
  !(c == '"' || c == '\'' || c == '{' || c == '}')

/-- A well-formed string-literal body: escape pairs (not escaping a
newline) and plain characters other than `"` and `\`. -/
inductive StrBody : List Char → Prop where
  | nil : StrBody []
  | esc {d : Char} {r : List Char} : d ≠ '\n' → StrBody r →
      StrBody ('\\' :: d :: r)
  | plain {c : Char} {r : List Char} : c ≠ '"' → c ≠ '\\' → StrBody r →
      StrBody (c :: r)

/-- After a chunk the rest of a comment body is empty or starts a
string, a char literal or a nested comment; this rules out two adjacent
chunks, so each chunk is maximal. -/
def itemHead (rest : List Char) : Prop :=
  rest = [] ∨ (∃ r, rest = '{' :: r) ∨ (∃ r, rest = '"' :: r) ∨
    (∃ r, rest = '\'' :: r)

mutual
/-- A well-formed comment: braces around a well-formed body. -/
inductive Cmt : List Char → Prop where
  | mk {b : List Char} : CmtB b → Cmt ('{' :: (b ++ ['}']))

/-- A well-formed comment body: a sequence of chunks, string literals,
char literals and nested comments. -/
inductive CmtB : List Char → Prop where
  | nil : CmtB []
  | chunk {cs rest : List Char} : cs ≠ [] → (∀ ch ∈ cs, chunkOK ch = true) →
      itemHead rest → CmtB rest → CmtB (cs ++ rest)
  | strI {body rest : List Char} : StrBody body → CmtB rest →
      CmtB ('"' :: (body ++ '"' :: rest))
  | charE {d : Char} {rest : List Char} : d ≠ '\n' → CmtB rest →
      CmtB ('\'' :: '\\' :: d :: '\'' :: rest)
  | charP {ch : Char} {rest : List Char} : ch ≠ '\'' → ch ≠ '\\' → CmtB rest →
      CmtB ('\'' :: ch :: '\'' :: rest)
  | nest {c rest : List Char} : Cmt c → CmtB rest → CmtB (c ++ rest)
end

/-- The string-literal body scanner consumes a well-formed body and the
closing quote exactly, whatever follows. -/
theorem strScanL_exact {body : List Char} (h : StrBody body) (r : List Char) :
    strScanL (body ++ '"' :: r) = some (body.length + 1) := by
  induction h with
  | nil =>
    show strScanL ('"' :: r) = some 1
    conv_lhs => rw [strScanL.eq_def]
    rfl
  | esc hd _ ih =>
    rename_i d r' _
    show strScanL ('\\' :: d :: (r' ++ '"' :: r)) = some (r'.length + 2 + 1)
    conv_lhs => rw [strScanL.eq_def]
    simp [ih, hd]
  | plain hq hb _ ih =>
    rename_i c r' _
    show strScanL (c :: (r' ++ '"' :: r)) = some (r'.length + 1 + 1)
    conv_lhs => rw [strScanL.eq_def]
    have hcb : (c == '\\') = false := by simpa using hb
    simp [ih, hcb, hq]




/-- The run failed with an ordinary parse error (or ran out of fuel). -/
def errT (r : POut) : Prop := r = .timeout ∨ r = .err

/-- The run succeeded with a location satisfying `P` (or ran out of fuel). -/
def okT (r : POut) (P : Nat → List Tok → List NB → Prop) : Prop :=
  r = .timeout ∨ ∃ l t n, r = .ok l t n ∧ P l t n

theorem okT_mono {r : POut} {P Q : Nat → List Tok → List NB → Prop}
    (h : okT r P) (hpq : ∀ l t n, P l t n → Q l t n) : okT r Q := by
  rcases h with h | ⟨l, t, n, hr, hp⟩
  · exact Or.inl h
  · exact Or.inr ⟨l, t, n, hr, hpq l t n hp⟩

/-! ## One-step unfoldings of the interpreter -/

theorem run_zero (p : PE) (s : List Char) (loc : Nat) (pre adj ig : Bool) :
    run 0 p s loc pre adj ig = .timeout := rfl

theorem run_rx_succ (f : Nat) (r : RxId) (s : List Char) (loc : Nat) :
    run (f + 1) (.rx r) s loc true false false =
      (match rxMatch r s (runEnd isWs s loc) with
       | some e => .ok e [.str (slice s (runEnd isWs s loc) e)] []
       | none => .err) := rfl

theorem run_lit_succ (f : Nat) (pat : String) (s : List Char) (loc : Nat) :
    run (f + 1) (.lit pat) s loc true false false =
      (if litAt s (runEnd isWs s loc) pat
       then .ok (runEnd isWs s loc + pat.length) [.str pat] [] else .err) := rfl

theorem run_andP_nil (f : Nat) (s : List Char) (loc : Nat) (pre adj ig : Bool) :
    run (f + 1) (.andP []) s loc pre adj ig = .ok loc [] [] := rfl

theorem run_andP_cons (f : Nat) (q : PE) (qs : List PE) (s : List Char)
    (loc : Nat) (pre adj ig : Bool) :
    run (f + 1) (.andP (q :: qs)) s loc pre adj ig =
      (match run f q s loc pre adj ig with
       | .ok l t n =>
         match run f (.andP qs) s l true adj ig with
         | .ok l2 t2 n2 => .ok l2 (t ++ t2) (n ++ n2)
         | r => r
       | r => r) := rfl

theorem run_orP_nil (f : Nat) (s : List Char) (loc : Nat) (pre adj ig : Bool) :
    run (f + 1) (.orP []) s loc pre adj ig = .err := rfl

theorem run_orP_cons (f : Nat) (q : PE) (qs : List PE) (s : List Char)
    (loc : Nat) (pre adj ig : Bool) :
    run (f + 1) (.orP (q :: qs)) s loc pre adj ig =
      (match run f q s loc true adj ig with
       | .err => run f (.orP qs) s loc true adj ig
       | r => r) := rfl

theorem run_opt_succ (f : Nat) (q : PE) (s : List Char) (loc : Nat)
    (pre adj ig : Bool) :
    run (f + 1) (.opt q) s loc pre adj ig =
      (match run f q s loc pre adj ig with
       | .err => .ok loc [] []
       | r => r) := rfl

theorem run_many0_succ (f : Nat) (q : PE) (s : List Char) (loc : Nat)
    (pre adj ig : Bool) :
    run (f + 1) (.many0 q) s loc pre adj ig =
      (match run f q s loc true adj ig with
       | .ok l t n =>
         match run f (.many0 q) s l true adj ig with
         | .ok l2 t2 n2 => .ok l2 (t ++ t2) (n ++ n2)
         | .err => .ok l t n
         | r => r
       | .err => .ok loc [] []
       | r => r) := rfl

theorem run_supp_succ (f : Nat) (q : PE) (s : List Char) (loc : Nat)
    (pre adj ig : Bool) :
    run (f + 1) (.supp q) s loc pre adj ig =
      (match run f q s loc pre adj ig with
       | .ok l _ _ => .ok l [] []
       | r => r) := rfl

theorem run_act_succ (f : Nat) (a : ActId) (q : PE) (s : List Char) (loc : Nat)
    (pre adj ig : Bool) :
    run (f + 1) (.act a q) s loc pre adj ig =
      (match run f q s loc pre adj ig with
       | .ok l t n =>
         match applyAct a t n with
         | .ok t2 => .ok l t2 []
         | .error .fatal => .fatal
         | .error (.crash k) => .crash k
       | r => r) := rfl

theorem run_fwd_succ (f : Nat) (id : FwdId) (s : List Char) (loc : Nat)
    (pre adj ig : Bool) :
    run (f + 1) (.fwd id) s loc pre adj ig =
      run f (fwdEnv id) s loc pre adj (if id == FwdId.comment then false else ig) := rfl


/-! ## Positional facts for the individual matchers -/

theorem at?_of_drop {s : List Char} {loc : Nat} {c : Char} {v : List Char}
    (h : s.drop loc = c :: v) : at? s loc = some c := by
  show s.get? loc = some c
  have := List.get?_drop s loc 0
  rw [h] at this
  simpa using this.symm

theorem drop_mid1 (u : List Char) (c : Char) (v : List Char) :
    (u ++ c :: v).drop (u.length + 1) = v := by
  have := drop_mid (u ++ [c]) v
  simpa using this

/-- A `Literal` on a single character fails when that character is absent. -/
theorem litAt_one_false {s : List Char} {loc : Nat} {c : Char} (pat : String)
    (hpat : pat.toList = [c]) (h : at? s loc ≠ some c) : litAt s loc pat = false := by
  rw [litAt, hpat]
  cases hd : s.drop loc with
  | nil => rfl
  | cons d tail =>
    have hat : at? s loc = some d := at?_of_drop hd
    have hne : (c == d) = false := by
      cases h' : (c == d) with
      | false => rfl
      | true =>
        rw [beq_iff_eq] at h'
        subst h'
        exact absurd hat h
    simp [List.isPrefixOf, hne]

theorem rxString_none {s : List Char} {loc : Nat} (h : at? s loc ≠ some '"') :
    rxString s loc = none := by
  unfold rxString
  cases hat : at? s loc with
  | none => rfl
  | some c =>
    have hc : c ≠ '"' := fun hc => h (hc ▸ hat)
    split
    · rename_i heq
      injection heq with h2
      exact absurd h2 hc
    · rfl

theorem rxChar_none {s : List Char} {loc : Nat} (h : at? s loc ≠ some '\'') :
    rxChar s loc = none := by
  unfold rxChar
  cases hat : at? s loc with
  | none => rfl
  | some c =>
    have hc : c ≠ '\'' := fun hc => h (hc ▸ hat)
    split
    · rename_i heq
      injection heq with h2
      exact absurd h2 hc
    · rfl

theorem rxChunk_none {s : List Char} {loc : Nat}
    (h : ∀ c, at? s loc = some c → chunkOK c = false) :
    rxChunk s loc = none := by
  unfold rxChunk
  cases hat : at? s loc with
  | none => rfl
  | some c =>
    have hc := h c hat
    have : (c == '"' || c == '\'' || c == '{' || c == '}') = true := by
      have := congrArg Bool.not hc
      simpa [chunkOK] using this
    simp [this]

/-- Whitespace skip across an all-whitespace block up to a non-whitespace
character. -/
theorem wsAdv_mid {w : List Char} (u : List Char) {c0 : Char} (v : List Char)
    (hw : ∀ ch ∈ w, isWs ch = true) (hc : isWs c0 = false) :
    runEnd isWs (u ++ (w ++ c0 :: v)) u.length = u.length + w.length :=
  runEnd_block u w (c0 :: v) hw (runLen_head_false hc v)

/-- The string matcher consumes a well-formed quoted literal exactly. -/
theorem rxString_exact {body : List Char} (u : List Char) (v : List Char)
    (hb : StrBody body) :
    rxString (u ++ ('"' :: (body ++ '"' :: v))) u.length =
      some (u.length + (body.length + 2)) := by
  unfold rxString
  rw [at?_mid u '"' (body ++ '"' :: v)]
  show (strScanL ((u ++ '"' :: (body ++ '"' :: v)).drop (u.length + 1))).map _ = _
  rw [drop_mid1 u '"' (body ++ '"' :: v), strScanL_exact hb]
  simp
  omega

/-- The char matcher consumes an escaped char literal exactly. -/
theorem rxChar_esc {d : Char} (u v : List Char) (hd : d ≠ '\n') :
    rxChar (u ++ ('\'' :: '\\' :: d :: '\'' :: v)) u.length = some (u.length + 4) := by
  unfold rxChar
  rw [at?_mid u '\'' ('\\' :: d :: '\'' :: v)]
  have h1 : at? (u ++ '\'' :: '\\' :: d :: '\'' :: v) (u.length + 1) = some '\\' := by
    have := at?_mid (u ++ ['\'']) '\\' (d :: '\'' :: v)
    simpa using this
  have h2 : at? (u ++ '\'' :: '\\' :: d :: '\'' :: v) (u.length + 2) = some d := by
    have := at?_mid (u ++ ['\'', '\\']) d ('\'' :: v)
    simpa [Nat.add_assoc] using this
  have h3 : at? (u ++ '\'' :: '\\' :: d :: '\'' :: v) (u.length + 3) = some '\'' := by
    have := at?_mid (u ++ ['\'', '\\', d]) '\'' v
    simpa [Nat.add_assoc] using this
  rw [h1, h2]
  simp [h3, hd]

/-- The char matcher consumes a plain char literal exactly. -/
theorem rxChar_plain {ch : Char} (u v : List Char)
    (h1 : ch ≠ '\'') (h2 : ch ≠ '\\') :
    rxChar (u ++ ('\'' :: ch :: '\'' :: v)) u.length = some (u.length + 3) := by
  unfold rxChar
  rw [at?_mid u '\'' (ch :: '\'' :: v)]
  have ha : at? (u ++ '\'' :: ch :: '\'' :: v) (u.length + 1) = some ch := by
    have := at?_mid (u ++ ['\'']) ch ('\'' :: v)
    simpa using this
  have hb : at? (u ++ '\'' :: ch :: '\'' :: v) (u.length + 2) = some '\'' := by
    have := at?_mid (u ++ ['\'', ch]) '\'' v
    simpa [Nat.add_assoc] using this
  rw [ha, hb]
  split
  · split
    · rename_i d e1 e2
      exfalso
      injection e1 with h3
      exact absurd h3 h2
    · simp [h1]
  · rename_i hcontra
    exact (hcontra rfl).elim

/-- The chunk matcher consumes a maximal chunk exactly: all of `c0 :: cs2`
satisfies the chunk class and the continuation starts with a stopper. -/
theorem rxChunk_exact {c0 : Char} {cs2 : List Char} (u : List Char) (v : List Char)
    (h0 : chunkOK c0 = true) (h2 : ∀ c ∈ cs2, chunkOK c = true)
    (hv : runLen chunkOK v = 0) :
    rxChunk (u ++ (c0 :: (cs2 ++ v))) u.length = some (u.length + (1 + cs2.length)) := by
  unfold rxChunk
  rw [at?_mid u c0 (cs2 ++ v)]
  have hcond : (c0 == '"' || c0 == '\'' || c0 == '{' || c0 == '}') = false := by
    have := congrArg Bool.not h0
    simpa [chunkOK] using this
  have hrun : runEnd chunkOK (u ++ c0 :: (cs2 ++ v)) (u.length + 1) =
      u.length + (1 + cs2.length) := by
    have h := runEnd_block (u ++ [c0]) cs2 v h2 hv
    simpa [Nat.add_assoc] using h
  have hrun2 : runEnd (fun c => !(c == '"' || c == '\'' || c == '{' || c == '}'))
      (u ++ c0 :: (cs2 ++ v)) (u.length + 1) = u.length + (1 + cs2.length) := hrun
  show (if (c0 == '"' || c0 == '\'' || c0 == '{' || c0 == '}') = true then (none : Option Nat)
        else some (runEnd (fun c => !(c == '"' || c == '\'' || c == '{' || c == '}'))
          (u ++ c0 :: (cs2 ++ v)) (u.length + 1))) = some (u.length + (1 + cs2.length))
  rw [hcond, if_neg Bool.false_ne_true]
  exact congrArg some hrun2


/-! ## Composition combinators for classified run results -/

theorem orP_nil_err (s : List Char) (loc : Nat) (adj ig : Bool) :
    ∀ g, errT (run g (.orP []) s loc true adj ig) := by
  intro g
  cases g with
  | zero => exact Or.inl rfl
  | succ g => exact Or.inr rfl

theorem orP_cons_err {q : PE} {qs : List PE} {s : List Char} {loc : Nat} {adj ig : Bool}
    (h1 : ∀ g, errT (run g q s loc true adj ig))
    (h2 : ∀ g, errT (run g (.orP qs) s loc true adj ig)) :
    ∀ g, errT (run g (.orP (q :: qs)) s loc true adj ig) := by
  intro g
  cases g with
  | zero => exact Or.inl rfl
  | succ g =>
    rw [run_orP_cons]
    rcases h1 g with h | h
    · rw [h]; exact Or.inl rfl
    · rw [h]; exact h2 g

theorem orP_cons_ok {q : PE} {qs : List PE} {s : List Char} {loc : Nat} {adj ig : Bool}
    {P : Nat → List Tok → List NB → Prop}
    (h1 : ∀ g, okT (run g q s loc true adj ig) P) :
    ∀ g, okT (run g (.orP (q :: qs)) s loc true adj ig) P := by
  intro g
  cases g with
  | zero => exact Or.inl rfl
  | succ g =>
    rw [run_orP_cons]
    rcases h1 g with h | ⟨l, t, n, hr, hp⟩
    · rw [h]; exact Or.inl rfl
    · rw [hr]; exact Or.inr ⟨l, t, n, rfl, hp⟩

theorem orP_cons_skip {q : PE} {qs : List PE} {s : List Char} {loc : Nat} {adj ig : Bool}
    {P : Nat → List Tok → List NB → Prop}
    (h1 : ∀ g, errT (run g q s loc true adj ig))
    (h2 : ∀ g, okT (run g (.orP qs) s loc true adj ig) P) :
    ∀ g, okT (run g (.orP (q :: qs)) s loc true adj ig) P := by
  intro g
  cases g with
  | zero => exact Or.inl rfl
  | succ g =>
    rw [run_orP_cons]
    rcases h1 g with h | h
    · rw [h]; exact Or.inl rfl
    · rw [h]; exact h2 g

theorem many0_stop {q : PE} {s : List Char} {loc : Nat} {adj ig : Bool}
    (h : ∀ g, errT (run g q s loc true adj ig)) :
    ∀ g, okT (run g (.many0 q) s loc true adj ig)
      (fun l t n => l = loc ∧ t = [] ∧ n = []) := by
  intro g
  cases g with
  | zero => exact Or.inl rfl
  | succ g =>
    rw [run_many0_succ]
    rcases h g with h' | h'
    · rw [h']; exact Or.inl rfl
    · rw [h']; exact Or.inr ⟨loc, [], [], rfl, rfl, rfl, rfl⟩

theorem many0_chain {q : PE} {s : List Char} {loc l1 : Nat} {adj ig : Bool}
    {Pl : Nat → Prop}
    (h1 : ∀ g, okT (run g q s loc true adj ig) (fun l _ _ => l = l1))
    (h2 : ∀ g, okT (run g (.many0 q) s l1 true adj ig) (fun l _ _ => Pl l)) :
    ∀ g, okT (run g (.many0 q) s loc true adj ig) (fun l _ _ => Pl l) := by
  intro g
  cases g with
  | zero => exact Or.inl rfl
  | succ g =>
    rw [run_many0_succ]
    rcases h1 g with h | ⟨l, t, n, hr, hl⟩
    · rw [h]; exact Or.inl rfl
    · subst hl
      rw [hr]
      show okT (match run g (.many0 q) s l true adj ig with
        | POut.ok l2 t2 n2 => POut.ok l2 (t ++ t2) (n ++ n2)
        | POut.err => POut.ok l t n
        | r => r) (fun l _ _ => Pl l)
      rcases h2 g with h' | ⟨l2, t2, n2, hr', hp⟩
      · rw [h']; exact Or.inl rfl
      · rw [hr']; exact Or.inr ⟨l2, t ++ t2, n ++ n2, rfl, hp⟩

theorem andP_cons_err {q : PE} {qs : List PE} {s : List Char} {loc : Nat}
    {pre adj ig : Bool}
    (h : ∀ g, errT (run g q s loc pre adj ig)) :
    ∀ g, errT (run g (.andP (q :: qs)) s loc pre adj ig) := by
  intro g
  cases g with
  | zero => exact Or.inl rfl
  | succ g =>
    rw [run_andP_cons]
    rcases h g with h' | h'
    · rw [h']; exact Or.inl rfl
    · rw [h']; exact Or.inr rfl

theorem andP_nil_ok (s : List Char) (loc : Nat) (adj ig : Bool) :
    ∀ g, okT (run g (.andP []) s loc true adj ig)
      (fun l t n => l = loc ∧ t = [] ∧ n = []) := by
  intro g
  cases g with
  | zero => exact Or.inl rfl
  | succ g => exact Or.inr ⟨loc, [], [], rfl, rfl, rfl, rfl⟩

theorem andP_cons_chain {q : PE} {qs : List PE} {s : List Char} {loc l1 : Nat}
    {pre adj ig : Bool} {Pl : Nat → Prop}
    (h1 : ∀ g, okT (run g q s loc pre adj ig) (fun l _ _ => l = l1))
    (h2 : ∀ g, okT (run g (.andP qs) s l1 true adj ig) (fun l _ _ => Pl l)) :
    ∀ g, okT (run g (.andP (q :: qs)) s loc pre adj ig) (fun l _ _ => Pl l) := by
  intro g
  cases g with
  | zero => exact Or.inl rfl
  | succ g =>
    rw [run_andP_cons]
    rcases h1 g with h | ⟨l, t, n, hr, hl⟩
    · rw [h]; exact Or.inl rfl
    · subst hl
      rw [hr]
      show okT (match run g (.andP qs) s l true adj ig with
        | POut.ok l2 t2 n2 => POut.ok l2 (t ++ t2) (n ++ n2)
        | r => r) (fun l _ _ => Pl l)
      rcases h2 g with h' | ⟨l2, t2, n2, hr', hp⟩
      · rw [h']; exact Or.inl rfl
      · rw [hr']; exact Or.inr ⟨l2, t ++ t2, n ++ n2, rfl, hp⟩

theorem act_err {a : ActId} {q : PE} {s : List Char} {loc : Nat} {pre adj ig : Bool}
    (h : ∀ g, errT (run g q s loc pre adj ig)) :
    ∀ g, errT (run g (.act a q) s loc pre adj ig) := by
  intro g
  cases g with
  | zero => exact Or.inl rfl
  | succ g =>
    rw [run_act_succ]
    rcases h g with h' | h'
    · rw [h']; exact Or.inl rfl
    · rw [h']; exact Or.inr rfl

/-- An `act` whose action maps single string tokens through `stringAction`
(the string and char literal actions) preserves a location property. -/
theorem act_string_ok {a : ActId} {q : PE} {s : List Char} {loc : Nat}
    {pre adj ig : Bool} {Pl : Nat → Prop}
    (ha : a = ActId.stringAct ∨ a = ActId.charAct)
    (h : ∀ g, okT (run g q s loc pre adj ig)
      (fun l t _ => Pl l ∧ ∃ str, t = [.str str])) :
    ∀ g, okT (run g (.act a q) s loc pre adj ig) (fun l _ _ => Pl l) := by
  intro g
  cases g with
  | zero => exact Or.inl rfl
  | succ g =>
    rw [run_act_succ]
    rcases h g with h' | ⟨l, t, n, hr, hp, str, ht⟩
    · rw [h']; exact Or.inl rfl
    · rw [hr, ht]
      rcases ha with rfl | rfl
      · exact Or.inr ⟨l, [.str (stringAction str)], [], rfl, hp⟩
      · exact Or.inr ⟨l, [.str (stringAction str)], [], rfl, hp⟩

/-! ## Failure of each comment-body alternative at a stopper character -/

theorem peString_fails {s : List Char} {loc : Nat}
    (h : at? s (runEnd isWs s loc) ≠ some '"') :
    ∀ g, errT (run g peString s loc true false false) := by
  have hm : ∀ g, errT (run g (.rx .string) s loc true false false) := by
    intro g
    cases g with
    | zero => exact Or.inl rfl
    | succ g =>
      rw [run_rx_succ]
      have hnone : rxMatch .string s (runEnd isWs s loc) = none := rxString_none h
      rw [hnone]
      exact Or.inr rfl
  exact act_err hm

theorem peChar_fails {s : List Char} {loc : Nat}
    (h : at? s (runEnd isWs s loc) ≠ some '\'') :
    ∀ g, errT (run g peChar s loc true false false) := by
  have hm : ∀ g, errT (run g (.rx .char) s loc true false false) := by
    intro g
    cases g with
    | zero => exact Or.inl rfl
    | succ g =>
      rw [run_rx_succ]
      have hnone : rxMatch .char s (runEnd isWs s loc) = none := rxChar_none h
      rw [hnone]
      exact Or.inr rfl
  exact act_err hm

theorem chunk_fails {s : List Char} {loc : Nat}
    (h : ∀ c, at? s (runEnd isWs s loc) = some c → chunkOK c = false) :
    ∀ g, errT (run g (.rx .chunk) s loc true false false) := by
  intro g
  cases g with
  | zero => exact Or.inl rfl
  | succ g =>
    rw [run_rx_succ]
    have hnone : rxMatch .chunk s (runEnd isWs s loc) = none := rxChunk_none h
    rw [hnone]
    exact Or.inr rfl

/-- The comment alternatives of `Comment`'s body. -/
def cmtAlts : List PE := [peString, peChar, .fwd .comment, .rx .chunk]

theorem comment_fails {s : List Char} {loc : Nat}
    (h : at? s (runEnd isWs s loc) ≠ some '{') :
    ∀ g, errT (run g (.fwd .comment) s loc true false false) := by
  intro g
  cases g with
  | zero => exact Or.inl rfl
  | succ g =>
    rw [run_fwd_succ]
    show errT (run g (.andP [.lit "\x7b", .many0 (.orP cmtAlts), .lit "\x7d"]) s loc true false false)
    have hlit : ∀ g2, errT (run g2 (.lit "\x7b") s loc true false false) := by
      intro g2
      cases g2 with
      | zero => exact Or.inl rfl
      | succ g2 =>
        rw [run_lit_succ]
        have := @litAt_one_false s (runEnd isWs s loc) '{' "\x7b" rfl h
        rw [this]
        exact Or.inr rfl
    exact andP_cons_err hlit g

/-- All four alternatives fail when the pre-skip lands on a character that
opens none of them (and is not `{`). -/
theorem cmtAlts_fail {s : List Char} {loc : Nat} {c0 : Char}
    (h : at? s (runEnd isWs s loc) = some c0)
    (h1 : c0 ≠ '"') (h2 : c0 ≠ '\'') (h3 : c0 ≠ '{') (h4 : chunkOK c0 = false) :
    ∀ g, errT (run g (.orP cmtAlts) s loc true false false) := by
  refine orP_cons_err (peString_fails ?_) (orP_cons_err (peChar_fails ?_)
    (orP_cons_err (comment_fails ?_) (orP_cons_err (chunk_fails ?_)
      (orP_nil_err s loc false false))))
  · rw [h]; exact fun hc => h1 (Option.some.inj hc)
  · rw [h]; exact fun hc => h2 (Option.some.inj hc)
  · rw [h]; exact fun hc => h3 (Option.some.inj hc)
  · intro c hc
    rw [h] at hc
    cases Option.some.inj hc
    exact h4

/-- All four alternatives fail at the end of the input. -/
theorem cmtAlts_fail_end {s : List Char} {loc : Nat}
    (h : at? s (runEnd isWs s loc) = none) :
    ∀ g, errT (run g (.orP cmtAlts) s loc true false false) := by
  refine orP_cons_err (peString_fails ?_) (orP_cons_err (peChar_fails ?_)
    (orP_cons_err (comment_fails ?_) (orP_cons_err (chunk_fails ?_)
      (orP_nil_err s loc false false))))
  · rw [h]; exact fun hc => Option.noConfusion hc
  · rw [h]; exact fun hc => Option.noConfusion hc
  · rw [h]; exact fun hc => Option.noConfusion hc
  · intro c hc
    rw [h] at hc
    exact Option.noConfusion hc



/-! ## Drop-form positional reasoning -/

/-- A known suffix at `loc` decomposes the input. -/
theorem decomp {s X : List Char} {loc : Nat} (hne : X ≠ []) (h : s.drop loc = X) :
    ∃ u, s = u ++ X ∧ u.length = loc := by
  have hloc : loc ≤ s.length := by
    by_contra hgt
    push_neg at hgt
    rw [List.drop_eq_nil_of_le (Nat.le_of_lt hgt)] at h
    exact hne h.symm
  refine ⟨s.take loc, ?_, ?_⟩
  · rw [← h, List.take_append_drop]
  · simpa using hloc

theorem drop_add_of_drop {s xs v : List Char} {loc : Nat}
    (h : s.drop loc = xs ++ v) : s.drop (loc + xs.length) = v := by
  have h2 : (s.drop loc).drop xs.length = v := by
    rw [h, List.drop_left]
  rw [List.drop_drop] at h2
  exact h2

theorem runEnd_of_drop {p : Char → Bool} {s : List Char} {loc : Nat} {w v : List Char}
    (h : s.drop loc = w ++ v) (hw : ∀ c ∈ w, p c = true) (hv : runLen p v = 0) :
    runEnd p s loc = loc + w.length := by
  rw [runEnd, h, runLen_all hw, hv]
  omega

theorem litAt_of_drop {s : List Char} {loc : Nat} {pat : String} {v : List Char}
    (h : s.drop loc = pat.toList ++ v) : litAt s loc pat = true := by
  rw [litAt, h]
  exact List.isPrefixOf_iff_prefix.2 (List.prefix_append _ _)

theorem drop_append_ge {xs ys : List Char} {k : Nat} (h : xs.length ≤ k) :
    (xs ++ ys).drop k = ys.drop (k - xs.length) := by
  have hk : k = xs.length + (k - xs.length) := by omega
  conv_lhs => rw [hk]
  rw [List.drop_append]

theorem rxString_of_drop {s : List Char} {loc : Nat} {body v : List Char}
    (hb : StrBody body) (h : s.drop loc = '"' :: (body ++ '"' :: v)) :
    rxString s loc = some (loc + (body.length + 2)) := by
  rcases decomp (by simp) h with ⟨u, rfl, hlen⟩
  rw [← hlen]
  exact rxString_exact u v hb

theorem rxChar_esc_of_drop {s : List Char} {loc : Nat} {d : Char} {v : List Char}
    (hd : d ≠ '\n') (h : s.drop loc = '\'' :: '\\' :: d :: '\'' :: v) :
    rxChar s loc = some (loc + 4) := by
  rcases decomp (by simp) h with ⟨u, rfl, hlen⟩
  rw [← hlen]
  exact rxChar_esc u v hd

theorem rxChar_plain_of_drop {s : List Char} {loc : Nat} {ch : Char} {v : List Char}
    (h1 : ch ≠ '\'') (h2 : ch ≠ '\\') (h : s.drop loc = '\'' :: ch :: '\'' :: v) :
    rxChar s loc = some (loc + 3) := by
  rcases decomp (by simp) h with ⟨u, rfl, hlen⟩
  rw [← hlen]
  exact rxChar_plain u v h1 h2

theorem rxChunk_of_drop {s : List Char} {loc : Nat} {c0 : Char} {cs2 v : List Char}
    (h0 : chunkOK c0 = true) (h2 : ∀ c ∈ cs2, chunkOK c = true)
    (hv : runLen chunkOK v = 0) (h : s.drop loc = c0 :: (cs2 ++ v)) :
    rxChunk s loc = some (loc + (1 + cs2.length)) := by
  rcases decomp (by simp) h with ⟨u, rfl, hlen⟩
  rw [← hlen]
  exact rxChunk_exact u v h0 h2 hv

/-- The characters a chunk may contain are distinct from all stoppers. -/
theorem chunkOK_ne {c : Char} (h : chunkOK c = true) :
    c ≠ '"' ∧ c ≠ '\'' ∧ c ≠ '{' ∧ c ≠ '}' := by
  simp [chunkOK] at h
  exact ⟨h.1.1.1, h.1.1.2, h.1.2, h.2⟩

/-- Decomposition of a list at its first non-whitespace character. -/
theorem split_at_first_nonws {cs : List Char} (h : ¬ ∀ c ∈ cs, isWs c = true) :
    ∃ csw c0 cs2, cs = csw ++ c0 :: cs2 ∧ (∀ c ∈ csw, isWs c = true) ∧
      isWs c0 = false := by
  induction cs with
  | nil => exact absurd (by simp) h
  | cons a cs ih =>
    cases ha : isWs a with
    | false => exact ⟨[], a, cs, rfl, by simp, ha⟩
    | true =>
      have h' : ¬ ∀ c ∈ cs, isWs c = true := by
        intro hall
        exact h (by
          intro c hc
          rcases List.mem_cons.1 hc with rfl | hc
          · exact ha
          · exact hall c hc)
      rcases ih h' with ⟨csw, c0, cs2, rfl, hcsw, hc0⟩
      refine ⟨a :: csw, c0, cs2, rfl, ?_, hc0⟩
      intro c hc
      rcases List.mem_cons.1 hc with rfl | hc
      · exact ha
      · exact hcsw c hc


/-! ## Consumption of one comment-body item -/

/-- A `Literal` whose text starts with a non-whitespace character consumes
leading whitespace plus its own text. -/
theorem lit_consumes {pat : String} {c0 : Char} {pr : List Char}
    (hpat : pat.toList = c0 :: pr) (hc0 : isWs c0 = false)
    {s : List Char} {loc : Nat} {w v : List Char}
    (hw : ∀ ch ∈ w, isWs ch = true) (h : s.drop loc = w ++ (pat.toList ++ v)) :
    ∀ g, okT (run g (.lit pat) s loc true false false)
      (fun l t n => l = loc + w.length + pat.length ∧ t = [.str pat] ∧ n = []) := by
  intro g
  cases g with
  | zero => exact Or.inl rfl
  | succ g =>
    rw [run_lit_succ]
    have hws : runEnd isWs s loc = loc + w.length := by
      refine runEnd_of_drop h hw ?_
      rw [hpat]
      exact runLen_head_false hc0 (pr ++ v)
    have hdrop2 : s.drop (loc + w.length) = pat.toList ++ v := by
      have h2 := drop_add_of_drop h
      simpa using h2
    have hlit : litAt s (loc + w.length) pat = true := litAt_of_drop hdrop2
    rw [hws, hlit, if_pos rfl]
    exact Or.inr ⟨loc + w.length + pat.length, [.str pat], [], rfl, rfl, rfl, rfl⟩

/-- `String` consumes a whole well-formed string literal. -/
theorem peString_consumes {s : List Char} {loc : Nat} {w body v : List Char}
    (hw : ∀ ch ∈ w, isWs ch = true) (hb : StrBody body)
    (h : s.drop loc = w ++ ('"' :: (body ++ '"' :: v))) :
    ∀ g, okT (run g peString s loc true false false)
      (fun l _ _ => l = loc + w.length + (body.length + 2)) := by
  apply act_string_ok (Or.inl rfl)
  intro g
  cases g with
  | zero => exact Or.inl rfl
  | succ g =>
    rw [run_rx_succ]
    have hws : runEnd isWs s loc = loc + w.length :=
      runEnd_of_drop h hw (runLen_head_false (by rfl) _)
    have hdrop2 : s.drop (loc + w.length) = '"' :: (body ++ '"' :: v) := by
      have h2 := drop_add_of_drop h
      simpa using h2
    have hm : rxMatch .string s (loc + w.length) =
        some ((loc + w.length) + (body.length + 2)) :=
      rxString_of_drop hb hdrop2
    rw [hws, hm]
    exact Or.inr ⟨_, _, _, rfl, rfl, _, rfl⟩

/-- `Char` consumes an escaped char literal. -/
theorem peChar_consumes_esc {s : List Char} {loc : Nat} {w : List Char} {d : Char}
    {v : List Char} (hw : ∀ ch ∈ w, isWs ch = true) (hd : d ≠ '\n')
    (h : s.drop loc = w ++ ('\'' :: '\\' :: d :: '\'' :: v)) :
    ∀ g, okT (run g peChar s loc true false false)
      (fun l _ _ => l = loc + w.length + 4) := by
  apply act_string_ok (Or.inr rfl)
  intro g
  cases g with
  | zero => exact Or.inl rfl
  | succ g =>
    rw [run_rx_succ]
    have hws : runEnd isWs s loc = loc + w.length :=
      runEnd_of_drop h hw (runLen_head_false (by rfl) _)
    have hdrop2 : s.drop (loc + w.length) = '\'' :: '\\' :: d :: '\'' :: v := by
      have h2 := drop_add_of_drop h
      simpa using h2
    have hm : rxMatch .char s (loc + w.length) = some ((loc + w.length) + 4) :=
      rxChar_esc_of_drop hd hdrop2
    rw [hws, hm]
    exact Or.inr ⟨_, _, _, rfl, rfl, _, rfl⟩

/-- `Char` consumes a plain char literal. -/
theorem peChar_consumes_plain {s : List Char} {loc : Nat} {w : List Char} {ch : Char}
    {v : List Char} (hw : ∀ c ∈ w, isWs c = true) (h1 : ch ≠ '\'') (h2 : ch ≠ '\\')
    (h : s.drop loc = w ++ ('\'' :: ch :: '\'' :: v)) :
    ∀ g, okT (run g peChar s loc true false false)
      (fun l _ _ => l = loc + w.length + 3) := by
  apply act_string_ok (Or.inr rfl)
  intro g
  cases g with
  | zero => exact Or.inl rfl
  | succ g =>
    rw [run_rx_succ]
    have hws : runEnd isWs s loc = loc + w.length :=
      runEnd_of_drop h hw (runLen_head_false (by rfl) _)
    have hdrop2 : s.drop (loc + w.length) = '\'' :: ch :: '\'' :: v := by
      have h2 := drop_add_of_drop h
      simpa using h2
    have hm : rxMatch .char s (loc + w.length) = some ((loc + w.length) + 3) :=
      rxChar_plain_of_drop h1 h2 hdrop2
    rw [hws, hm]
    exact Or.inr ⟨_, _, _, rfl, rfl, _, rfl⟩

/-- The chunk regex consumes a maximal chunk after leading whitespace. -/
theorem chunk_consumes {s : List Char} {loc : Nat} {w : List Char} {c0 : Char}
    {cs2 rstop : List Char} (hw : ∀ c ∈ w, isWs c = true) (hc0 : isWs c0 = false)
    (h0 : chunkOK c0 = true) (hcs2 : ∀ c ∈ cs2, chunkOK c = true)
    (hstop : runLen chunkOK rstop = 0)
    (h : s.drop loc = w ++ (c0 :: (cs2 ++ rstop))) :
    ∀ g, okT (run g (.rx .chunk) s loc true false false)
      (fun l _ _ => l = loc + w.length + (1 + cs2.length)) := by
  intro g
  cases g with
  | zero => exact Or.inl rfl
  | succ g =>
    rw [run_rx_succ]
    have hws : runEnd isWs s loc = loc + w.length :=
      runEnd_of_drop h hw (runLen_head_false hc0 _)
    have hdrop2 : s.drop (loc + w.length) = c0 :: (cs2 ++ rstop) := by
      have h2 := drop_add_of_drop h
      simpa using h2
    have hm : rxMatch .chunk s (loc + w.length) =
        some ((loc + w.length) + (1 + cs2.length)) :=
      rxChunk_of_drop h0 hcs2 hstop hdrop2
    rw [hws, hm]
    exact Or.inr ⟨_, _, _, rfl, rfl⟩

/-! ## Locality of comments: a comment consumes exactly itself -/

/-- Statement: a whole well-formed comment, preceded by whitespace, is
consumed exactly by the `Comment` forward. -/
def PcS (c : List Char) : Prop :=
  ∀ (g : Nat) (s : List Char) (loc : Nat) (w v : List Char),
    (∀ ch ∈ w, isWs ch = true) → s.drop loc = w ++ (c ++ v) →
    okT (run g (.fwd .comment) s loc true false false)
      (fun l _ _ => l = loc + w.length + c.length)

/-- Statement: the body loop consumes a well-formed comment body up to
trailing whitespace before the closing brace. -/
def PbS (b : List Char) : Prop :=
  ∀ (g : Nat) (s : List Char) (loc : Nat) (w v : List Char),
    (∀ ch ∈ w, isWs ch = true) → s.drop loc = w ++ (b ++ '}' :: v) →
    okT (run g (.many0 (.orP cmtAlts)) s loc true false false)
      (fun l _ _ => loc ≤ l ∧ l ≤ loc + w.length + b.length ∧
        ∀ ch ∈ (w ++ b).drop (l - loc), isWs ch = true)


theorem andP_cons_bind {q : PE} {qs : List PE} {s : List Char} {loc : Nat}
    {pre adj ig : Bool} {P1 Pl : Nat → Prop}
    (h1 : ∀ g, okT (run g q s loc pre adj ig) (fun l _ _ => P1 l))
    (h2 : ∀ l1, P1 l1 → ∀ g, okT (run g (.andP qs) s l1 true adj ig)
      (fun l _ _ => Pl l)) :
    ∀ g, okT (run g (.andP (q :: qs)) s loc pre adj ig) (fun l _ _ => Pl l) := by
  intro g
  cases g with
  | zero => exact Or.inl rfl
  | succ g =>
    rw [run_andP_cons]
    rcases h1 g with h | ⟨l, t, n, hr, hl⟩
    · rw [h]; exact Or.inl rfl
    · rw [hr]
      show okT (match run g (.andP qs) s l true adj ig with
        | POut.ok l2 t2 n2 => POut.ok l2 (t ++ t2) (n ++ n2)
        | r => r) (fun l _ _ => Pl l)
      rcases h2 l hl g with h' | ⟨l2, t2, n2, hr', hp⟩
      · rw [h']; exact Or.inl rfl
      · rw [hr']; exact Or.inr ⟨l2, t ++ t2, n ++ n2, rfl, hp⟩

theorem drop_shift {s X : List Char} {loc k : Nat} (h : s.drop loc = X) :
    s.drop (loc + k) = X.drop k := by
  rw [← h, List.drop_drop]

/-- The body loop stops in front of the closing brace. -/
theorem pb_nil : PbS [] := by
  intro g s loc w v hw h
  have h' : s.drop loc = w ++ '}' :: v := by simpa using h
  have hws : runEnd isWs s loc = loc + w.length :=
    runEnd_of_drop h' hw (runLen_head_false (by decide) v)
  have hat : at? s (runEnd isWs s loc) = some '}' := by
    rw [hws]
    exact at?_of_drop (drop_add_of_drop h')
  have hfail := cmtAlts_fail hat (by decide) (by decide) (by decide) (by decide)
  refine okT_mono (many0_stop hfail g) ?_
  rintro l t n ⟨rfl, -, -⟩
  refine ⟨Nat.le_refl _, by omega, ?_⟩
  simp only [Nat.sub_self, List.append_nil, List.drop_zero]
  exact hw

/-- Assembling a comment from its parts: `{`, the body loop, `}`. -/
theorem pc_assemble {bb : List Char} (hPb : PbS bb) : PcS ('{' :: (bb ++ ['}'])) := by
  intro g s loc w v hw h
  have h' : s.drop loc = w ++ ('{' :: (bb ++ '}' :: v)) := by
    simpa [List.append_assoc] using h
  cases g with
  | zero => exact Or.inl rfl
  | succ g =>
    rw [run_fwd_succ]
    show okT (run g (.andP [.lit "\x7b", .many0 (.orP cmtAlts), .lit "\x7d"]) s loc true false false)
      (fun l _ _ => l = loc + w.length + ('{' :: (bb ++ ['}'])).length)
    have hdropb : s.drop (loc + w.length + 1) = bb ++ '}' :: v := by
      have hre : s.drop loc = (w ++ ['{']) ++ (bb ++ '}' :: v) := by
        rw [h']; simp
      have h2 := drop_add_of_drop hre
      simpa [Nat.add_assoc] using h2
    have hd1 : s.drop loc = w ++ ("\x7b".toList ++ (bb ++ '}' :: v)) := by
      rw [h']; rfl
    have h1 : ∀ g2, okT (run g2 (.lit "\x7b") s loc true false false)
        (fun l _ _ => l = loc + w.length + 1) := by
      intro g2
      refine okT_mono (lit_consumes rfl (by decide) hw hd1 g2) ?_
      rintro l t n ⟨rfl, -, -⟩; rfl
    have hall : ∀ g2, okT (run g2 (.andP [.lit "\x7b", .many0 (.orP cmtAlts), .lit "\x7d"]) s loc
        true false false) (fun l _ _ => l = loc + w.length + 1 + bb.length + 1) := by
      refine andP_cons_bind h1 ?_
      rintro l1 rfl
      have hmany : ∀ g2, okT (run g2 (.many0 (.orP cmtAlts)) s (loc + w.length + 1) true false false)
          (fun l _ _ => loc + w.length + 1 ≤ l ∧ l ≤ loc + w.length + 1 + bb.length ∧
            ∀ ch ∈ bb.drop (l - (loc + w.length + 1)), isWs ch = true) := by
        intro g2
        refine okT_mono (hPb g2 s (loc + w.length + 1) [] v (by simp) (by simpa using hdropb)) ?_
        rintro l t n ⟨hge, hle, htail⟩
        refine ⟨hge, by simpa using hle, ?_⟩
        intro ch hch
        exact htail ch (by simpa using hch)
      refine andP_cons_bind hmany ?_
      rintro l1 ⟨hge, hle, htail⟩
      have hdropl : s.drop l1 = bb.drop (l1 - (loc + w.length + 1)) ++ '}' :: v := by
        have heq : l1 = (loc + w.length + 1) + (l1 - (loc + w.length + 1)) := by omega
        conv_lhs => rw [heq]
        rw [drop_shift hdropb]
        refine List.drop_append_of_le_length ?_
        omega
      have hd2 : s.drop l1 = bb.drop (l1 - (loc + w.length + 1)) ++ ("\x7d".toList ++ v) := by
        rw [hdropl]; rfl
      have hclose : ∀ g2, okT (run g2 (.lit "\x7d") s l1 true false false)
          (fun l _ _ => l = loc + w.length + 1 + bb.length + 1) := by
        intro g2
        refine okT_mono (lit_consumes rfl (by decide) htail hd2 g2) ?_
        rintro l t n ⟨hl, -, -⟩
        subst hl
        have hdl : (bb.drop (l1 - (loc + w.length + 1))).length =
            bb.length - (l1 - (loc + w.length + 1)) := by simp
        have hsl : ("\x7d" : String).length = 1 := rfl
        rw [hdl, hsl]
        omega
      refine andP_cons_bind hclose ?_
      rintro l2 rfl
      intro g2
      refine okT_mono (andP_nil_ok s (loc + w.length + 1 + bb.length + 1) false false g2) ?_
      rintro l t n ⟨rfl, -, -⟩
      rfl
    refine okT_mono (hall g) ?_
    rintro l t n rfl
    simp
    omega



/-- Generic step: one body item consumed by the alternatives, then the
loop continues over the remaining body. -/
theorem pb_cons_item {item rest : List Char}
    (hitem : ∀ (g : Nat) (s : List Char) (loc : Nat) (w v2 : List Char),
      (∀ ch ∈ w, isWs ch = true) → s.drop loc = w ++ (item ++ v2) →
      okT (run g (.orP cmtAlts) s loc true false false)
        (fun l _ _ => l = loc + w.length + item.length))
    (ihrest : PbS rest) : PbS (item ++ rest) := by
  intro g s loc w v hw h
  have hh : s.drop loc = w ++ (item ++ (rest ++ '}' :: v)) := by
    simpa [List.append_assoc] using h
  have h1 : ∀ g2, okT (run g2 (.orP cmtAlts) s loc true false false)
      (fun l _ _ => l = loc + w.length + item.length) :=
    fun g2 => hitem g2 s loc w (rest ++ '}' :: v) hw hh
  have hdrop2 : s.drop (loc + w.length + item.length) = rest ++ '}' :: v := by
    have hre : s.drop loc = (w ++ item) ++ (rest ++ '}' :: v) := by
      rw [hh]; simp
    have h2 := drop_add_of_drop hre
    simpa [Nat.add_assoc] using h2
  have h2 : ∀ g2, okT (run g2 (.many0 (.orP cmtAlts)) s (loc + w.length + item.length)
      true false false)
      (fun l _ _ => loc + w.length + item.length ≤ l ∧
        l ≤ loc + w.length + item.length + rest.length ∧
        ∀ ch ∈ rest.drop (l - (loc + w.length + item.length)), isWs ch = true) := by
    intro g2
    refine okT_mono (ihrest g2 s (loc + w.length + item.length) [] v (by simp)
      (by simpa using hdrop2)) ?_
    rintro l t n ⟨hge, hle, htail⟩
    exact ⟨hge, by simpa using hle, fun ch hch => htail ch (by simpa using hch)⟩
  refine okT_mono (many0_chain h1 h2 g) ?_
  rintro l t n ⟨hge, hle, htail⟩
  refine ⟨by omega, by simp only [List.length_append]; omega, ?_⟩
  intro ch hch
  apply htail ch
  have harr : (w ++ (item ++ rest)).drop (l - loc) =
      rest.drop (l - (loc + w.length + item.length)) := by
    have he : w ++ (item ++ rest) = (w ++ item) ++ rest := by simp
    rw [he, drop_append_ge (by simp only [List.length_append]; omega)]
    congr 1
    simp only [List.length_append]
    omega
  rw [harr] at hch
  exact hch

/-- A string-literal item. -/
theorem pb_str {body rest : List Char} (hb : StrBody body) (ihrest : PbS rest) :
    PbS ('"' :: (body ++ '"' :: rest)) := by
  have hshape : '"' :: (body ++ '"' :: rest) = ('"' :: (body ++ ['"'])) ++ rest := by
    simp
  rw [hshape]
  refine pb_cons_item ?_ ihrest
  intro g2 s loc w v2 hw hdrop
  have hdrop' : s.drop loc = w ++ ('"' :: (body ++ '"' :: v2)) := by
    simpa [List.append_assoc] using hdrop
  refine okT_mono (@orP_cons_ok _ [peChar, .fwd .comment, .rx .chunk] _ _ _ _ _
    (fun g3 => peString_consumes hw hb hdrop' g3) g2) ?_
  rintro l t n rfl
  simp

/-- An escaped char-literal item. -/
theorem pb_charE {d : Char} {rest : List Char} (hd : d ≠ '\n') (ihrest : PbS rest) :
    PbS ('\'' :: '\\' :: d :: '\'' :: rest) := by
  have hshape : '\'' :: '\\' :: d :: '\'' :: rest = ['\'', '\\', d, '\''] ++ rest := by
    simp
  rw [hshape]
  refine pb_cons_item ?_ ihrest
  intro g2 s loc w v2 hw hdrop
  have hdrop' : s.drop loc = w ++ ('\'' :: '\\' :: d :: '\'' :: v2) := by
    simpa using hdrop
  have hws : runEnd isWs s loc = loc + w.length :=
    runEnd_of_drop hdrop' hw (runLen_head_false (by decide) _)
  have hat : at? s (runEnd isWs s loc) = some '\'' := by
    rw [hws]
    exact at?_of_drop (drop_add_of_drop hdrop')
  have hsf : ∀ g3, errT (run g3 peString s loc true false false) :=
    peString_fails (by rw [hat]; decide)
  refine okT_mono (orP_cons_skip hsf (@orP_cons_ok _ [.fwd .comment, .rx .chunk] _ _ _ _ _
    (fun g3 => peChar_consumes_esc hw hd hdrop' g3)) g2) ?_
  rintro l t n rfl
  simp

/-- A plain char-literal item. -/
theorem pb_charP {ch : Char} {rest : List Char} (h1 : ch ≠ '\'') (h2 : ch ≠ '\\')
    (ihrest : PbS rest) : PbS ('\'' :: ch :: '\'' :: rest) := by
  have hshape : '\'' :: ch :: '\'' :: rest = ['\'', ch, '\''] ++ rest := by simp
  rw [hshape]
  refine pb_cons_item ?_ ihrest
  intro g2 s loc w v2 hw hdrop
  have hdrop' : s.drop loc = w ++ ('\'' :: ch :: '\'' :: v2) := by
    simpa using hdrop
  have hws : runEnd isWs s loc = loc + w.length :=
    runEnd_of_drop hdrop' hw (runLen_head_false (by decide) _)
  have hat : at? s (runEnd isWs s loc) = some '\'' := by
    rw [hws]
    exact at?_of_drop (drop_add_of_drop hdrop')
  have hsf : ∀ g3, errT (run g3 peString s loc true false false) :=
    peString_fails (by rw [hat]; decide)
  refine okT_mono (orP_cons_skip hsf (@orP_cons_ok _ [.fwd .comment, .rx .chunk] _ _ _ _ _
    (fun g3 => peChar_consumes_plain hw h1 h2 hdrop' g3)) g2) ?_
  rintro l t n rfl
  simp

/-- A nested-comment item. -/
theorem pb_nest {c rest : List Char} (hc : Cmt c) (ihc : PcS c) (ihrest : PbS rest) :
    PbS (c ++ rest) := by
  refine pb_cons_item ?_ ihrest
  intro g2 s loc w v2 hw hdrop
  cases hc with
  | mk hbb =>
    rename_i bb
    have hdrop' : s.drop loc = w ++ ('{' :: ((bb ++ ['}']) ++ v2)) := by
      simpa [List.append_assoc] using hdrop
    have hws : runEnd isWs s loc = loc + w.length :=
      runEnd_of_drop hdrop' hw (runLen_head_false (by decide) _)
    have hat : at? s (runEnd isWs s loc) = some '{' := by
      rw [hws]
      exact at?_of_drop (drop_add_of_drop hdrop')
    have hsf : ∀ g3, errT (run g3 peString s loc true false false) :=
      peString_fails (by rw [hat]; decide)
    have hcf : ∀ g3, errT (run g3 peChar s loc true false false) :=
      peChar_fails (by rw [hat]; decide)
    have hcons : ∀ g3, okT (run g3 (.fwd .comment) s loc true false false)
        (fun l _ _ => l = loc + w.length + ('{' :: (bb ++ ['}'])).length) :=
      fun g3 => ihc g3 s loc w v2 hw (by simpa [List.append_assoc] using hdrop)
    refine okT_mono (orP_cons_skip hsf (orP_cons_skip hcf
      (@orP_cons_ok _ [.rx .chunk] _ _ _ _ _ hcons)) g2) ?_
    rintro l t n rfl
    rfl

/-- A chunk item: leading whitespace may be skipped, the chunk regex
consumes the rest of the chunk, which is maximal by the normal form. -/
theorem pb_chunk {cs rest : List Char}
    (hok : ∀ ch ∈ cs, chunkOK ch = true) (hhead : itemHead rest)
    (ihrest : PbS rest) : PbS (cs ++ rest) := by
  intro g s loc w v hw h
  by_cases hcw : ∀ c ∈ cs, isWs c = true
  · -- an all-whitespace chunk is absorbed into the leading whitespace
    have hh : s.drop loc = (w ++ cs) ++ (rest ++ '}' :: v) := by
      rw [h]; simp
    refine okT_mono (ihrest g s loc (w ++ cs) v ?_ (by simpa [List.append_assoc] using hh)) ?_
    · intro c hc
      rcases List.mem_append.1 hc with hc | hc
      · exact hw c hc
      · exact hcw c hc
    · rintro l t n ⟨hge, hle, htail⟩
      refine ⟨hge, by simp only [List.length_append] at hle ⊢; omega, ?_⟩
      intro ch hch
      apply htail ch
      simpa [List.append_assoc] using hch
  · rcases split_at_first_nonws hcw with ⟨csw, c0, cs2, rfl, hcsw, hc0⟩
    have hc0ok : chunkOK c0 = true := hok c0 (by simp)
    have hcs2ok : ∀ ch ∈ cs2, chunkOK ch = true := by
      intro ch hch
      exact hok ch (by simp [hch])
    have hW : ∀ ch ∈ w ++ csw, isWs ch = true := by
      intro ch hch
      rcases List.mem_append.1 hch with hch | hch
      · exact hw ch hch
      · exact hcsw ch hch
    have hstop : runLen chunkOK (rest ++ '}' :: v) = 0 := by
      rcases hhead with rfl | ⟨r, rfl⟩ | ⟨r, rfl⟩ | ⟨r, rfl⟩
      · exact runLen_head_false (by decide) v
      · exact runLen_head_false (by decide) _
      · exact runLen_head_false (by decide) _
      · exact runLen_head_false (by decide) _
    have hdrop' : s.drop loc = (w ++ csw) ++ (c0 :: (cs2 ++ (rest ++ '}' :: v))) := by
      rw [h]; simp
    have hws : runEnd isWs s loc = loc + (w ++ csw).length :=
      runEnd_of_drop hdrop' hW (runLen_head_false hc0 _)
    have hat : at? s (runEnd isWs s loc) = some c0 := by
      rw [hws]
      exact at?_of_drop (drop_add_of_drop hdrop')
    rcases chunkOK_ne hc0ok with ⟨hq, ha, hb, hr⟩
    have hsf : ∀ g3, errT (run g3 peString s loc true false false) :=
      peString_fails (by rw [hat]; exact fun hcc => hq (Option.some.inj hcc))
    have hcf : ∀ g3, errT (run g3 peChar s loc true false false) :=
      peChar_fails (by rw [hat]; exact fun hcc => ha (Option.some.inj hcc))
    have hff : ∀ g3, errT (run g3 (.fwd .comment) s loc true false false) :=
      comment_fails (by rw [hat]; exact fun hcc => hb (Option.some.inj hcc))
    have hcons : ∀ g3, okT (run g3 (.rx .chunk) s loc true false false)
        (fun l _ _ => l = loc + (w ++ csw).length + (1 + cs2.length)) :=
      fun g3 => chunk_consumes hW hc0 hc0ok hcs2ok hstop hdrop' g3
    have h1 : ∀ g2, okT (run g2 (.orP cmtAlts) s loc true false false)
        (fun l _ _ => l = loc + w.length + (csw ++ c0 :: cs2).length) := by
      intro g2
      refine okT_mono (orP_cons_skip hsf (orP_cons_skip hcf (orP_cons_skip hff
        (@orP_cons_ok _ [] _ _ _ _ _ hcons))) g2) ?_
      rintro l t n rfl
      simp only [List.length_append, List.length_cons]
      omega
    have hdrop2 : s.drop (loc + w.length + (csw ++ c0 :: cs2).length) = rest ++ '}' :: v := by
      have hre : s.drop loc = (w ++ (csw ++ c0 :: cs2)) ++ (rest ++ '}' :: v) := by
        rw [h]; simp
      have h2 := drop_add_of_drop hre
      simp only [List.length_append] at h2 ⊢
      simpa [Nat.add_assoc] using h2
    have h2 : ∀ g2, okT (run g2 (.many0 (.orP cmtAlts)) s
        (loc + w.length + (csw ++ c0 :: cs2).length) true false false)
        (fun l _ _ => loc + w.length + (csw ++ c0 :: cs2).length ≤ l ∧
          l ≤ loc + w.length + (csw ++ c0 :: cs2).length + rest.length ∧
          ∀ ch ∈ rest.drop (l - (loc + w.length + (csw ++ c0 :: cs2).length)),
            isWs ch = true) := by
      intro g2
      refine okT_mono (ihrest g2 s (loc + w.length + (csw ++ c0 :: cs2).length) [] v
        (by simp) (by simpa using hdrop2)) ?_
      rintro l t n ⟨hge, hle, htail⟩
      exact ⟨hge, by simpa using hle, fun ch hch => htail ch (by simpa using hch)⟩
    refine okT_mono (many0_chain h1 h2 g) ?_
    rintro l t n ⟨hge, hle, htail⟩
    refine ⟨by omega, by simp only [List.length_append, List.length_cons] at hle ⊢; omega, ?_⟩
    intro ch hch
    apply htail ch
    have harr : (w ++ ((csw ++ c0 :: cs2) ++ rest)).drop (l - loc) =
        rest.drop (l - (loc + w.length + (csw ++ c0 :: cs2).length)) := by
      have he : w ++ ((csw ++ c0 :: cs2) ++ rest) = (w ++ (csw ++ c0 :: cs2)) ++ rest := by
        simp
      rw [he, drop_append_ge (by simp only [List.length_append, List.length_cons] at hge ⊢; omega)]
      congr 1
      simp only [List.length_append, List.length_cons]
      omega
    rw [harr] at hch
    exact hch


/-- A well-formed comment has at least its two braces. -/
theorem cmt_len {c : List Char} (hc : Cmt c) : 2 ≤ c.length := by
  cases hc with
  | mk hbb => simp

/-- Comment locality, by strong induction on the length: a well-formed
comment (resp. body) is consumed exactly, whatever the context. -/
theorem cmt_locality : ∀ n : Nat,
    (∀ c, Cmt c → c.length ≤ n → PcS c) ∧
    (∀ b, CmtB b → b.length ≤ n → PbS b) := by
  intro n
  induction n using Nat.strong_induction_on with
  | _ n IH =>
    have hC : ∀ c, Cmt c → c.length ≤ n → PcS c := by
      intro c hc hlen
      cases hc with
      | mk hbb =>
        rename_i bb
        have hblen : bb.length + 2 ≤ n := by simpa using hlen
        have hPb : PbS bb := (IH (n - 1) (by omega)).2 bb hbb (by omega)
        exact pc_assemble hPb
    refine ⟨hC, ?_⟩
    intro b hb hlen
    cases hb with
    | nil => exact pb_nil
    | chunk hne hok hhead hrest =>
      rename_i cs rest
      have hcs1 : 1 ≤ cs.length := by
        cases cs with
        | nil => exact absurd rfl hne
        | cons a l => simp
      have hlen2 : cs.length + rest.length ≤ n := by
        simpa using hlen
      have ihrest : PbS rest := (IH (n - 1) (by omega)).2 rest hrest (by omega)
      exact pb_chunk hok hhead ihrest
    | strI hsb hrest =>
      rename_i body rest
      have hlen2 : body.length + rest.length + 2 ≤ n := by
        simp only [List.length_cons, List.length_append] at hlen
        omega
      have ihrest : PbS rest := (IH (n - 1) (by omega)).2 rest hrest (by omega)
      exact pb_str hsb ihrest
    | charE hd hrest =>
      rename_i d rest
      have hlen2 : rest.length + 4 ≤ n := by
        simp only [List.length_cons] at hlen
        omega
      have ihrest : PbS rest := (IH (n - 1) (by omega)).2 rest hrest (by omega)
      exact pb_charE hd ihrest
    | charP h1 h2 hrest =>
      rename_i ch rest
      have hlen2 : rest.length + 3 ≤ n := by
        simp only [List.length_cons] at hlen
        omega
      have ihrest : PbS rest := (IH (n - 1) (by omega)).2 rest hrest (by omega)
      exact pb_charP h1 h2 ihrest
    | nest hc hrest =>
      rename_i c rest
      have hc2 := cmt_len hc
      have hlen2 : c.length + rest.length ≤ n := by
        simpa using hlen
      have ihc : PcS c := hC c hc (by omega)
      have ihrest : PbS rest := (IH (n - 1) (by omega)).2 rest hrest (by omega)
      exact pb_nest hc ihc ihrest

/-- Locality for a whole well-formed comment. -/
theorem cmt_pc {c : List Char} (hc : Cmt c) : PcS c :=
  (cmt_locality c.length).1 c hc (Nat.le_refl _)


/-! ## The installed ignorable at the end of the input -/

theorem supp_err {q : PE} {s : List Char} {loc : Nat} {pre adj ig : Bool}
    (h : ∀ g, errT (run g q s loc pre adj ig)) :
    ∀ g, errT (run g (.supp q) s loc pre adj ig) := by
  intro g
  cases g with
  | zero => exact Or.inl rfl
  | succ g =>
    rw [run_supp_succ]
    rcases h g with h' | h'
    · rw [h']; exact Or.inl rfl
    · rw [h']; exact Or.inr rfl

theorem supp_ok {q : PE} {s : List Char} {loc : Nat} {pre adj ig : Bool}
    {Pl : Nat → Prop}
    (h : ∀ g, okT (run g q s loc pre adj ig) (fun l _ _ => Pl l)) :
    ∀ g, okT (run g (.supp q) s loc pre adj ig)
      (fun l t n => Pl l ∧ t = [] ∧ n = []) := by
  intro g
  cases g with
  | zero => exact Or.inl rfl
  | succ g =>
    rw [run_supp_succ]
    rcases h g with h' | ⟨l, t, n, hr, hp⟩
    · rw [h']; exact Or.inl rfl
    · rw [hr]; exact Or.inr ⟨l, [], [], rfl, hp, rfl, rfl⟩

theorem runLen_all_nil {p : Char → Bool} {xs : List Char}
    (h : ∀ c ∈ xs, p c = true) : runLen p xs = xs.length := by
  have := runLen_all h []
  simpa using this

/-- Whitespace-only remainder: the whitespace skip reaches the end. -/
theorem wsAdv_end {s : List Char} {loc : Nat}
    (h : ∀ ch ∈ s.drop loc, isWs ch = true) :
    s.length ≤ runEnd isWs s loc := by
  rw [runEnd, runLen_all_nil h]
  have := List.length_drop loc s
  omega

/-- With only whitespace left, the ignorable loop consumes nothing. -/
theorem ignorable_stop_end {s : List Char} {loc : Nat}
    (h : ∀ ch ∈ s.drop loc, isWs ch = true) :
    ∀ g, okT (run g (.many0 peIgnorable) s loc true false false)
      (fun l t n => l = loc ∧ t = [] ∧ n = []) := by
  have hat : at? s (runEnd isWs s loc) = none := by
    show s.get? (runEnd isWs s loc) = none
    rw [List.get?_eq_none]
    exact wsAdv_end h
  have hfail : ∀ g, errT (run g peIgnorable s loc true false false) :=
    supp_err (comment_fails (by rw [hat]; exact fun hc => Option.noConfusion hc))
  exact many0_stop hfail

/-- A trailing well-formed comment (preceded by whitespace, followed by
nothing) is consumed in full by the ignorable loop. -/
theorem ignorable_full {s : List Char} {loc : Nat} {w cmt : List Char}
    (hw : ∀ ch ∈ w, isWs ch = true) (hc : Cmt cmt)
    (hdrop : s.drop loc = w ++ cmt) :
    ∀ g, okT (run g (.many0 peIgnorable) s loc true false false)
      (fun l _ _ => l = loc + w.length + cmt.length) := by
  have hpc : ∀ g, okT (run g (.fwd .comment) s loc true false false)
      (fun l _ _ => l = loc + w.length + cmt.length) := by
    intro g
    exact cmt_pc hc g s loc w [] hw (by simpa using hdrop)
  have h1 : ∀ g, okT (run g peIgnorable s loc true false false)
      (fun l _ _ => l = loc + w.length + cmt.length) := by
    intro g
    refine okT_mono (supp_ok hpc g) ?_
    rintro l t n ⟨hl, -, -⟩
    exact hl
  have hdropend : s.drop (loc + w.length + cmt.length) = [] := by
    have hre : s.drop loc = (w ++ cmt) ++ [] := by rw [hdrop]; simp
    have h2 := drop_add_of_drop hre
    simp only [List.length_append] at h2
    rw [← Nat.add_assoc] at h2
    exact h2
  have h2 : ∀ g, okT (run g (.many0 peIgnorable) s (loc + w.length + cmt.length)
      true false false)
      (fun l _ _ => l = loc + w.length + cmt.length) := by
    intro g
    refine okT_mono (ignorable_stop_end ?_ g) ?_
    · rw [hdropend]; intro ch hch; cases hch
    · rintro l t n ⟨rfl, -, -⟩; rfl
  exact many0_chain h1 h2


/-! ## Stability of the matchers across an appended ` ` + comment -/

/-- Program characters that cannot interact with an appended comment:
no string or char quotes and no opening brace. -/
def plainChar (c : Char) : Bool := !(c == '"' || c == '\'' || c == '{')

theorem drop_ext {S : List Char} (C : List Char) {loc : Nat} (h : loc ≤ S.length) :
    (S ++ ' ' :: C).drop loc = S.drop loc ++ ' ' :: C :=
  List.drop_append_of_le_length h

theorem at?_ext_lt {S : List Char} (C : List Char) {loc : Nat} (h : loc < S.length) :
    at? (S ++ ' ' :: C) loc = at? S loc := by
  show (S ++ ' ' :: C).get? loc = S.get? loc
  exact List.get?_append h

theorem at?_ext_eq (S C : List Char) : at? (S ++ ' ' :: C) S.length = some ' ' :=
  at?_mid S ' ' C

theorem at?_end_none {s : List Char} {loc : Nat} (h : s.length ≤ loc) :
    at? s loc = none := by
  show s.get? loc = none
  rw [List.get?_eq_none]
  exact h

theorem runLen_boundary {p : Char → Bool} (hp : p ' ' = false) (xs ys : List Char) :
    runLen p (xs ++ ' ' :: ys) = runLen p xs := by
  induction xs with
  | nil => simpa [runLen] using runLen_head_false hp ys
  | cons a xs ih =>
    by_cases ha : p a = true
    · simp [runLen, ha, ih]
    · have ha' : p a = false := by simpa using ha
      simp [runLen, ha']

theorem runEnd_ext {p : Char → Bool} {S : List Char} (C : List Char) {loc : Nat}
    (hp : p ' ' = false) (h : loc ≤ S.length) :
    runEnd p (S ++ ' ' :: C) loc = runEnd p S loc := by
  rw [runEnd, runEnd, drop_ext C h, runLen_boundary hp]

theorem runEnd_le {p : Char → Bool} {s : List Char} {loc : Nat} (h : loc ≤ s.length) :
    runEnd p s loc ≤ s.length := by
  rw [runEnd]
  have h1 := runLen_le p (s.drop loc)
  have h2 := List.length_drop loc s
  omega

theorem isPrefixOf_boundary {pat xs ys : List Char} (h : ' ' ∉ pat) :
    pat.isPrefixOf (xs ++ ' ' :: ys) = pat.isPrefixOf xs := by
  induction pat generalizing xs with
  | nil => simp [List.isPrefixOf]
  | cons p0 pr ih =>
    cases xs with
    | nil =>
      have hp0 : (p0 == ' ') = false := by
        have : p0 ≠ ' ' := fun hc => h (hc ▸ List.mem_cons_self p0 pr)
        simpa using this
      simp [List.isPrefixOf, hp0]
    | cons x xr =>
      show (p0 == x && pr.isPrefixOf (xr ++ ' ' :: ys)) = (p0 == x && pr.isPrefixOf xr)
      rw [ih (fun hc => h (List.mem_cons_of_mem p0 hc))]

theorem litAt_ext {S : List Char} (C : List Char) {loc : Nat} {pat : String}
    (hpat : ' ' ∉ pat.toList) (h : loc ≤ S.length) :
    litAt (S ++ ' ' :: C) loc pat = litAt S loc pat := by
  rw [litAt, litAt, drop_ext C h, isPrefixOf_boundary hpat]

theorem litAt_len {s : List Char} {loc : Nat} {pat : String}
    (h : litAt s loc pat = true) : loc + pat.toList.length ≤ loc + (s.drop loc).length := by
  rw [litAt] at h
  have := List.IsPrefix.length_le (List.isPrefixOf_iff_prefix.1 h)
  omega

theorem litAt_bound {s : List Char} {loc : Nat} {pat : String} {c0 : Char} {pr : List Char}
    (hpat : pat.toList = c0 :: pr) (h : litAt s loc pat = true) :
    loc + pat.length ≤ s.length := by
  have h1 := litAt_len h
  have h2 : loc ≤ s.length := by
    by_contra hgt
    push_neg at hgt
    rw [litAt, List.drop_eq_nil_of_le (Nat.le_of_lt hgt), hpat] at h
    simp [List.isPrefixOf] at h
  have h3 := List.length_drop loc s
  have h4 : pat.length = pat.toList.length := rfl
  omega

theorem litAt_end_false {s : List Char} {loc : Nat} {pat : String} {c0 : Char}
    {pr : List Char} (hpat : pat.toList = c0 :: pr) (h : s.length ≤ loc) :
    litAt s loc pat = false := by
  rw [litAt, List.drop_eq_nil_of_le h, hpat]
  simp [List.isPrefixOf]

theorem kwAt_ext {S : List Char} (C : List Char) {loc : Nat} {pat : String}
    {c0 : Char} {pr : List Char} (hpat : pat.toList = c0 :: pr)
    (hsp : ' ' ∉ pat.toList) (h : loc ≤ S.length) :
    kwAt (S ++ ' ' :: C) loc pat = kwAt S loc pat := by
  rw [kwAt, kwAt, litAt_ext C hsp h]
  cases hlit : litAt S loc pat with
  | false => simp
  | true =>
    have hb := litAt_bound hpat hlit
    rcases Nat.lt_or_ge (loc + pat.length) S.length with hlt1 | hge1
    · rw [at?_ext_lt C hlt1]
      by_cases hz : loc = 0
      · subst hz; simp
      · rw [at?_ext_lt C (by omega : loc - 1 < S.length)]
    · have he : loc + pat.length = S.length := Nat.le_antisymm hb hge1
      rw [he, at?_ext_eq, at?_end_none (Nat.le_refl _)]
      by_cases hz : loc = 0
      · subst hz
        simp [isKwChar, isIdentCont, isIdentStart]
      · rw [at?_ext_lt C (by omega : loc - 1 < S.length)]
        simp [isKwChar, isIdentCont, isIdentStart]

theorem oneOfAt_ext {S : List Char} (C : List Char) {loc : Nat} {pats : List String}
    (hpats : ∀ pa ∈ pats, ' ' ∉ pa.toList) (h : loc ≤ S.length) :
    oneOfAt (S ++ ' ' :: C) loc pats = oneOfAt S loc pats := by
  induction pats with
  | nil => rfl
  | cons pa pas ih =>
    rw [oneOfAt, oneOfAt, litAt_ext C (hpats pa (List.mem_cons_self pa pas)) h]
    cases litAt S loc pa with
    | true => simp
    | false =>
      simp only [Bool.false_eq_true, if_false]
      exact ih (fun q hq => hpats q (List.mem_cons_of_mem pa hq))


theorem rxIdent_ext {S : List Char} (C : List Char) {loc : Nat} (h : loc ≤ S.length) :
    rxIdent (S ++ ' ' :: C) loc = rxIdent S loc := by
  unfold rxIdent
  rcases Nat.lt_or_ge loc S.length with h' | h'
  · rw [at?_ext_lt C h',
      runEnd_ext C (by decide) (by omega : loc + 1 ≤ S.length)]
  · have heq : loc = S.length := Nat.le_antisymm h h'
    subst heq
    rw [at?_ext_eq, at?_end_none (Nat.le_refl _)]
    rfl

theorem rxSourceName_ext {S : List Char} (C : List Char) {loc : Nat} (h : loc ≤ S.length) :
    rxSourceName (S ++ ' ' :: C) loc = rxSourceName S loc := by
  unfold rxSourceName
  rcases Nat.lt_or_ge loc S.length with h' | h'
  · rw [at?_ext_lt C h',
      runEnd_ext C (by decide) (by omega : loc + 1 ≤ S.length)]
  · have heq : loc = S.length := Nat.le_antisymm h h'
    subst heq
    rw [at?_ext_eq, at?_end_none (Nat.le_refl _)]
    rfl

theorem rxSign_ext {S : List Char} (C : List Char) {loc : Nat} (h : loc ≤ S.length) :
    rxSign (S ++ ' ' :: C) loc = rxSign S loc := by
  unfold rxSign
  rcases Nat.lt_or_ge loc S.length with h' | h'
  · rw [at?_ext_lt C h']
  · have heq : loc = S.length := Nat.le_antisymm h h'
    subst heq
    rw [at?_ext_eq, at?_end_none (Nat.le_refl _)]
    rfl

theorem rxDigitsDot_ext {p : Char → Bool} {S : List Char} (C : List Char) {loc : Nat}
    (hp : p ' ' = false) (h : loc ≤ S.length) :
    rxDigitsDot p (S ++ ' ' :: C) loc = rxDigitsDot p S loc := by
  unfold rxDigitsDot
  rcases Nat.lt_or_ge loc S.length with h' | h'
  · rw [at?_ext_lt C h']
    split
    · rename_i c hceq
      by_cases hc : p c = true
      · rw [hc, if_pos rfl, if_pos rfl,
          runEnd_ext C hp (by omega : loc + 1 ≤ S.length)]
        simp only []
        have hele : runEnd p S (loc + 1) ≤ S.length := runEnd_le (by omega)
        rcases Nat.lt_or_ge (runEnd p S (loc + 1)) S.length with he' | he'
        · rw [at?_ext_lt C he']
          split
          · rename_i heqd
            rcases Nat.lt_or_ge (runEnd p S (loc + 1) + 1) S.length with he2 | he2
            · rw [at?_ext_lt C he2,
                runEnd_ext C hp (by omega : runEnd p S (loc + 1) + 2 ≤ S.length)]
            · have heq2 : runEnd p S (loc + 1) + 1 = S.length := by omega
              rw [heq2, at?_ext_eq, at?_end_none (Nat.le_refl _)]
              simp [hp]
          · rfl
        · have heq1 : runEnd p S (loc + 1) = S.length := Nat.le_antisymm hele he'
          rw [heq1, at?_ext_eq, at?_end_none (Nat.le_refl _)]
          split
          · rename_i heqd
            injection heqd with h2
            exact absurd h2 (by decide)
          · rfl
      · have hc' : p c = false := by simpa using hc
        rw [hc']
        rfl
    · rfl
  · have heq : loc = S.length := Nat.le_antisymm h h'
    subst heq
    rw [at?_ext_eq, at?_end_none (Nat.le_refl _)]
    simp [hp]

theorem rxBase10_ext {S : List Char} (C : List Char) {loc : Nat} (h : loc ≤ S.length) :
    rxBase10 (S ++ ' ' :: C) loc = rxBase10 S loc :=
  rxDigitsDot_ext C (by decide) h

theorem rxBase16_ext {S : List Char} (C : List Char) {loc : Nat} (h : loc ≤ S.length) :
    rxBase16 (S ++ ' ' :: C) loc = rxBase16 S loc := by
  unfold rxBase16
  rcases Nat.lt_or_ge loc S.length with h' | h'
  · rw [at?_ext_lt C h',
      rxDigitsDot_ext C (by decide) (by omega : loc + 1 ≤ S.length)]
  · have heq : loc = S.length := Nat.le_antisymm h h'
    subst heq
    rw [at?_ext_eq, at?_end_none (Nat.le_refl _)]
    split
    · rename_i heq2
      injection heq2 with h2
      exact absurd h2 (by decide)
    · rfl

theorem rxBaseX_ext {S : List Char} (C : List Char) {loc : Nat} (h : loc ≤ S.length) :
    rxBaseX (S ++ ' ' :: C) loc = rxBaseX S loc := by
  unfold rxBaseX
  rcases Nat.lt_or_ge loc S.length with h' | h'
  case inr =>
    have heq : loc = S.length := Nat.le_antisymm h h'
    subst heq
    rw [at?_ext_eq, at?_end_none (Nat.le_refl _)]
    simp [show ('1' ≤ ' ' && ' ' ≤ '9') = false from by decide]
  case inl =>
    rw [at?_ext_lt C h']
    cases hat0 : at? S loc with
    | none => rfl
    | some c =>
      rcases Nat.lt_or_ge (loc + 1) S.length with h1 | h1
      case inr =>
        have he1s : at? S (loc + 1) = none := at?_end_none (by omega)
        have he1e : at? (S ++ ' ' :: C) (loc + 1) = some ' ' := by
          have heq1 : loc + 1 = S.length := by omega
          rw [heq1, at?_ext_eq]
        simp [he1s, he1e, show isDigit ' ' = false from by decide]
      case inl =>
        have he1e : at? (S ++ ' ' :: C) (loc + 1) = at? S (loc + 1) := at?_ext_lt C h1
        cases hat1 : at? S (loc + 1) with
        | none =>
          rw [hat1] at he1e
          simp [he1e, hat1]
        | some d =>
          rw [hat1] at he1e
          rcases Nat.lt_or_ge (loc + 2) S.length with h2 | h2
          case inr =>
            have he2s : at? S (loc + 2) = none := at?_end_none (by omega)
            have he2e : at? (S ++ ' ' :: C) (loc + 2) = some ' ' := by
              have heq2 : loc + 2 = S.length := by omega
              rw [heq2, at?_ext_eq]
            by_cases hd2 : d = '#'
            · subst hd2
              simp [he1e, hat1, he2s, he2e,
                rxDigitsDot_ext C (show isUpperAlnum ' ' = false from by decide)
                  (show loc + 1 + 1 ≤ S.length from by omega)]
            · have hd2' : ((some d : Option Char) == some '#') = false := by
                simpa using fun hcc => hd2 hcc
              simp [he1e, hat1, he2s, he2e, hd2',
                show isDigit ' ' = false from by decide]
          case inl =>
            have he2e : at? (S ++ ' ' :: C) (loc + 2) = at? S (loc + 2) :=
              at?_ext_lt C h2
            by_cases hdd : (isDigit d && at? S (loc + 2) == some '#') = true
            · simp [he1e, he2e, hdd,
                rxDigitsDot_ext C (show isUpperAlnum ' ' = false from by decide)
                  (show loc + 2 + 1 ≤ S.length from by omega)]
            · have hdd' : (isDigit d && at? S (loc + 2) == some '#') = false := by
                simpa using hdd
              by_cases hd2 : d = '#'
              · subst hd2
                simp [he1e, he2e, hdd',
                  rxDigitsDot_ext C (show isUpperAlnum ' ' = false from by decide)
                    (show loc + 1 + 1 ≤ S.length from by omega)]
              · have hd2' : ((some d : Option Char) == some '#') = false := by
                  simpa using fun hcc => hd2 hcc
                simp [he1e, he2e, hdd', hd2']



theorem plainChar_ne {c : Char} (h : plainChar c = true) :
    c ≠ '"' ∧ c ≠ '\'' ∧ c ≠ '{' := by
  simp [plainChar] at h
  exact ⟨h.1.1, h.1.2, h.2⟩

theorem at?_mem {s : List Char} {loc : Nat} {c : Char} (h : at? s loc = some c) :
    c ∈ s := by
  have := List.get?_mem h
  exact this

/-- In a plain program, the string matcher never fires, on either input. -/
theorem rxString_ext_plain {S : List Char} (C : List Char) {loc : Nat}
    (hS : ∀ c ∈ S, plainChar c = true) (h : loc ≤ S.length) :
    rxString (S ++ ' ' :: C) loc = none ∧ rxString S loc = none := by
  constructor
  · apply rxString_none
    intro hc
    rcases Nat.lt_or_ge loc S.length with h' | h'
    · rw [at?_ext_lt C h'] at hc
      exact (plainChar_ne (hS _ (at?_mem hc))).1 rfl
    · have heq : loc = S.length := Nat.le_antisymm h h'
      rw [heq, at?_ext_eq] at hc
      exact absurd (Option.some.inj hc) (by decide)
  · apply rxString_none
    intro hc
    exact (plainChar_ne (hS _ (at?_mem hc))).1 rfl

/-- In a plain program, the char matcher never fires, on either input. -/
theorem rxChar_ext_plain {S : List Char} (C : List Char) {loc : Nat}
    (hS : ∀ c ∈ S, plainChar c = true) (h : loc ≤ S.length) :
    rxChar (S ++ ' ' :: C) loc = none ∧ rxChar S loc = none := by
  constructor
  · apply rxChar_none
    intro hc
    rcases Nat.lt_or_ge loc S.length with h' | h'
    · rw [at?_ext_lt C h'] at hc
      exact (plainChar_ne (hS _ (at?_mem hc))).2.1 rfl
    · have heq : loc = S.length := Nat.le_antisymm h h'
      rw [heq, at?_ext_eq] at hc
      exact absurd (Option.some.inj hc) (by decide)
  · apply rxChar_none
    intro hc
    exact (plainChar_ne (hS _ (at?_mem hc))).2.1 rfl

/-- Every matcher fails at or beyond the end of the input. -/
theorem rxMatch_end {r : RxId} {s : List Char} {loc : Nat} (h : s.length ≤ loc) :
    rxMatch r s loc = none := by
  have hat : at? s loc = none := at?_end_none h
  cases r <;>
    simp [rxMatch, rxIdent, rxSourceName, rxSign, rxBaseX, rxBase10, rxBase16,
      rxString, rxChar, rxChunk, rxDigitsDot, hat]

theorem strScanL_le : ∀ (n : Nat) (xs : List Char), xs.length ≤ n →
    ∀ k, strScanL xs = some k → k ≤ xs.length := by
  intro n
  induction n using Nat.strong_induction_on with
  | _ n IH =>
    intro xs hn k h
    cases xs with
    | nil => exact Option.noConfusion h
    | cons c rest =>
      rw [strScanL.eq_def] at h
      simp only [] at h
      by_cases hc : c = '\\'
      · subst hc
        cases rest with
        | nil =>
          rw [show strScanL [] = none from rfl] at h
          simp at h
        | cons d rest2 =>
          have hn2 : rest2.length + 2 ≤ n := by
            simp at hn
            omega
          by_cases hd : d = '\n'
          · subst hd
            rcases hsc : strScanL ('\n' :: rest2) with _ | k2
            · simp [hsc] at h
            · simp [hsc] at h
              have hb := IH (n - 1) (by omega) ('\n' :: rest2) (by simp; omega) k2 hsc
              simp at hb
              simp
              omega
          · rcases hsc2 : strScanL rest2 with _ | k2
            · rcases hsc3 : strScanL (d :: rest2) with _ | k3
              · simp [hsc2, hsc3, hd] at h
              · simp [hsc2, hsc3, hd] at h
                have hb := IH (n - 1) (by omega) (d :: rest2) (by simp; omega) k3 hsc3
                simp at hb
                simp
                omega
            · simp [hsc2, hd] at h
              have hb := IH (n - 1) (by omega) rest2 (by omega) k2 hsc2
              simp
              omega
      · have hcb : (c == '\\') = false := by simpa using hc
        by_cases hq : c = '"'
        · subst hq
          simp at h
          subst h
          simp
        · have hqb : (c == '"') = false := by simpa using hq
          rcases hsc : strScanL rest with _ | k2
          · simp [hsc, hcb, hq, hqb] at h
          · simp [hsc, hcb, hq, hqb] at h
            have hn2 : rest.length + 1 ≤ n := by
              simp at hn
              omega
            have hb := IH (n - 1) (by omega) rest (by omega) k2 hsc
            simp
            omega


theorem at?_lt {s : List Char} {k : Nat} {c : Char} (h : at? s k = some c) :
    k < s.length := by
  by_contra hge
  push_neg at hge
  rw [at?_end_none hge] at h
  exact Option.noConfusion h

theorem rxDigitsDot_le {p : Char → Bool} {s : List Char} {loc e : Nat}
    (h : rxDigitsDot p s loc = some e) : e ≤ s.length := by
  unfold rxDigitsDot at h
  split at h
  · rename_i c hat
    have hlt := at?_lt hat
    by_cases hp : p c = true
    · rw [hp, if_pos rfl] at h
      simp only [] at h
      have he0 : runEnd p s (loc + 1) ≤ s.length := runEnd_le (by omega)
      split at h
      · split at h
        · rename_i d hat2
          have hlt2 := at?_lt hat2
          by_cases hpd : p d = true
          · rw [hpd, if_pos rfl] at h
            injection h with he
            subst he
            exact runEnd_le (by omega)
          · have hpd' : p d = false := by simpa using hpd
            rw [hpd'] at h
            simp at h
            omega
        · injection h with he
          subst he
          exact he0
      · injection h with he
        subst he
        exact he0
    · have hp' : p c = false := by simpa using hp
      rw [hp'] at h
      simp at h
  · exact Option.noConfusion h

theorem rxMatch_le {r : RxId} {s : List Char} {loc e : Nat}
    (h : rxMatch r s loc = some e) : e ≤ s.length := by
  cases r with
  | ident =>
    replace h : rxIdent s loc = some e := h
    unfold rxIdent at h
    split at h
    · rename_i c hat
      have hlt := at?_lt hat
      split at h
      · injection h with he
        subst he
        exact runEnd_le (by omega)
      · exact Option.noConfusion h
    · exact Option.noConfusion h
  | sourceName =>
    replace h : rxSourceName s loc = some e := h
    unfold rxSourceName at h
    split at h
    · rename_i c hat
      have hlt := at?_lt hat
      split at h
      · exact Option.noConfusion h
      · injection h with he
        subst he
        exact runEnd_le (by omega)
    · exact Option.noConfusion h
  | sign =>
    replace h : rxSign s loc = some e := h
    unfold rxSign at h
    split at h
    · rename_i c hat
      have hlt := at?_lt hat
      split at h
      · injection h with he
        subst he
        omega
      · exact Option.noConfusion h
    · exact Option.noConfusion h
  | baseX =>
    replace h : rxBaseX s loc = some e := h
    unfold rxBaseX at h
    split at h
    · rename_i c hat
      split at h
      · simp only [] at h
        split at h
        · rename_i hpos hr
          -- the radix prefix ends at a `#` inside the input
          have hlt : hpos < s.length := by
            split at hr
            · rename_i d hd
              split at hr
              · injection hr with h2
                subst h2
                rename_i hcond
                rw [Bool.and_eq_true] at hcond
                have h3 : at? s (loc + 2) = some '#' := eq_of_beq hcond.2
                have := at?_lt h3
                omega
              · split at hr
                · injection hr with h2
                  subst h2
                  rename_i hcond2
                  have h3 : at? s (loc + 1) = some '#' := eq_of_beq hcond2
                  have := at?_lt h3
                  omega
                · exact Option.noConfusion hr
            · exact Option.noConfusion hr
          split at h
          · rename_i e2 hdd
            injection h with he
            subst he
            exact rxDigitsDot_le hdd
          · exact Option.noConfusion h
        · exact Option.noConfusion h
      · exact Option.noConfusion h
    · exact Option.noConfusion h
  | base10 =>
    replace h : rxBase10 s loc = some e := h
    unfold rxBase10 at h
    exact rxDigitsDot_le h
  | base16 =>
    replace h : rxBase16 s loc = some e := h
    unfold rxBase16 at h
    split at h
    · split at h
      · rename_i e2 hdd
        injection h with he
        subst he
        exact rxDigitsDot_le hdd
      · exact Option.noConfusion h
    · exact Option.noConfusion h
  | string =>
    replace h : rxString s loc = some e := h
    unfold rxString at h
    split at h
    · rename_i hat
      have hlt := at?_lt hat
      rcases hsc : strScanL (s.drop (loc + 1)) with _ | k
      · rw [hsc] at h
        exact Option.noConfusion h
      · rw [hsc] at h
        injection h with he
        subst he
        show loc + 1 + k ≤ s.length
        have hb := strScanL_le (s.drop (loc + 1)).length (s.drop (loc + 1))
          (Nat.le_refl _) k hsc
        have hd := List.length_drop (loc + 1) s
        omega
    · exact Option.noConfusion h
  | char =>
    replace h : rxChar s loc = some e := h
    unfold rxChar at h
    split at h
    · rename_i hat
      have hlt := at?_lt hat
      simp only [] at h
      split at h
      · rename_i h1 h2
        injection h with he
        subst he
        split at h2
        · rename_i d hp1 hp2
          split at h2
          · rename_i hcond
            rw [Bool.and_eq_true] at hcond
            have h4 : at? s (loc + 3) = some '\'' := eq_of_beq hcond.2
            have h5 := at?_lt h4
            injection h2 with h6
            omega
          · exact Option.noConfusion h2
        · exact Option.noConfusion h2
      · rename_i h2
        split at h
        · rename_i c2 hat1
          split at h
          · rename_i hcond
            rw [Bool.and_eq_true] at hcond
            have h4 : at? s (loc + 2) = some '\'' := eq_of_beq hcond.2
            have h5 := at?_lt h4
            injection h with he
            omega
          · exact Option.noConfusion h
        · exact Option.noConfusion h
    · exact Option.noConfusion h
  | chunk =>
    replace h : rxChunk s loc = some e := h
    unfold rxChunk at h
    split at h
    · rename_i c hat
      have hlt := at?_lt hat
      split at h
      · exact Option.noConfusion h
      · injection h with he
        subst he
        exact runEnd_le (by omega)
    · exact Option.noConfusion h

/-- Slices entirely inside the program are unaffected by the extension. -/
theorem slice_ext {S : List Char} (C : List Char) {a e : Nat}
    (he : e ≤ S.length) : slice (S ++ ' ' :: C) a e = slice S a e := by
  unfold slice
  rcases Nat.lt_or_ge a S.length with ha | ha
  · rw [drop_ext C (Nat.le_of_lt ha)]
    have hlen : e - a ≤ (S.drop a).length := by
      rw [List.length_drop]
      omega
    rw [List.take_append_of_le_length hlen]
  · rcases Nat.lt_or_ge a (S ++ ' ' :: C).length with ha2 | ha2
    · rcases Nat.lt_or_ge a e with hea | hea
      · omega
      · have h1 : e - a = 0 := by omega
        rw [h1]
        simp
    · rw [List.drop_eq_nil_of_le (by simpa using ha2), List.drop_eq_nil_of_le (by omega)]


theorem oneOfAt_lit {s : List Char} {loc : Nat} {ps : List String} {m : String}
    (h : oneOfAt s loc ps = some m) : litAt s loc m = true := by
  induction ps with
  | nil => exact Option.noConfusion h
  | cons q qs ih =>
    rw [oneOfAt] at h
    split at h
    · injection h with h2
      subst h2
      assumption
    · exact ih h

theorem litAt_end_le {s : List Char} {loc : Nat} {pat : String}
    (h : litAt s loc pat = true) (hloc : loc ≤ s.length) :
    loc + pat.length ≤ s.length := by
  cases hpat : pat.toList with
  | nil =>
    have : pat.length = 0 := by
      have h4 : pat.length = pat.toList.length := rfl
      rw [h4, hpat]
      rfl
    omega
  | cons c0 pr => exact litAt_bound hpat h

/-- A successful run never moves past the end of the input. -/
theorem run_loc_le : ∀ (f : Nat) (p : PE) (s : List Char) (loc : Nat)
    (pre adj ig : Bool) (l : Nat) (t : List Tok) (n : List NB),
    loc ≤ s.length → run f p s loc pre adj ig = .ok l t n → l ≤ s.length := by
  intro f
  induction f using Nat.strong_induction_on with
  | _ f IH =>
    intro p s loc pre adj ig l t n hloc hrun
    cases f with
    | zero => exact POut.noConfusion hrun
    | succ f =>
      cases p with
      | rx r =>
        have hM : ∀ l0, l0 ≤ s.length → (match rxMatch r s l0 with
            | some e => POut.ok e [.str (slice s l0 e)] []
            | none => POut.err) = POut.ok l t n → l ≤ s.length := by
          intro l0 hl0 hm
          split at hm
          · rename_i e hr
            cases hm
            exact rxMatch_le hr
          · exact POut.noConfusion hm
        simp only [run] at hrun
        split at hrun
        · split at hrun
          · split at hrun
            · rename_i l2 t2 n2 hskip
              exact hM _ (runEnd_le (IH f (by omega) _ s loc true adj false l2 t2 n2
                hloc hskip)) hrun
            · exact POut.noConfusion hrun
            · exact hM _ (runEnd_le hloc) hrun
          · exact hM _ (runEnd_le hloc) hrun
        · exact hM loc hloc hrun
      | lit pat =>
        have hM : ∀ l0, l0 ≤ s.length →
            (if litAt s l0 pat then POut.ok (l0 + pat.length) [.str pat] []
             else POut.err) = POut.ok l t n → l ≤ s.length := by
          intro l0 hl0 hm
          split at hm
          · rename_i hl
            cases hm
            exact litAt_end_le hl hl0
          · exact POut.noConfusion hm
        simp only [run] at hrun
        split at hrun
        · split at hrun
          · split at hrun
            · rename_i l2 t2 n2 hskip
              exact hM _ (runEnd_le (IH f (by omega) _ s loc true adj false l2 t2 n2
                hloc hskip)) hrun
            · exact POut.noConfusion hrun
            · exact hM _ (runEnd_le hloc) hrun
          · exact hM _ (runEnd_le hloc) hrun
        · exact hM loc hloc hrun
      | kw pat =>
        have hM : ∀ l0, l0 ≤ s.length →
            (if kwAt s l0 pat then POut.ok (l0 + pat.length) [.str pat] []
             else POut.err) = POut.ok l t n → l ≤ s.length := by
          intro l0 hl0 hm
          split at hm
          · rename_i hl
            cases hm
            rw [kwAt] at hl
            rw [Bool.and_eq_true, Bool.and_eq_true] at hl
            exact litAt_end_le hl.1.1 hl0
          · exact POut.noConfusion hm
        simp only [run] at hrun
        split at hrun
        · split at hrun
          · split at hrun
            · rename_i l2 t2 n2 hskip
              exact hM _ (runEnd_le (IH f (by omega) _ s loc true adj false l2 t2 n2
                hloc hskip)) hrun
            · exact POut.noConfusion hrun
            · exact hM _ (runEnd_le hloc) hrun
          · exact hM _ (runEnd_le hloc) hrun
        · exact hM loc hloc hrun
      | oneOf ss =>
        have hM : ∀ l0, l0 ≤ s.length → (match oneOfAt s l0 ss with
            | some m => POut.ok (l0 + m.length) [.str m] []
            | none => POut.err) = POut.ok l t n → l ≤ s.length := by
          intro l0 hl0 hm
          split at hm
          · rename_i m hr
            cases hm
            exact litAt_end_le (oneOfAt_lit hr) hl0
          · exact POut.noConfusion hm
        simp only [run] at hrun
        split at hrun
        · split at hrun
          · split at hrun
            · rename_i l2 t2 n2 hskip
              exact hM _ (runEnd_le (IH f (by omega) _ s loc true adj false l2 t2 n2
                hloc hskip)) hrun
            · exact POut.noConfusion hrun
            · exact hM _ (runEnd_le hloc) hrun
          · exact hM _ (runEnd_le hloc) hrun
        · exact hM loc hloc hrun
      | andP ps =>
        cases ps with
        | nil =>
          rw [run_andP_nil] at hrun
          cases hrun
          exact hloc
        | cons q qs =>
          rw [run_andP_cons] at hrun
          split at hrun
          · rename_i l1 t1 n1 hq
            have h1 := IH f (by omega) q s loc pre adj ig l1 t1 n1 hloc hq
            split at hrun
            · rename_i l2 t2 n2 hrest
              cases hrun
              exact IH f (by omega) (.andP qs) s l1 true adj ig _ _ _ h1 hrest
            · rename_i hne
              exact absurd hrun (fun hh => hne l t n hh)
          · rename_i hne
            exact absurd hrun (fun hh => hne l t n hh)
      | orP ps =>
        cases ps with
        | nil =>
          rw [run_orP_nil] at hrun
          exact POut.noConfusion hrun
        | cons q qs =>
          rw [run_orP_cons] at hrun
          split at hrun
          · exact IH f (by omega) (.orP qs) s loc true adj ig l t n hloc hrun
          · exact IH f (by omega) q s loc true adj ig l t n hloc hrun
      | opt q =>
        rw [run_opt_succ] at hrun
        split at hrun
        · cases hrun
          exact hloc
        · exact IH f (by omega) q s loc pre adj ig l t n hloc hrun
      | many0 q =>
        rw [run_many0_succ] at hrun
        split at hrun
        · rename_i l1 t1 n1 hq
          have h1 := IH f (by omega) q s loc true adj ig l1 t1 n1 hloc hq
          split at hrun
          · rename_i l2 t2 n2 hrest
            cases hrun
            exact IH f (by omega) (.many0 q) s l1 true adj ig _ _ _ h1 hrest
          · cases hrun
            exact h1
          · rename_i hne1 hne2
            exact absurd hrun (fun hh => hne1 l t n hh)
        · cases hrun
          exact hloc
        · rename_i hne1 hne2
          exact absurd hrun (fun hh => hne1 l t n hh)
      | many1 q =>
        rw [show run (f + 1) (.many1 q) s loc pre adj ig =
          (match run f q s loc true adj ig with
           | .ok l1 t1 n1 =>
             match run f (.many0 q) s l1 true adj ig with
             | .ok l2 t2 n2 => .ok l2 (t1 ++ t2) (n1 ++ n2)
             | .err => .ok l1 t1 n1
             | r => r
           | r => r) from rfl] at hrun
        split at hrun
        · rename_i l1 t1 n1 hq
          have h1 := IH f (by omega) q s loc true adj ig l1 t1 n1 hloc hq
          split at hrun
          · rename_i l2 t2 n2 hrest
            cases hrun
            exact IH f (by omega) (.many0 q) s l1 true adj ig _ _ _ h1 hrest
          · cases hrun
            exact h1
          · rename_i hne1 hne2
            exact absurd hrun (fun hh => hne1 l t n hh)
        · exact IH f (by omega) q s loc true adj ig l t n hloc hrun
      | notAny q =>
        rw [show run (f + 1) (.notAny q) s loc pre adj ig =
          (match run f q s loc true adj ig with
           | .ok _ _ _ => .err
           | .err => .ok loc [] []
           | .fatal => .ok loc [] []
           | r => r) from rfl] at hrun
        split at hrun
        · exact POut.noConfusion hrun
        · cases hrun; exact hloc
        · cases hrun; exact hloc
        · rename_i hne1 hne2 hne3
          exact absurd hrun (fun hh => hne1 l t n hh)
      | followedBy q =>
        rw [show run (f + 1) (.followedBy q) s loc pre adj ig =
          (match run f q s loc true adj ig with
           | .ok _ _ n2 => .ok loc [] n2
           | r => r) from rfl] at hrun
        split at hrun
        · cases hrun; exact hloc
        · rename_i hne
          exact absurd hrun (fun hh => hne l t n hh)
      | grp q =>
        rw [show run (f + 1) (.grp q) s loc pre adj ig =
          (match run f q s loc pre adj ig with
           | .ok l2 t2 n2 => .ok l2 [.group t2 n2] []
           | r => r) from rfl] at hrun
        split at hrun
        · rename_i l2 t2 n2 hq
          cases hrun
          exact IH f (by omega) q s loc pre adj ig _ _ _ hloc hq
        · rename_i hne
          exact absurd hrun (fun hh => hne l t n hh)
      | supp q =>
        rw [run_supp_succ] at hrun
        split at hrun
        · rename_i l2 t2 n2 hq
          cases hrun
          exact IH f (by omega) q s loc pre adj ig _ _ _ hloc hq
        · rename_i hne
          exact absurd hrun (fun hh => hne l t n hh)
      | comb q =>
        have hM : ∀ l0, l0 ≤ s.length → (match run f q s l0 false true ig with
            | .ok l2 t2 n2 => POut.ok l2 [.str (pyJoin t2)] n2
            | r => r) = POut.ok l t n → l ≤ s.length := by
          intro l0 hl0 hm
          split at hm
          · rename_i l2 t2 n2 hq
            cases hm
            exact IH f (by omega) q s l0 false true ig _ _ _ hl0 hq
          · rename_i hne
            exact absurd hm (fun hh => hne l t n hh)
        simp only [run] at hrun
        split at hrun
        · split at hrun
          · split at hrun
            · rename_i l2 t2 n2 hskip
              exact hM _ (runEnd_le (IH f (by omega) _ s loc true adj false l2 t2 n2
                hloc hskip)) hrun
            · exact POut.noConfusion hrun
            · exact hM _ (runEnd_le hloc) hrun
          · exact hM _ (runEnd_le hloc) hrun
        · exact hM loc hloc hrun
      | named nm la ba q =>
        rw [show run (f + 1) (.named nm la ba q) s loc pre adj ig =
          (match run f q s loc pre adj ig with
           | .ok l2 t2 n2 =>
             match t2 with
             | [] => .ok l2 t2 n2
             | v0 :: _ =>
               .ok l2 t2 (n2 ++ [.mk nm la (if ba then .group t2 [] else v0)])
           | r => r) from rfl] at hrun
        split at hrun
        · rename_i l2 t2 n2 hq
          have h2 := IH f (by omega) q s loc pre adj ig l2 t2 n2 hloc hq
          split at hrun
          · cases hrun; exact h2
          · cases hrun; exact h2
        · rename_i hne
          exact absurd hrun (fun hh => hne l t n hh)
      | act a q =>
        rw [run_act_succ] at hrun
        split at hrun
        · rename_i l2 t2 n2 hq
          have h2 := IH f (by omega) q s loc pre adj ig l2 t2 n2 hloc hq
          split at hrun
          · cases hrun; exact h2
          · exact POut.noConfusion hrun
          · exact POut.noConfusion hrun
        · rename_i hne
          exact absurd hrun (fun hh => hne l t n hh)
      | fwd id =>
        rw [run_fwd_succ] at hrun
        exact IH f (by omega) (fwdEnv id) s loc pre adj _ l t n hloc hrun


/-! ## Structural side conditions for the simulation -/

/-- A literal pattern that cannot straddle the boundary separator. -/
def patOK (pat : String) : Bool := !(pat == "") && !(pat.toList.contains ' ')

mutual
/-- No `Forward` below this expression. -/
def fwdFree : PE → Bool
  | .rx _ => true
  | .lit _ => true
  | .kw _ => true
  | .oneOf _ => true
  | .andP ps => fwdFreeL ps
  | .orP ps => fwdFreeL ps
  | .opt q => fwdFree q
  | .many0 q => fwdFree q
  | .many1 q => fwdFree q
  | .notAny q => fwdFree q
  | .followedBy q => fwdFree q
  | .grp q => fwdFree q
  | .supp q => fwdFree q
  | .comb q => fwdFree q
  | .named _ _ _ q => fwdFree q
  | .act _ q => fwdFree q
  | .fwd _ => false

def fwdFreeL : List PE → Bool
  | [] => true
  | q :: qs => fwdFree q && fwdFreeL qs
end

mutual
/-- At the end of the input this expression fails with an ordinary error
(or runs out of fuel). -/
def reqTok : PE → Bool
  | .rx _ => true
  | .lit pat => !(pat == "")
  | .kw pat => !(pat == "")
  | .oneOf ss => ss.all (fun pa => !(pa == ""))
  | .andP ps => reqTokA ps
  | .orP ps => reqTokO ps
  | .opt _ => false
  | .many0 _ => false
  | .many1 q => reqTok q
  | .notAny _ => false
  | .followedBy q => reqTok q
  | .grp q => reqTok q
  | .supp q => reqTok q
  | .comb q => reqTok q
  | .named _ _ _ q => reqTok q
  | .act _ q => reqTok q
  | .fwd _ => false

/-- At the end of the input this expression either fails or matches empty
at the same location, without running a parse action on empty tokens. -/
def stayOK : PE → Bool
  | .rx _ => true
  | .lit _ => true
  | .kw _ => true
  | .oneOf _ => true
  | .andP ps => stayOKL ps
  | .orP ps => stayOKL ps
  | .opt q => stayOK q
  | .many0 q => stayOK q
  | .many1 q => stayOK q
  | .notAny q => stayOK q
  | .followedBy q => stayOK q
  | .grp q => stayOK q
  | .supp q => stayOK q
  | .comb q => stayOK q
  | .named _ _ _ q => stayOK q
  | .act _ q => reqTok q
  | .fwd _ => false

def reqTokA : List PE → Bool
  | [] => false
  | q :: qs => reqTok q || (stayOK q && reqTokA qs)

def reqTokO : List PE → Bool
  | [] => true
  | q :: qs => reqTok q && reqTokO qs

def stayOKL : List PE → Bool
  | [] => true
  | q :: qs => stayOK q && stayOKL qs
end

mutual
/-- The sub-grammar is oblivious to a ` ` + comment extension: no chunk
regex, no comment forward, boundary-safe literal patterns, and `Combine`
bodies that fail cleanly at the end of the input. -/
def safePE : PE → Bool
  | .rx r => !(r == RxId.chunk)
  | .lit pat => patOK pat
  | .kw pat => patOK pat
  | .oneOf ss => ss.all patOK
  | .andP ps => safePEL ps
  | .orP ps => safePEL ps
  | .opt q => safePE q
  | .many0 q => safePE q
  | .many1 q => safePE q
  | .notAny q => safePE q
  | .followedBy q => safePE q
  | .grp q => safePE q
  | .supp q => safePE q
  | .comb q => safePE q && fwdFree q && reqTok q
  | .named _ _ _ q => safePE q
  | .act _ q => safePE q
  | .fwd id => !(id == FwdId.comment)

def safePEL : List PE → Bool
  | [] => true
  | q :: qs => safePE q && safePEL qs
end

/-- Every forward other than `Comment` resolves to a safe sub-grammar. -/
theorem safeEnv : ∀ id : FwdId, (id == FwdId.comment) = false →
    safePE (fwdEnv id) = true := by
  intro id h
  cases id
  case expr => rfl
  case assign => rfl
  case unary => rfl
  case number => rfl
  case type' => rfl
  case sentences => rfl
  case cls => rfl
  case comment => exact absurd h (by decide)


theorem run_many1_succ (f : Nat) (q : PE) (s : List Char) (loc : Nat)
    (pre adj ig : Bool) :
    run (f + 1) (.many1 q) s loc pre adj ig =
      (match run f q s loc true adj ig with
       | .ok l t n =>
         match run f (.many0 q) s l true adj ig with
         | .ok l2 t2 n2 => .ok l2 (t ++ t2) (n ++ n2)
         | .err => .ok l t n
         | r => r
       | r => r) := rfl

theorem run_notAny_succ (f : Nat) (q : PE) (s : List Char) (loc : Nat)
    (pre adj ig : Bool) :
    run (f + 1) (.notAny q) s loc pre adj ig =
      (match run f q s loc true adj ig with
       | .ok _ _ _ => .err
       | .err => .ok loc [] []
       | .fatal => .ok loc [] []
       | r => r) := rfl

theorem run_followedBy_succ (f : Nat) (q : PE) (s : List Char) (loc : Nat)
    (pre adj ig : Bool) :
    run (f + 1) (.followedBy q) s loc pre adj ig =
      (match run f q s loc true adj ig with
       | .ok _ _ n => .ok loc [] n
       | r => r) := rfl

theorem run_grp_succ (f : Nat) (q : PE) (s : List Char) (loc : Nat)
    (pre adj ig : Bool) :
    run (f + 1) (.grp q) s loc pre adj ig =
      (match run f q s loc pre adj ig with
       | .ok l t n => .ok l [.group t n] []
       | r => r) := rfl

theorem run_named_succ (f : Nat) (nm : String) (la ba : Bool) (q : PE)
    (s : List Char) (loc : Nat) (pre adj ig : Bool) :
    run (f + 1) (.named nm la ba q) s loc pre adj ig =
      (match run f q s loc pre adj ig with
       | .ok l t n =>
         match t with
         | [] => .ok l t n
         | v0 :: _ => .ok l t (n ++ [.mk nm la (if ba then .group t [] else v0)])
       | r => r) := rfl

theorem run_rx_adj (f : Nat) (r : RxId) (s : List Char) (loc : Nat)
    (pre ig : Bool) :
    run (f + 1) (.rx r) s loc pre true ig =
      (match rxMatch r s loc with
       | some e => .ok e [.str (slice s loc e)] []
       | none => .err) := by
  cases pre <;> rfl

theorem run_lit_adj (f : Nat) (pat : String) (s : List Char) (loc : Nat)
    (pre ig : Bool) :
    run (f + 1) (.lit pat) s loc pre true ig =
      (if litAt s loc pat then .ok (loc + pat.length) [.str pat] [] else .err) := by
  cases pre <;> rfl

theorem run_kw_adj (f : Nat) (pat : String) (s : List Char) (loc : Nat)
    (pre ig : Bool) :
    run (f + 1) (.kw pat) s loc pre true ig =
      (if kwAt s loc pat then .ok (loc + pat.length) [.str pat] [] else .err) := by
  cases pre <;> rfl

theorem run_oneOf_adj (f : Nat) (ss : List String) (s : List Char) (loc : Nat)
    (pre ig : Bool) :
    run (f + 1) (.oneOf ss) s loc pre true ig =
      (match oneOfAt s loc ss with
       | some m => .ok (loc + m.length) [.str m] []
       | none => .err) := by
  cases pre <;> rfl

theorem run_comb_adj (f : Nat) (q : PE) (s : List Char) (loc : Nat)
    (pre ig : Bool) :
    run (f + 1) (.comb q) s loc pre true ig =
      (match run f q s loc false true ig with
       | .ok l t n => .ok l [.str (pyJoin t)] n
       | r => r) := by
  cases pre <;> rfl

theorem litAt_nil_true {s : List Char} {loc : Nat} {pat : String}
    (hpat : pat.toList = []) : litAt s loc pat = true := by
  rw [litAt, hpat]
  cases s.drop loc <;> rfl

theorem pat_len_zero {pat : String} (hpat : pat.toList = []) : pat.length = 0 := by
  have h4 : pat.length = pat.toList.length := rfl
  rw [h4, hpat]
  rfl

theorem oneOfAt_end_some {s : List Char} {loc : Nat} {ps : List String} {m : String}
    (hloc : s.length ≤ loc) (h : oneOfAt s loc ps = some m) : m.length = 0 := by
  have hl := oneOfAt_lit h
  cases hpat : m.toList with
  | nil => exact pat_len_zero hpat
  | cons c0 pr =>
    rw [litAt_end_false hpat hloc] at hl
    exact Bool.noConfusion hl

theorem oneOfAt_end_none {s : List Char} {loc : Nat} {ps : List String}
    (hps : ps.all (fun pa => !(pa == "")) = true) (hloc : s.length ≤ loc) :
    oneOfAt s loc ps = none := by
  induction ps with
  | nil => rfl
  | cons q qs ih =>
    rw [List.all_cons, Bool.and_eq_true] at hps
    rw [oneOfAt]
    have hq : q.toList ≠ [] := by
      intro hq0
      have : q = "" := by
        cases q with
        | mk data =>
          have : data = [] := hq0
          rw [this]
      rw [this] at hps
      simpa using hps.1
    cases hpat : q.toList with
    | nil => exact absurd hpat hq
    | cons c0 pr =>
      rw [litAt_end_false hpat hloc]
      simp only [Bool.false_eq_true, if_false]
      exact ih hps.2

/-- Classification of a run at the end of the input. -/
def stayRes (r : POut) (loc : Nat) : Prop :=
  r = .timeout ∨ r = .err ∨ ∃ t n, r = .ok loc t n

/-- At or beyond the end of the input, inside a `Combine`: a `stayOK`
expression fails or matches empty in place, and a `reqTok` expression
fails. -/
theorem end_both : ∀ g : Nat,
    (∀ p (s : List Char) (loc : Nat) (pre ig : Bool), fwdFree p = true →
      stayOK p = true → s.length ≤ loc → stayRes (run g p s loc pre true ig) loc) ∧
    (∀ p (s : List Char) (loc : Nat) (pre ig : Bool), fwdFree p = true →
      reqTok p = true → s.length ≤ loc → errT (run g p s loc pre true ig)) := by
  intro g
  induction g using Nat.strong_induction_on with
  | _ g IH =>
    cases g with
    | zero =>
      exact ⟨fun p s loc pre ig _ _ _ => Or.inl rfl,
             fun p s loc pre ig _ _ _ => Or.inl rfl⟩
    | succ g =>
      have IHs := (IH g (by omega)).1
      have IHf := (IH g (by omega)).2
      constructor
      · -- the stay part
        intro p s loc pre ig hff hst hloc
        cases p with
        | rx r =>
          rw [run_rx_adj, rxMatch_end hloc]
          exact Or.inr (Or.inl rfl)
        | lit pat =>
          rw [run_lit_adj]
          cases hpat : pat.toList with
          | nil =>
            rw [if_pos (litAt_nil_true hpat)]
            exact Or.inr (Or.inr ⟨[.str pat], [], by simp [pat_len_zero hpat]⟩)
          | cons c0 pr =>
            rw [if_neg (by simp [litAt_end_false hpat hloc])]
            exact Or.inr (Or.inl rfl)
        | kw pat =>
          rw [run_kw_adj]
          by_cases hk : kwAt s loc pat = true
          · rw [if_pos hk]
            cases hpat : pat.toList with
            | nil =>
              exact Or.inr (Or.inr ⟨[.str pat], [], by simp [pat_len_zero hpat]⟩)
            | cons c0 pr =>
              exfalso
              rw [kwAt, Bool.and_eq_true, Bool.and_eq_true] at hk
              rw [litAt_end_false hpat hloc] at hk
              exact absurd hk.1.1 (by simp)
          · rw [if_neg hk]
            exact Or.inr (Or.inl rfl)
        | oneOf ss =>
          rw [run_oneOf_adj]
          cases ho : oneOfAt s loc ss with
          | none => exact Or.inr (Or.inl rfl)
          | some m =>
            exact Or.inr (Or.inr ⟨[.str m], [], by simp [oneOfAt_end_some hloc ho]⟩)
        | andP ps =>
          cases ps with
          | nil =>
            rw [run_andP_nil]
            exact Or.inr (Or.inr ⟨_, _, rfl⟩)
          | cons q qs =>
            rw [run_andP_cons]
            rw [show fwdFree (.andP (q :: qs)) = (fwdFree q && fwdFreeL qs) from rfl,
              Bool.and_eq_true] at hff
            rw [show stayOK (.andP (q :: qs)) = (stayOK q && stayOKL qs) from rfl,
              Bool.and_eq_true] at hst
            rcases IHs q s loc pre ig hff.1 hst.1 hloc with h1 | h1 | ⟨t1, n1, h1⟩
            · simp only [h1]; exact Or.inl rfl
            · simp only [h1]; exact Or.inr (Or.inl rfl)
            · simp only [h1]
              rcases IHs (.andP qs) s loc true ig hff.2 hst.2 hloc
                with h2 | h2 | ⟨t2, n2, h2⟩
              · simp only [h2]; exact Or.inl rfl
              · simp only [h2]; exact Or.inr (Or.inl rfl)
              · simp only [h2]; exact Or.inr (Or.inr ⟨_, _, rfl⟩)
        | orP ps =>
          cases ps with
          | nil =>
            rw [run_orP_nil]
            exact Or.inr (Or.inl rfl)
          | cons q qs =>
            rw [run_orP_cons]
            rw [show fwdFree (.orP (q :: qs)) = (fwdFree q && fwdFreeL qs) from rfl,
              Bool.and_eq_true] at hff
            rw [show stayOK (.orP (q :: qs)) = (stayOK q && stayOKL qs) from rfl,
              Bool.and_eq_true] at hst
            rcases IHs q s loc true ig hff.1 hst.1 hloc with h1 | h1 | ⟨t1, n1, h1⟩
            · simp only [h1]; exact Or.inl rfl
            · simp only [h1]
              exact IHs (.orP qs) s loc true ig hff.2 hst.2 hloc
            · simp only [h1]; exact Or.inr (Or.inr ⟨_, _, rfl⟩)
        | opt q =>
          rw [run_opt_succ]
          rcases IHs q s loc pre ig hff hst hloc with h1 | h1 | ⟨t1, n1, h1⟩
          · simp only [h1]; exact Or.inl rfl
          · simp only [h1]; exact Or.inr (Or.inr ⟨_, _, rfl⟩)
          · simp only [h1]; exact Or.inr (Or.inr ⟨_, _, rfl⟩)
        | many0 q =>
          rw [run_many0_succ]
          rcases IHs q s loc true ig hff hst hloc with h1 | h1 | ⟨t1, n1, h1⟩
          · simp only [h1]; exact Or.inl rfl
          · simp only [h1]; exact Or.inr (Or.inr ⟨_, _, rfl⟩)
          · simp only [h1]
            rcases IHs (.many0 q) s loc true ig hff hst hloc with h2 | h2 | ⟨t2, n2, h2⟩
            · simp only [h2]; exact Or.inl rfl
            · simp only [h2]; exact Or.inr (Or.inr ⟨_, _, rfl⟩)
            · simp only [h2]; exact Or.inr (Or.inr ⟨_, _, rfl⟩)
        | many1 q =>
          rw [run_many1_succ]
          rcases IHs q s loc true ig hff hst hloc with h1 | h1 | ⟨t1, n1, h1⟩
          · simp only [h1]; exact Or.inl rfl
          · simp only [h1]; exact Or.inr (Or.inl rfl)
          · simp only [h1]
            rcases IHs (.many0 q) s loc true ig hff hst hloc with h2 | h2 | ⟨t2, n2, h2⟩
            · simp only [h2]; exact Or.inl rfl
            · simp only [h2]; exact Or.inr (Or.inr ⟨_, _, rfl⟩)
            · simp only [h2]; exact Or.inr (Or.inr ⟨_, _, rfl⟩)
        | notAny q =>
          rw [run_notAny_succ]
          rcases IHs q s loc true ig hff hst hloc with h1 | h1 | ⟨t1, n1, h1⟩
          · simp only [h1]; exact Or.inl rfl
          · simp only [h1]; exact Or.inr (Or.inr ⟨_, _, rfl⟩)
          · simp only [h1]; exact Or.inr (Or.inl rfl)
        | followedBy q =>
          rw [run_followedBy_succ]
          rcases IHs q s loc true ig hff hst hloc with h1 | h1 | ⟨t1, n1, h1⟩
          · simp only [h1]; exact Or.inl rfl
          · simp only [h1]; exact Or.inr (Or.inl rfl)
          · simp only [h1]; exact Or.inr (Or.inr ⟨_, _, rfl⟩)
        | grp q =>
          rw [run_grp_succ]
          rcases IHs q s loc pre ig hff hst hloc with h1 | h1 | ⟨t1, n1, h1⟩
          · simp only [h1]; exact Or.inl rfl
          · simp only [h1]; exact Or.inr (Or.inl rfl)
          · simp only [h1]; exact Or.inr (Or.inr ⟨_, _, rfl⟩)
        | supp q =>
          rw [run_supp_succ]
          rcases IHs q s loc pre ig hff hst hloc with h1 | h1 | ⟨t1, n1, h1⟩
          · simp only [h1]; exact Or.inl rfl
          · simp only [h1]; exact Or.inr (Or.inl rfl)
          · simp only [h1]; exact Or.inr (Or.inr ⟨_, _, rfl⟩)
        | comb q =>
          rw [run_comb_adj]
          rcases IHs q s loc false ig hff hst hloc with h1 | h1 | ⟨t1, n1, h1⟩
          · simp only [h1]; exact Or.inl rfl
          · simp only [h1]; exact Or.inr (Or.inl rfl)
          · simp only [h1]; exact Or.inr (Or.inr ⟨_, _, rfl⟩)
        | named nm la ba q =>
          rw [run_named_succ]
          rcases IHs q s loc pre ig hff hst hloc with h1 | h1 | ⟨t1, n1, h1⟩
          · simp only [h1]; exact Or.inl rfl
          · simp only [h1]; exact Or.inr (Or.inl rfl)
          · simp only [h1]
            cases t1 with
            | nil => exact Or.inr (Or.inr ⟨_, _, rfl⟩)
            | cons v0 vr => exact Or.inr (Or.inr ⟨_, _, rfl⟩)
        | act a q =>
          rw [run_act_succ]
          rcases IHf q s loc pre ig hff hst hloc with h1 | h1
          · simp only [h1]; exact Or.inl rfl
          · simp only [h1]; exact Or.inr (Or.inl rfl)
        | fwd id => exact absurd hff (by simp [fwdFree])
      · -- the fail part
        intro p s loc pre ig hff hrq hloc
        cases p with
        | rx r =>
          rw [run_rx_adj, rxMatch_end hloc]
          exact Or.inr rfl
        | lit pat =>
          rw [run_lit_adj]
          cases hpat : pat.toList with
          | nil =>
            have : pat = "" := by
              cases pat with
              | mk data =>
                have hd : data = [] := hpat
                rw [hd]
            rw [this] at hrq
            exact absurd hrq (by decide)
          | cons c0 pr =>
            rw [if_neg (by simp [litAt_end_false hpat hloc])]
            exact Or.inr rfl
        | kw pat =>
          rw [run_kw_adj]
          cases hpat : pat.toList with
          | nil =>
            have : pat = "" := by
              cases pat with
              | mk data =>
                have hd : data = [] := hpat
                rw [hd]
            rw [this] at hrq
            exact absurd hrq (by decide)
          | cons c0 pr =>
            have hlf := litAt_end_false hpat hloc
            have hk : kwAt s loc pat = false := by
              rw [kwAt, hlf]
              rfl
            rw [if_neg (by simp [hk])]
            exact Or.inr rfl
        | oneOf ss =>
          rw [run_oneOf_adj, oneOfAt_end_none hrq hloc]
          exact Or.inr rfl
        | andP ps =>
          cases ps with
          | nil => exact absurd hrq (by simp [reqTok, reqTokA])
          | cons q qs =>
            rw [run_andP_cons]
            rw [show fwdFree (.andP (q :: qs)) = (fwdFree q && fwdFreeL qs) from rfl,
              Bool.and_eq_true] at hff
            rw [show reqTok (.andP (q :: qs)) =
              (reqTok q || (stayOK q && reqTokA qs)) from rfl, Bool.or_eq_true] at hrq
            rcases hrq with hrq | hrq
            · rcases IHf q s loc pre ig hff.1 hrq hloc with h1 | h1
              · simp only [h1]; exact Or.inl rfl
              · simp only [h1]; exact Or.inr rfl
            · rw [Bool.and_eq_true] at hrq
              rcases IHs q s loc pre ig hff.1 hrq.1 hloc with h1 | h1 | ⟨t1, n1, h1⟩
              · simp only [h1]; exact Or.inl rfl
              · simp only [h1]; exact Or.inr rfl
              · simp only [h1]
                rcases IHf (.andP qs) s loc true ig hff.2 hrq.2 hloc with h2 | h2
                · simp only [h2]; exact Or.inl rfl
                · simp only [h2]; exact Or.inr rfl
        | orP ps =>
          cases ps with
          | nil =>
            rw [run_orP_nil]
            exact Or.inr rfl
          | cons q qs =>
            rw [run_orP_cons]
            rw [show fwdFree (.orP (q :: qs)) = (fwdFree q && fwdFreeL qs) from rfl,
              Bool.and_eq_true] at hff
            rw [show reqTok (.orP (q :: qs)) = (reqTok q && reqTokO qs) from rfl,
              Bool.and_eq_true] at hrq
            rcases IHf q s loc true ig hff.1 hrq.1 hloc with h1 | h1
            · simp only [h1]; exact Or.inl rfl
            · simp only [h1]
              exact IHf (.orP qs) s loc true ig hff.2 hrq.2 hloc
        | opt q => exact absurd hrq (by simp [reqTok])
        | many0 q => exact absurd hrq (by simp [reqTok])
        | many1 q =>
          rw [run_many1_succ]
          rcases IHf q s loc true ig hff hrq hloc with h1 | h1
          · simp only [h1]; exact Or.inl rfl
          · simp only [h1]; exact Or.inr rfl
        | notAny q => exact absurd hrq (by simp [reqTok])
        | followedBy q =>
          rw [run_followedBy_succ]
          rcases IHf q s loc true ig hff hrq hloc with h1 | h1
          · simp only [h1]; exact Or.inl rfl
          · simp only [h1]; exact Or.inr rfl
        | grp q =>
          rw [run_grp_succ]
          rcases IHf q s loc pre ig hff hrq hloc with h1 | h1
          · simp only [h1]; exact Or.inl rfl
          · simp only [h1]; exact Or.inr rfl
        | supp q =>
          rw [run_supp_succ]
          rcases IHf q s loc pre ig hff hrq hloc with h1 | h1
          · simp only [h1]; exact Or.inl rfl
          · simp only [h1]; exact Or.inr rfl
        | comb q =>
          rw [run_comb_adj]
          rcases IHf q s loc false ig hff hrq hloc with h1 | h1
          · simp only [h1]; exact Or.inl rfl
          · simp only [h1]; exact Or.inr rfl
        | named nm la ba q =>
          rw [run_named_succ]
          rcases IHf q s loc pre ig hff hrq hloc with h1 | h1
          · simp only [h1]; exact Or.inl rfl
          · simp only [h1]; exact Or.inr rfl
        | act a q =>
          rw [run_act_succ]
          rcases IHf q s loc pre ig hff hrq hloc with h1 | h1
          · simp only [h1]; exact Or.inl rfl
          · simp only [h1]; exact Or.inr rfl
        | fwd id => exact absurd hff (by simp [fwdFree])


/-! ## Leaf steps without the pre-parse (`pre = false`, `adj = false`) -/

theorem run_rx_nopre (f : Nat) (r : RxId) (s : List Char) (loc : Nat) (ig : Bool) :
    run (f + 1) (.rx r) s loc false false ig =
      (match rxMatch r s loc with
       | some e => .ok e [.str (slice s loc e)] []
       | none => .err) := rfl

theorem run_lit_nopre (f : Nat) (pat : String) (s : List Char) (loc : Nat) (ig : Bool) :
    run (f + 1) (.lit pat) s loc false false ig =
      (if litAt s loc pat then .ok (loc + pat.length) [.str pat] [] else .err) := rfl

theorem run_kw_nopre (f : Nat) (pat : String) (s : List Char) (loc : Nat) (ig : Bool) :
    run (f + 1) (.kw pat) s loc false false ig =
      (if kwAt s loc pat then .ok (loc + pat.length) [.str pat] [] else .err) := rfl

theorem run_oneOf_nopre (f : Nat) (ss : List String) (s : List Char) (loc : Nat)
    (ig : Bool) :
    run (f + 1) (.oneOf ss) s loc false false ig =
      (match oneOfAt s loc ss with
       | some m => .ok (loc + m.length) [.str m] []
       | none => .err) := rfl

theorem run_comb_nopre (f : Nat) (q : PE) (s : List Char) (loc : Nat) (ig : Bool) :
    run (f + 1) (.comb q) s loc false false ig =
      (match run f q s loc false true ig with
       | .ok l t n => .ok l [.str (pyJoin t)] n
       | r => r) := rfl

/-! ## Leaf steps with the pre-parse skip active (`pre`, not `adj`, `ig`) -/

theorem run_rx_skip (f : Nat) (r : RxId) (s : List Char) (loc : Nat) :
    run (f + 1) (.rx r) s loc true false true =
      (let K : Nat → POut := fun l0 =>
         match rxMatch r s l0 with
         | some e => .ok e [.str (slice s l0 e)] []
         | none => .err
       match run f (.many0 peIgnorable) s loc true false false with
       | .ok l2 _ _ => K (runEnd isWs s l2)
       | .timeout => .timeout
       | _ => K (runEnd isWs s loc)) := rfl

theorem run_lit_skip (f : Nat) (pat : String) (s : List Char) (loc : Nat) :
    run (f + 1) (.lit pat) s loc true false true =
      (let K : Nat → POut := fun l0 =>
         if litAt s l0 pat then .ok (l0 + pat.length) [.str pat] [] else .err
       match run f (.many0 peIgnorable) s loc true false false with
       | .ok l2 _ _ => K (runEnd isWs s l2)
       | .timeout => .timeout
       | _ => K (runEnd isWs s loc)) := rfl

theorem run_kw_skip (f : Nat) (pat : String) (s : List Char) (loc : Nat) :
    run (f + 1) (.kw pat) s loc true false true =
      (let K : Nat → POut := fun l0 =>
         if kwAt s l0 pat then .ok (l0 + pat.length) [.str pat] [] else .err
       match run f (.many0 peIgnorable) s loc true false false with
       | .ok l2 _ _ => K (runEnd isWs s l2)
       | .timeout => .timeout
       | _ => K (runEnd isWs s loc)) := rfl

theorem run_oneOf_skip (f : Nat) (ss : List String) (s : List Char) (loc : Nat) :
    run (f + 1) (.oneOf ss) s loc true false true =
      (let K : Nat → POut := fun l0 =>
         match oneOfAt s l0 ss with
         | some m => .ok (l0 + m.length) [.str m] []
         | none => .err
       match run f (.many0 peIgnorable) s loc true false false with
       | .ok l2 _ _ => K (runEnd isWs s l2)
       | .timeout => .timeout
       | _ => K (runEnd isWs s loc)) := rfl

theorem run_comb_skip (f : Nat) (q : PE) (s : List Char) (loc : Nat) :
    run (f + 1) (.comb q) s loc true false true =
      (let K : Nat → POut := fun l0 =>
         match run f q s l0 false true true with
         | .ok l t n => .ok l [.str (pyJoin t)] n
         | r => r
       match run f (.many0 peIgnorable) s loc true false false with
       | .ok l2 _ _ => K (runEnd isWs s l2)
       | .timeout => .timeout
       | _ => K (runEnd isWs s loc)) := rfl

/-! ## Facts about safe patterns and matchers -/

theorem patOK_facts {pat : String} (h : patOK pat = true) :
    (∃ c0 pr, pat.toList = c0 :: pr) ∧ ' ' ∉ pat.toList := by
  rw [patOK, Bool.and_eq_true] at h
  constructor
  · cases hpat : pat.toList with
    | nil =>
      exfalso
      have : pat = "" := by
        cases pat with
        | mk data =>
          have hd : data = [] := hpat
          rw [hd]
      rw [this] at h
      exact absurd h.1 (by decide)
    | cons c0 pr => exact ⟨c0, pr, rfl⟩
  · intro hmem
    have h2 : pat.toList.contains ' ' = false := by simpa using h.2
    have h3 : pat.toList.elem ' ' = true := (List.elem_iff).2 hmem
    rw [show pat.toList.contains ' ' = pat.toList.elem ' ' from rfl, h3] at h2
    exact Bool.noConfusion h2

/-- Every non-chunk matcher is stable across the appended comment when the
program is plain. -/
theorem rxMatch_ext {S : List Char} (C : List Char)
    (hS : ∀ c ∈ S, plainChar c = true) {r : RxId} (hr : (r == RxId.chunk) = false)
    {loc : Nat} (h : loc ≤ S.length) :
    rxMatch r (S ++ ' ' :: C) loc = rxMatch r S loc := by
  cases r with
  | ident => exact rxIdent_ext C h
  | sourceName => exact rxSourceName_ext C h
  | sign => exact rxSign_ext C h
  | baseX => exact rxBaseX_ext C h
  | base10 => exact rxBase10_ext C h
  | base16 => exact rxBase16_ext C h
  | string =>
    rcases rxString_ext_plain C hS h with ⟨h1, h2⟩
    show rxString (S ++ ' ' :: C) loc = rxString S loc
    rw [h1, h2]
  | char =>
    rcases rxChar_ext_plain C hS h with ⟨h1, h2⟩
    show rxChar (S ++ ' ' :: C) loc = rxChar S loc
    rw [h1, h2]
  | chunk => exact absurd hr (by decide)

/-! ## The pre-parse skip on a plain program with an appended comment -/

/-- Classification of the ignorable-plus-whitespace skip: either the
remaining program has a visible character — then the skip behaves
identically on both inputs and stays inside the program — or only
whitespace remains — then both skips land at the end of their respective
inputs. -/
theorem skip_class {S C : List Char} (hS : ∀ c ∈ S, plainChar c = true)
    (hC : Cmt C) {loc : Nat} (hloc : loc ≤ S.length) (f g : Nat)
    (hfS : run f (.many0 peIgnorable) S loc true false false ≠ .timeout)
    (hgE : run g (.many0 peIgnorable) (S ++ ' ' :: C) loc true false false ≠ .timeout) :
    (run f (.many0 peIgnorable) S loc true false false = .ok loc [] [] ∧
     run g (.many0 peIgnorable) (S ++ ' ' :: C) loc true false false = .ok loc [] [] ∧
     runEnd isWs (S ++ ' ' :: C) loc = runEnd isWs S loc ∧
     runEnd isWs S loc < S.length)
    ∨
    (run f (.many0 peIgnorable) S loc true false false = .ok loc [] [] ∧
     runEnd isWs S loc = S.length ∧
     ∃ l2 t2 n2,
       run g (.many0 peIgnorable) (S ++ ' ' :: C) loc true false false = .ok l2 t2 n2 ∧
       runEnd isWs (S ++ ' ' :: C) l2 = (S ++ ' ' :: C).length) := by
  by_cases hall : ∀ ch ∈ S.drop loc, isWs ch = true
  · refine Or.inr ⟨?_, ?_, ?_⟩
    · rcases ignorable_stop_end hall f with h | ⟨l, t, n, hr, hl, ht, hn⟩
      · exact absurd h hfS
      · rw [hr, hl, ht, hn]
    · exact Nat.le_antisymm (runEnd_le hloc) (wsAdv_end hall)
    · have hdrop : (S ++ ' ' :: C).drop loc = (S.drop loc ++ [' ']) ++ C := by
        rw [drop_ext C hloc]
        simp
      have hw : ∀ ch ∈ S.drop loc ++ [' '], isWs ch = true := by
        intro ch hch
        rcases List.mem_append.1 hch with hch | hch
        · exact hall ch hch
        · rw [List.mem_singleton.1 hch]
          decide
      rcases ignorable_full hw hC hdrop g with h | ⟨l2, t2, n2, hr, hl⟩
      · exact absurd h hgE
      · refine ⟨l2, t2, n2, hr, ?_⟩
        have hlen : (S.drop loc).length = S.length - loc := List.length_drop loc S
        have hwlen : (S.drop loc ++ [' ']).length = S.length - loc + 1 := by
          rw [List.length_append, hlen]
          rfl
        have hexlen : (S ++ ' ' :: C).length = S.length + 1 + C.length := by
          rw [List.length_append, List.length_cons]
          omega
        have hl2 : l2 = (S ++ ' ' :: C).length := by
          rw [hl, hwlen, hexlen]
          omega
        rw [runEnd, List.drop_eq_nil_of_le (by omega), hl2]
        show (S ++ ' ' :: C).length + runLen isWs [] = (S ++ ' ' :: C).length
        rfl
  · rcases split_at_first_nonws hall with ⟨w, c0, v, hdec, hw, hc0⟩
    have hrS : runEnd isWs S loc = loc + w.length := by
      rw [runEnd, hdec, runLen_all hw, runLen_head_false hc0]
      omega
    have hlen : (S.drop loc).length = S.length - loc := List.length_drop loc S
    have hvlen : (w ++ c0 :: v).length = w.length + (v.length + 1) := by
      rw [List.length_append, List.length_cons]
    have hlt : runEnd isWs S loc < S.length := by
      rw [hrS]
      rw [hdec, hvlen] at hlen
      omega
    have hat : at? S (runEnd isWs S loc) = some c0 := by
      rw [hrS]
      exact at?_of_drop (drop_add_of_drop hdec)
    have hne : at? S (runEnd isWs S loc) ≠ some '{' := by
      rw [hat]
      intro hcc
      have hpc := (plainChar_ne (hS c0 (at?_mem hat))).2.2
      exact hpc (Option.some.inj hcc)
    have hdecE : (S ++ ' ' :: C).drop loc = w ++ c0 :: (v ++ ' ' :: C) := by
      rw [drop_ext C hloc, hdec]
      simp
    have hrE : runEnd isWs (S ++ ' ' :: C) loc = loc + w.length := by
      rw [runEnd, hdecE, runLen_all hw, runLen_head_false hc0]
      omega
    have hatE : at? (S ++ ' ' :: C) (runEnd isWs (S ++ ' ' :: C) loc) = some c0 := by
      rw [hrE, ← hrS]
      rw [at?_ext_lt C hlt]
      exact hat
    have hneE : at? (S ++ ' ' :: C) (runEnd isWs (S ++ ' ' :: C) loc) ≠ some '{' := by
      rw [hatE]
      intro hcc
      have hpc := (plainChar_ne (hS c0 (at?_mem hat))).2.2
      exact hpc (Option.some.inj hcc)
    refine Or.inl ⟨?_, ?_, ?_, hlt⟩
    · rcases many0_stop (supp_err (comment_fails hne)) f with h | ⟨l, t, n, hr, hl, ht, hn⟩
      · exact absurd h hfS
      · rw [hl, ht, hn] at hr
        exact hr
    · rcases many0_stop (supp_err (comment_fails hneE)) g with h | ⟨l, t, n, hr, hl, ht, hn⟩
      · exact absurd h hgE
      · rw [hl, ht, hn] at hr
        exact hr
    · rw [hrE, hrS]


theorem bool_ne_true {b : Bool} (h : b = false) : ¬ b = true := by
  rw [h]
  exact Bool.noConfusion

/-- Simulation invariant: on a safe sub-grammar, a plain program `S` and
the extended input `S ++ " " ++ C` produce identical results (whenever
neither run exhausts its fuel). -/
theorem simInv {S C : List Char} (hS : ∀ c ∈ S, plainChar c = true) (hC : Cmt C) :
    ∀ N f g p (loc : Nat) (pre adj : Bool), f + g ≤ N → safePE p = true →
      loc ≤ S.length →
      run f p S loc pre adj true ≠ .timeout →
      run g p (S ++ ' ' :: C) loc pre adj true ≠ .timeout →
      run g p (S ++ ' ' :: C) loc pre adj true = run f p S loc pre adj true := by
  intro N
  induction N using Nat.strong_induction_on with
  | _ N IH =>
    intro f g p loc pre adj hfg hsafe hloc hfS hgE
    cases f with
    | zero => exact absurd rfl hfS
    | succ f =>
      cases g with
      | zero => exact absurd rfl hgE
      | succ g =>
        have hIH : ∀ p2 (loc2 : Nat) (pre2 adj2 : Bool), safePE p2 = true →
            loc2 ≤ S.length →
            run f p2 S loc2 pre2 adj2 true ≠ .timeout →
            run g p2 (S ++ ' ' :: C) loc2 pre2 adj2 true ≠ .timeout →
            run g p2 (S ++ ' ' :: C) loc2 pre2 adj2 true =
              run f p2 S loc2 pre2 adj2 true :=
          fun p2 loc2 pre2 adj2 =>
            IH (f + g) (by omega) f g p2 loc2 pre2 adj2 (Nat.le_refl _)
        cases p with
        | rx r =>
          have hr : (r == RxId.chunk) = false := by
            have h2 : (!(r == RxId.chunk)) = true := hsafe
            simpa using h2
          cases adj with
          | true =>
            rw [run_rx_adj, run_rx_adj, rxMatch_ext C hS hr hloc]
            cases hm : rxMatch r S loc with
            | none => rfl
            | some e => simp only [slice_ext C (rxMatch_le hm)]
          | false =>
            cases pre with
            | false =>
              rw [run_rx_nopre, run_rx_nopre, rxMatch_ext C hS hr hloc]
              cases hm : rxMatch r S loc with
              | none => rfl
              | some e => simp only [slice_ext C (rxMatch_le hm)]
            | true =>
              have hfS2 : run f (.many0 peIgnorable) S loc true false false ≠
                  .timeout := by
                intro h
                rw [run_rx_skip] at hfS
                simp only [h] at hfS
                exact hfS rfl
              have hgE2 : run g (.many0 peIgnorable) (S ++ ' ' :: C) loc true false
                  false ≠ .timeout := by
                intro h
                rw [run_rx_skip] at hgE
                simp only [h] at hgE
                exact hgE rfl
              rcases skip_class hS hC hloc f g hfS2 hgE2 with
                ⟨hSl, hEl, hrEq, hlt⟩ | ⟨hSl, hrSe, l2, t2, n2, hEl, hrEe⟩
              · rw [run_rx_skip, run_rx_skip]
                simp only [hSl, hEl, hrEq,
                  rxMatch_ext C hS hr (Nat.le_of_lt hlt)]
                cases hm : rxMatch r S (runEnd isWs S loc) with
                | none => rfl
                | some e => simp only [slice_ext C (rxMatch_le hm)]
              · rw [run_rx_skip, run_rx_skip]
                have hm1 : rxMatch r (S ++ ' ' :: C) (S ++ ' ' :: C).length = none :=
                  rxMatch_end (Nat.le_refl _)
                have hm2 : rxMatch r S S.length = none := rxMatch_end (Nat.le_refl _)
                simp only [hSl, hEl, hrSe, hrEe, hm1, hm2]
        | lit pat =>
          obtain ⟨⟨c0, pr, hpat⟩, hsp⟩ := patOK_facts (show patOK pat = true from hsafe)
          cases adj with
          | true => rw [run_lit_adj, run_lit_adj, litAt_ext C hsp hloc]
          | false =>
            cases pre with
            | false => rw [run_lit_nopre, run_lit_nopre, litAt_ext C hsp hloc]
            | true =>
              have hfS2 : run f (.many0 peIgnorable) S loc true false false ≠
                  .timeout := by
                intro h
                rw [run_lit_skip] at hfS
                simp only [h] at hfS
                exact hfS rfl
              have hgE2 : run g (.many0 peIgnorable) (S ++ ' ' :: C) loc true false
                  false ≠ .timeout := by
                intro h
                rw [run_lit_skip] at hgE
                simp only [h] at hgE
                exact hgE rfl
              rcases skip_class hS hC hloc f g hfS2 hgE2 with
                ⟨hSl, hEl, hrEq, hlt⟩ | ⟨hSl, hrSe, l2, t2, n2, hEl, hrEe⟩
              · rw [run_lit_skip, run_lit_skip]
                simp only [hSl, hEl, hrEq]
                rw [litAt_ext C hsp (Nat.le_of_lt hlt)]
              · rw [run_lit_skip, run_lit_skip]
                have h1 : litAt (S ++ ' ' :: C) (S ++ ' ' :: C).length pat = false :=
                  litAt_end_false hpat (Nat.le_refl _)
                have h2 : litAt S S.length pat = false :=
                  litAt_end_false hpat (Nat.le_refl _)
                simp only [hSl, hEl, hrSe, hrEe]
                rw [if_neg (bool_ne_true h1), if_neg (bool_ne_true h2)]
        | kw pat =>
          obtain ⟨⟨c0, pr, hpat⟩, hsp⟩ := patOK_facts (show patOK pat = true from hsafe)
          cases adj with
          | true => rw [run_kw_adj, run_kw_adj, kwAt_ext C hpat hsp hloc]
          | false =>
            cases pre with
            | false => rw [run_kw_nopre, run_kw_nopre, kwAt_ext C hpat hsp hloc]
            | true =>
              have hfS2 : run f (.many0 peIgnorable) S loc true false false ≠
                  .timeout := by
                intro h
                rw [run_kw_skip] at hfS
                simp only [h] at hfS
                exact hfS rfl
              have hgE2 : run g (.many0 peIgnorable) (S ++ ' ' :: C) loc true false
                  false ≠ .timeout := by
                intro h
                rw [run_kw_skip] at hgE
                simp only [h] at hgE
                exact hgE rfl
              rcases skip_class hS hC hloc f g hfS2 hgE2 with
                ⟨hSl, hEl, hrEq, hlt⟩ | ⟨hSl, hrSe, l2, t2, n2, hEl, hrEe⟩
              · rw [run_kw_skip, run_kw_skip]
                simp only [hSl, hEl, hrEq]
                rw [kwAt_ext C hpat hsp (Nat.le_of_lt hlt)]
              · rw [run_kw_skip, run_kw_skip]
                have h1 : kwAt (S ++ ' ' :: C) (S ++ ' ' :: C).length pat = false := by
                  rw [kwAt, litAt_end_false hpat (Nat.le_refl _)]
                  rfl
                have h2 : kwAt S S.length pat = false := by
                  rw [kwAt, litAt_end_false hpat (Nat.le_refl _)]
                  rfl
                simp only [hSl, hEl, hrSe, hrEe]
                rw [if_neg (bool_ne_true h1), if_neg (bool_ne_true h2)]
        | oneOf ss =>
          have hallp : ∀ pa ∈ ss, patOK pa = true := by
            have h2 : ss.all patOK = true := hsafe
            exact fun pa hpa => List.all_eq_true.1 h2 pa hpa
          have hsp : ∀ pa ∈ ss, ' ' ∉ pa.toList :=
            fun pa hpa => (patOK_facts (hallp pa hpa)).2
          have hne : ss.all (fun pa => !(pa == "")) = true :=
            List.all_eq_true.2 (fun pa hpa => by
              have h3 := hallp pa hpa
              rw [patOK, Bool.and_eq_true] at h3
              exact h3.1)
          cases adj with
          | true => rw [run_oneOf_adj, run_oneOf_adj, oneOfAt_ext C hsp hloc]
          | false =>
            cases pre with
            | false => rw [run_oneOf_nopre, run_oneOf_nopre, oneOfAt_ext C hsp hloc]
            | true =>
              have hfS2 : run f (.many0 peIgnorable) S loc true false false ≠
                  .timeout := by
                intro h
                rw [run_oneOf_skip] at hfS
                simp only [h] at hfS
                exact hfS rfl
              have hgE2 : run g (.many0 peIgnorable) (S ++ ' ' :: C) loc true false
                  false ≠ .timeout := by
                intro h
                rw [run_oneOf_skip] at hgE
                simp only [h] at hgE
                exact hgE rfl
              rcases skip_class hS hC hloc f g hfS2 hgE2 with
                ⟨hSl, hEl, hrEq, hlt⟩ | ⟨hSl, hrSe, l2, t2, n2, hEl, hrEe⟩
              · rw [run_oneOf_skip, run_oneOf_skip]
                simp only [hSl, hEl, hrEq]
                rw [oneOfAt_ext C hsp (Nat.le_of_lt hlt)]
              · rw [run_oneOf_skip, run_oneOf_skip]
                have h1 : oneOfAt (S ++ ' ' :: C) (S ++ ' ' :: C).length ss = none :=
                  oneOfAt_end_none hne (Nat.le_refl _)
                have h2 : oneOfAt S S.length ss = none :=
                  oneOfAt_end_none hne (Nat.le_refl _)
                simp only [hSl, hEl, hrSe, hrEe, h1, h2]
        | andP ps =>
          cases ps with
          | nil => rw [run_andP_nil, run_andP_nil]
          | cons q qs =>
            have h3 : (safePE q && safePEL qs) = true := hsafe
            rw [Bool.and_eq_true] at h3
            have hqS : run f q S loc pre adj true ≠ .timeout := by
              intro h
              rw [run_andP_cons] at hfS
              simp only [h] at hfS
              exact hfS rfl
            have hqE : run g q (S ++ ' ' :: C) loc pre adj true ≠ .timeout := by
              intro h
              rw [run_andP_cons] at hgE
              simp only [h] at hgE
              exact hgE rfl
            have hq := hIH q loc pre adj h3.1 hloc hqS hqE
            rw [run_andP_cons, run_andP_cons, hq]
            cases hres : run f q S loc pre adj true with
            | ok l t n =>
              have hl : l ≤ S.length :=
                run_loc_le f q S loc pre adj true l t n hloc hres
              have hrS : run f (.andP qs) S l true adj true ≠ .timeout := by
                intro h
                simp only [run_andP_cons, hres, h] at hfS
                exact hfS rfl
              have hrE : run g (.andP qs) (S ++ ' ' :: C) l true adj true ≠
                  .timeout := by
                intro h
                simp only [run_andP_cons, hq, hres, h] at hgE
                exact hgE rfl
              have hrest := hIH (.andP qs) l true adj
                (show safePE (.andP qs) = true from h3.2) hl hrS hrE
              simp only [hrest]
            | err => rfl
            | fatal => rfl
            | crash k => rfl
            | timeout => exact absurd hres hqS
        | orP ps =>
          cases ps with
          | nil => rw [run_orP_nil, run_orP_nil]
          | cons q qs =>
            have h3 : (safePE q && safePEL qs) = true := hsafe
            rw [Bool.and_eq_true] at h3
            have hqS : run f q S loc true adj true ≠ .timeout := by
              intro h
              rw [run_orP_cons] at hfS
              simp only [h] at hfS
              exact hfS rfl
            have hqE : run g q (S ++ ' ' :: C) loc true adj true ≠ .timeout := by
              intro h
              rw [run_orP_cons] at hgE
              simp only [h] at hgE
              exact hgE rfl
            have hq := hIH q loc true adj h3.1 hloc hqS hqE
            rw [run_orP_cons, run_orP_cons, hq]
            cases hres : run f q S loc true adj true with
            | err =>
              have hrS : run f (.orP qs) S loc true adj true ≠ .timeout := by
                intro h
                simp only [run_orP_cons, hres, h] at hfS
                exact hfS rfl
              have hrE : run g (.orP qs) (S ++ ' ' :: C) loc true adj true ≠
                  .timeout := by
                intro h
                simp only [run_orP_cons, hq, hres, h] at hgE
                exact hgE rfl
              have hrest := hIH (.orP qs) loc true adj
                (show safePE (.orP qs) = true from h3.2) hloc hrS hrE
              simp only [hrest]
            | ok l t n => rfl
            | fatal => rfl
            | crash k => rfl
            | timeout => exact absurd hres hqS
        | opt q =>
          have hqS : run f q S loc pre adj true ≠ .timeout := by
            intro h
            rw [run_opt_succ] at hfS
            simp only [h] at hfS
            exact hfS rfl
          have hqE : run g q (S ++ ' ' :: C) loc pre adj true ≠ .timeout := by
            intro h
            rw [run_opt_succ] at hgE
            simp only [h] at hgE
            exact hgE rfl
          have hq := hIH q loc pre adj (show safePE q = true from hsafe) hloc hqS hqE
          rw [run_opt_succ, run_opt_succ, hq]
        | many0 q =>
          have hqS : run f q S loc true adj true ≠ .timeout := by
            intro h
            rw [run_many0_succ] at hfS
            simp only [h] at hfS
            exact hfS rfl
          have hqE : run g q (S ++ ' ' :: C) loc true adj true ≠ .timeout := by
            intro h
            rw [run_many0_succ] at hgE
            simp only [h] at hgE
            exact hgE rfl
          have hq := hIH q loc true adj (show safePE q = true from hsafe) hloc hqS hqE
          rw [run_many0_succ, run_many0_succ, hq]
          cases hres : run f q S loc true adj true with
          | ok l t n =>
            have hl : l ≤ S.length :=
              run_loc_le f q S loc true adj true l t n hloc hres
            have hrS : run f (.many0 q) S l true adj true ≠ .timeout := by
              intro h
              simp only [run_many0_succ, hres, h] at hfS
              exact hfS rfl
            have hrE : run g (.many0 q) (S ++ ' ' :: C) l true adj true ≠
                .timeout := by
              intro h
              simp only [run_many0_succ, hq, hres, h] at hgE
              exact hgE rfl
            have hrest := hIH (.many0 q) l true adj
              (show safePE (.many0 q) = true from hsafe) hl hrS hrE
            simp only [hrest]
          | err => rfl
          | fatal => rfl
          | crash k => rfl
          | timeout => exact absurd hres hqS
        | many1 q =>
          have hqS : run f q S loc true adj true ≠ .timeout := by
            intro h
            rw [run_many1_succ] at hfS
            simp only [h] at hfS
            exact hfS rfl
          have hqE : run g q (S ++ ' ' :: C) loc true adj true ≠ .timeout := by
            intro h
            rw [run_many1_succ] at hgE
            simp only [h] at hgE
            exact hgE rfl
          have hq := hIH q loc true adj (show safePE q = true from hsafe) hloc hqS hqE
          rw [run_many1_succ, run_many1_succ, hq]
          cases hres : run f q S loc true adj true with
          | ok l t n =>
            have hl : l ≤ S.length :=
              run_loc_le f q S loc true adj true l t n hloc hres
            have hrS : run f (.many0 q) S l true adj true ≠ .timeout := by
              intro h
              simp only [run_many1_succ, hres, h] at hfS
              exact hfS rfl
            have hrE : run g (.many0 q) (S ++ ' ' :: C) l true adj true ≠
                .timeout := by
              intro h
              simp only [run_many1_succ, hq, hres, h] at hgE
              exact hgE rfl
            have hrest := hIH (.many0 q) l true adj
              (show safePE (.many0 q) = true from hsafe) hl hrS hrE
            simp only [hrest]
          | err => rfl
          | fatal => rfl
          | crash k => rfl
          | timeout => exact absurd hres hqS
        | notAny q =>
          have hqS : run f q S loc true adj true ≠ .timeout := by
            intro h
            rw [run_notAny_succ] at hfS
            simp only [h] at hfS
            exact hfS rfl
          have hqE : run g q (S ++ ' ' :: C) loc true adj true ≠ .timeout := by
            intro h
            rw [run_notAny_succ] at hgE
            simp only [h] at hgE
            exact hgE rfl
          have hq := hIH q loc true adj (show safePE q = true from hsafe) hloc hqS hqE
          rw [run_notAny_succ, run_notAny_succ, hq]
        | followedBy q =>
          have hqS : run f q S loc true adj true ≠ .timeout := by
            intro h
            rw [run_followedBy_succ] at hfS
            simp only [h] at hfS
            exact hfS rfl
          have hqE : run g q (S ++ ' ' :: C) loc true adj true ≠ .timeout := by
            intro h
            rw [run_followedBy_succ] at hgE
            simp only [h] at hgE
            exact hgE rfl
          have hq := hIH q loc true adj (show safePE q = true from hsafe) hloc hqS hqE
          rw [run_followedBy_succ, run_followedBy_succ, hq]
        | grp q =>
          have hqS : run f q S loc pre adj true ≠ .timeout := by
            intro h
            rw [run_grp_succ] at hfS
            simp only [h] at hfS
            exact hfS rfl
          have hqE : run g q (S ++ ' ' :: C) loc pre adj true ≠ .timeout := by
            intro h
            rw [run_grp_succ] at hgE
            simp only [h] at hgE
            exact hgE rfl
          have hq := hIH q loc pre adj (show safePE q = true from hsafe) hloc hqS hqE
          rw [run_grp_succ, run_grp_succ, hq]
        | supp q =>
          have hqS : run f q S loc pre adj true ≠ .timeout := by
            intro h
            rw [run_supp_succ] at hfS
            simp only [h] at hfS
            exact hfS rfl
          have hqE : run g q (S ++ ' ' :: C) loc pre adj true ≠ .timeout := by
            intro h
            rw [run_supp_succ] at hgE
            simp only [h] at hgE
            exact hgE rfl
          have hq := hIH q loc pre adj (show safePE q = true from hsafe) hloc hqS hqE
          rw [run_supp_succ, run_supp_succ, hq]
        | comb q =>
          have h3 : (safePE q && fwdFree q && reqTok q) = true := hsafe
          rw [Bool.and_eq_true, Bool.and_eq_true] at h3
          cases adj with
          | true =>
            have hqS : run f q S loc false true true ≠ .timeout := by
              intro h
              rw [run_comb_adj] at hfS
              simp only [h] at hfS
              exact hfS rfl
            have hqE : run g q (S ++ ' ' :: C) loc false true true ≠ .timeout := by
              intro h
              rw [run_comb_adj] at hgE
              simp only [h] at hgE
              exact hgE rfl
            have hq := hIH q loc false true h3.1.1 hloc hqS hqE
            rw [run_comb_adj, run_comb_adj, hq]
          | false =>
            cases pre with
            | false =>
              have hqS : run f q S loc false true true ≠ .timeout := by
                intro h
                rw [run_comb_nopre] at hfS
                simp only [h] at hfS
                exact hfS rfl
              have hqE : run g q (S ++ ' ' :: C) loc false true true ≠ .timeout := by
                intro h
                rw [run_comb_nopre] at hgE
                simp only [h] at hgE
                exact hgE rfl
              have hq := hIH q loc false true h3.1.1 hloc hqS hqE
              rw [run_comb_nopre, run_comb_nopre, hq]
            | true =>
              have hfS2 : run f (.many0 peIgnorable) S loc true false false ≠
                  .timeout := by
                intro h
                rw [run_comb_skip] at hfS
                simp only [h] at hfS
                exact hfS rfl
              have hgE2 : run g (.many0 peIgnorable) (S ++ ' ' :: C) loc true false
                  false ≠ .timeout := by
                intro h
                rw [run_comb_skip] at hgE
                simp only [h] at hgE
                exact hgE rfl
              rcases skip_class hS hC hloc f g hfS2 hgE2 with
                ⟨hSl, hEl, hrEq, hlt⟩ | ⟨hSl, hrSe, l2, t2, n2, hEl, hrEe⟩
              · have hqS : run f q S (runEnd isWs S loc) false true true ≠
                    .timeout := by
                  intro h
                  rw [run_comb_skip] at hfS
                  simp only [hSl, h] at hfS
                  exact hfS rfl
                have hqE : run g q (S ++ ' ' :: C) (runEnd isWs S loc) false true
                    true ≠ .timeout := by
                  intro h
                  rw [run_comb_skip] at hgE
                  simp only [hEl, hrEq, h] at hgE
                  exact hgE rfl
                have hq := hIH q (runEnd isWs S loc) false true h3.1.1
                  (Nat.le_of_lt hlt) hqS hqE
                rw [run_comb_skip, run_comb_skip]
                simp only [hSl, hEl, hrEq, hq]
              · rcases (end_both f).2 q S S.length false true h3.1.2 h3.2
                    (Nat.le_refl _) with hto | herr
                · exfalso
                  rw [run_comb_skip] at hfS
                  simp only [hSl, hrSe, hto] at hfS
                  exact hfS rfl
                · rcases (end_both g).2 q (S ++ ' ' :: C) (S ++ ' ' :: C).length
                      false true h3.1.2 h3.2 (Nat.le_refl _) with hto2 | herr2
                  · exfalso
                    rw [run_comb_skip] at hgE
                    simp only [hEl, hrEe, hto2] at hgE
                    exact hgE rfl
                  · rw [run_comb_skip, run_comb_skip]
                    simp only [hSl, hEl, hrSe, hrEe, herr, herr2]
        | named nm la ba q =>
          have hqS : run f q S loc pre adj true ≠ .timeout := by
            intro h
            rw [run_named_succ] at hfS
            simp only [h] at hfS
            exact hfS rfl
          have hqE : run g q (S ++ ' ' :: C) loc pre adj true ≠ .timeout := by
            intro h
            rw [run_named_succ] at hgE
            simp only [h] at hgE
            exact hgE rfl
          have hq := hIH q loc pre adj (show safePE q = true from hsafe) hloc hqS hqE
          rw [run_named_succ, run_named_succ, hq]
        | act a q =>
          have hqS : run f q S loc pre adj true ≠ .timeout := by
            intro h
            rw [run_act_succ] at hfS
            simp only [h] at hfS
            exact hfS rfl
          have hqE : run g q (S ++ ' ' :: C) loc pre adj true ≠ .timeout := by
            intro h
            rw [run_act_succ] at hgE
            simp only [h] at hgE
            exact hgE rfl
          have hq := hIH q loc pre adj (show safePE q = true from hsafe) hloc hqS hqE
          rw [run_act_succ, run_act_succ, hq]
        | fwd id =>
          have hid : (id == FwdId.comment) = false := by
            have h2 : (!(id == FwdId.comment)) = true := hsafe
            simpa using h2
          have hig : (if id == FwdId.comment then false else true) = true := by
            simp [hid]
          have hfS2 : run f (fwdEnv id) S loc pre adj true ≠ .timeout := by
            intro h
            rw [run_fwd_succ, hig] at hfS
            exact hfS h
          have hgE2 : run g (fwdEnv id) (S ++ ' ' :: C) loc pre adj true ≠
              .timeout := by
            intro h
            rw [run_fwd_succ, hig] at hgE
            exact hgE h
          rw [run_fwd_succ, run_fwd_succ, hig]
          exact hIH (fwdEnv id) loc pre adj (safeEnv id hid) hloc hfS2 hgE2


/-! ## The trailing-comment property at the entry point -/

/-- The body of `parse_stmt`, at an arbitrary fuel. -/
def stmtRun (f : Nat) (s : List Char) : SOut :=
  match run f (.fwd .sentences) s 0 true false true with
  | .ok loc toks names =>
    match finishAll f s loc with
    | none => .timeout
    | some true => .ok toks names
    | some false => .err
  | .err => .err
  | .fatal => .fatal
  | .crash k => .crash k
  | .timeout => .timeout

theorem parse_stmt_eq_stmtRun (text : String) :
    parse_stmt text = stmtRun (fuelFor text.toList) text.toList := rfl

/-- The trailing `parseAll` check agrees on the two inputs whenever it
runs to completion on both. -/
theorem finishAll_ext {S C : List Char} (hS : ∀ c ∈ S, plainChar c = true)
    (hC : Cmt C) {loc : Nat} (hloc : loc ≤ S.length) (f g : Nat)
    (hf : finishAll f S loc ≠ none)
    (hg : finishAll g (S ++ ' ' :: C) loc ≠ none) :
    finishAll g (S ++ ' ' :: C) loc = finishAll f S loc := by
  have hfS2 : run f (.many0 peIgnorable) S loc true false false ≠ .timeout := by
    intro h
    apply hf
    unfold finishAll
    simp only [h]
  have hgE2 : run g (.many0 peIgnorable) (S ++ ' ' :: C) loc true false false ≠
      .timeout := by
    intro h
    apply hg
    unfold finishAll
    simp only [h]
  rcases skip_class hS hC hloc f g hfS2 hgE2 with
    ⟨hSl, hEl, hrEq, hlt⟩ | ⟨hSl, hrSe, l2, t2, n2, hEl, hrEe⟩
  · unfold finishAll
    simp only [hSl, hEl, hrEq]
    have hext : (S ++ ' ' :: C).length = S.length + 1 + C.length := by
      rw [List.length_append, List.length_cons]
      omega
    rw [decide_eq_false (by omega : ¬ (S ++ ' ' :: C).length ≤ runEnd isWs S loc),
      decide_eq_false (by omega : ¬ S.length ≤ runEnd isWs S loc)]
  · unfold finishAll
    simp only [hSl, hEl]
    rw [hrSe, hrEe]
    rw [decide_eq_true (Nat.le_refl (S ++ ' ' :: C).length),
      decide_eq_true (Nat.le_refl S.length)]

/-- `parse_stmt` agrees on a plain program and its comment-extended
variant, at any fuels at which neither side times out. -/
theorem stmtRun_ext {S C : List Char} (hS : ∀ c ∈ S, plainChar c = true)
    (hC : Cmt C) (fS fE : Nat)
    (h1 : stmtRun fS S ≠ .timeout) (h2 : stmtRun fE (S ++ ' ' :: C) ≠ .timeout) :
    stmtRun fE (S ++ ' ' :: C) = stmtRun fS S := by
  have hrS : run fS (.fwd .sentences) S 0 true false true ≠ .timeout := by
    intro h
    apply h1
    unfold stmtRun
    simp only [h]
  have hrE : run fE (.fwd .sentences) (S ++ ' ' :: C) 0 true false true ≠
      .timeout := by
    intro h
    apply h2
    unfold stmtRun
    simp only [h]
  have hrun := simInv hS hC (fS + fE) fS fE (.fwd .sentences) 0 true false
    (Nat.le_refl _) rfl (Nat.zero_le _) hrS hrE
  unfold stmtRun
  rw [hrun]
  cases hres : run fS (.fwd .sentences) S 0 true false true with
  | ok loc toks names =>
    have hlocle : loc ≤ S.length :=
      run_loc_le fS (.fwd .sentences) S 0 true false true loc toks names
        (Nat.zero_le _) hres
    have hfinS : finishAll fS S loc ≠ none := by
      intro h
      apply h1
      unfold stmtRun
      simp only [hres, h]
    have hfinE : finishAll fE (S ++ ' ' :: C) loc ≠ none := by
      intro h
      apply h2
      unfold stmtRun
      simp only [hrun, hres, h]
    have hfin := finishAll_ext hS hC hlocle fS fE hfinS hfinE
    simp only [hfin]
  | err => rfl
  | fatal => rfl
  | crash k => rfl
  | timeout => exact absurd hres hrS

theorem toList_append_sep (s c : String) :
    (s ++ " " ++ c).toList = s.toList ++ ' ' :: c.toList := by
  show ((s ++ " ") ++ c).data = s.data ++ ' ' :: c.data
  rw [String.data_append, String.data_append]
  simp

theorem parse_break_a :
    parse_stmt "break a" = .ok [.node (.breakN (some (.node (.symbol "a"))))] [] := by
  rfl

theorem parse_break_a_cmt :
    parse_stmt ("break a" ++ " " ++ "\x7bx\x7d") =
      .ok [.node (.breakN (some (.node (.symbol "a"))))] [] := by
  rfl

theorem cmt_x : Cmt "\x7bx\x7d".toList :=
  @Cmt.mk ['x'] (@CmtB.chunk ['x'] [] (by decide) (by decide) (Or.inl rfl) CmtB.nil)

theorem cmt_empty : Cmt "\x7b\x7d".toList := @Cmt.mk [] CmtB.nil


/-- C9, counterexample: the claim as stated is false. `"import abc"` is
accepted by the parser, `"\x7b\x7d"` is a well-formed comment, yet appending the
comment directly changes the parse: the `SourceName` regex `[^\s,]+`
absorbs the braces into the module name, so the result token differs. -/
theorem C9_counterexample :
    parse_stmt "import abc" = .ok [.str "abc"] [] ∧
    Cmt "\x7b\x7d".toList ∧
    parse_stmt ("import abc" ++ "\x7b\x7d") = .ok [.str "abc\x7b\x7d"] [] ∧
    parse_stmt ("import abc" ++ "\x7b\x7d") ≠ parse_stmt "import abc" := by
  refine ⟨by rfl, cmt_empty, by rfl, ?_⟩
  intro h
  rw [show parse_stmt ("import abc" ++ "\x7b\x7d") = .ok [.str "abc\x7b\x7d"] [] from by rfl,
    show parse_stmt "import abc" = .ok [.str "abc"] [] from by rfl] at h
  injection h with h1 h2
  injection h1 with h3 h4
  injection h3 with h5
  exact absurd h5 (by decide)

/-- C9, amended: appending a trailing comment, separated by a space,
to a program made of plain characters (no quotes, no `\x7b`) never changes
the result of `parse_stmt` — whether acceptance, the token sequence with
its named results, or failure — provided neither run exhausts its step
budget. `Cmt` is the grammar's comment shape: brace-delimited, possibly
nested, possibly containing string or character literals whose bodies may
include `\x7d`. -/
theorem C9_trailing_comment (s c : String)
    (hplain : ∀ ch ∈ s.toList, plainChar ch = true)
    (hcmt : Cmt c.toList)
    (h1 : parse_stmt s ≠ .timeout)
    (h2 : parse_stmt (s ++ " " ++ c) ≠ .timeout) :
    parse_stmt (s ++ " " ++ c) = parse_stmt s := by
  have hl := toList_append_sep s c
  rw [parse_stmt_eq_stmtRun, hl] at h2
  rw [parse_stmt_eq_stmtRun] at h1
  rw [parse_stmt_eq_stmtRun, parse_stmt_eq_stmtRun, hl]
  exact stmtRun_ext hplain hcmt _ _ h1 h2

/-- C9, witness: the amended theorem applies to the program `"break a"`
and the comment `"\x7bx\x7d"`, whose parses agree. -/
theorem C9_trailing_comment_witness :
    (∀ ch ∈ "break a".toList, plainChar ch = true) ∧ Cmt "\x7bx\x7d".toList ∧
    parse_stmt "break a" ≠ .timeout ∧
    parse_stmt ("break a" ++ " " ++ "\x7bx\x7d") ≠ .timeout ∧
    parse_stmt ("break a" ++ " " ++ "\x7bx\x7d") = parse_stmt "break a" := by
  have hp : ∀ ch ∈ "break a".toList, plainChar ch = true := by decide
  have h1 : parse_stmt "break a" ≠ .timeout := by
    intro h
    exact SOut.noConfusion (parse_break_a.symm.trans h)
  have h2 : parse_stmt ("break a" ++ " " ++ "\x7bx\x7d") ≠ .timeout := by
    intro h
    exact SOut.noConfusion (parse_break_a_cmt.symm.trans h)
  exact ⟨hp, cmt_x, h1, h2, C9_trailing_comment "break a" "\x7bx\x7d" hp cmt_x h1 h2⟩

/-! ## The claims -/

/-- **C1.**  The claim: a chain of three or more operands at one
left-associative precedence level (`a*b*c`, `1+2+3`) parses to a
left-leaning binary tree `Op(*, Op(*, a, b), c)`.  In the code,
`make_binary_expr` collects the whole chain into a single `Group` and
`ExprNode.parse_as_binary` destructures it as exactly `left, op, right`,
so a five-token chain raises an uncaught Python `ValueError` (`too many
values to unpack`): no tree and no parse error.  Two-operand chains do
produce the binary node. -/
theorem C1_left_chain_crashes :
    parse_expr "a*b*c" = .crash .valueError ∧
    parse_expr "1+2+3" = .crash .valueError ∧
    parse_expr "a*b" = .ok (.node (.exprN (.node (.symbol "*"))
      [.node (.symbol "`a`"), .node (.symbol "`b`")])) :=
  ⟨rfl, rfl, rfl⟩

/-- **C2.**  The claim: every identifier-shaped string that is not exactly
a keyword — including `iffy`, `variable`, `forever` — is accepted and
`parse_expression` returns a reference to it.  In the code `Name` guards
with `NotAny(KEYWORDS)` where `KEYWORDS = oneOf([...])` matches by plain
prefix (no word boundary), so any identifier *beginning* with a keyword is
rejected and `parse_expr` raises an ordinary parse error; identifiers with
no keyword prefix are accepted (and their symbol text is additionally
wrapped in backticks by `Combine` stringifying the inner `SymbolNode`,
contradicting the module's own doctests). -/
theorem C2_keyword_prefix_rejected :
    parse_expr "iffy" = .err ∧
    parse_expr "variable" = .err ∧
    parse_expr "forever" = .err ∧
    parse_expr "xif" = .ok (.node (.symbol "`xif`")) :=
  ⟨rfl, rfl, rfl, rfl⟩

/-- **C3.**  The claim: `while w (true) break w end while` yields a
`While` node with `block_name = w`.  The grammar binds the optional block
name, but `WhileNode.__init__(self, cond, skip=None, body=None)` has no
`block_name` parameter (unlike every sibling node class), so `cls(**r)`
raises `TypeError` and `Node.parse` fails with `assert False`: a named
while statement crashes with an `AssertionError` instead of producing a
node, while the unnamed form works. -/
theorem C3_named_while_asserts :
    parse_stmt "while w (true) break w end while" = .crash .assertionError ∧
    parse_stmt "while (true) break end while" =
      .ok [.node (.whileN (.pybool true) none [.node (.breakN none)])] [] :=
  ⟨rfl, rfl⟩

/-- **C4 (counterexample).**  The claim: a `func` definition parses to a
single `Func` definition node rather than loose tokens.  `Func` is the one
definition production with no parse action (and `nodes.py` has no
function-definition class), so the result is a flat five-token sequence,
not a single node. -/
theorem C4_func_counterexample :
    parse_stmt "func f(x: int): int return 1 end func" =
      .ok [.node (.symbol "f"), .node (.symbol "x"), .node (.symbol "int"),
           .node (.symbol "int"),
           .group [.node (.returnN (some (.pyint 1)))] []] [] ∧
    [Tok.node (.symbol "f"), .node (.symbol "x"), .node (.symbol "int"),
     .node (.symbol "int"),
     .group [.node (.returnN (some (.pyint 1)))] []].length ≠ 1 :=
  ⟨rfl, by decide⟩

/-- **C4 (amended).**  A function definition `func NAME(p1: T1, p2: T2)[:
RET] body end func` parses successfully, but to the flat token sequence
name, parameter names and types in order, optional return type, and the
grouped body — no single `Func` node is built. -/
theorem C4_func_loose_tokens :
    parse_stmt "func g(a: int, b: float): bool return true end func" =
      .ok [.node (.symbol "g"), .node (.symbol "a"), .node (.symbol "int"),
           .node (.symbol "b"), .node (.symbol "float"), .node (.symbol "bool"),
           .group [.node (.returnN (some (.pybool true)))] []] [] :=
  rfl

/-- **C5.**  The claim: a qualified name used as a complete expression is
flattened to one `Symbol` with the verbatim text (`Foo.bar`,
`Mod@Klass.baz`, `EColor#Red`), consuming all input.  In the code the
qualified branch of `VariableName` can never match (the inner `ClassName`
greedily consumes the whole dotted chain, after which the required `.` is
absent), `SourceName` inside `ClassName` eats the `@` itself, and
`EnumName` is not an expression atom — so only the first component is
parsed and `parse_expr` fails on the leftover input with an ordinary parse
error in all three forms. -/
theorem C5_qualified_names_fail :
    parse_expr "Foo.bar" = .err ∧
    parse_expr "Mod@Klass.baz" = .err ∧
    parse_expr "EColor#Red" = .err :=
  ⟨rfl, rfl, rfl⟩

/-- **C6.**  Enum member values are assigned by a counter starting at 0;
an explicit `:: N` sets the member to `N` and the counter to `N + 1`:
`enum EColor Red Blue Green :: 5 Yellow end enum` produces
`EColor = {Red: 0, Blue: 1, Green: 5, Yellow: 6}` in textual order. -/
theorem C6_enum_counter :
    parse_stmt "enum EColor Red Blue Green :: 5 Yellow end enum" =
      .ok [.node (.enumN (.node (.symbol "EColor"))
        [.mk (.node (.symbol "Red")) (.pyint 0),
         .mk (.node (.symbol "Blue")) (.pyint 1),
         .mk (.node (.symbol "Green")) (.pyint 5),
         .mk (.node (.symbol "Yellow")) (.pyint 6)])] [] :=
  rfl

/-- **C7.**  Numeric-literal failures split exactly as claimed: a radix
prefix below 2 (`1#0`), above 36 (`37#0`), or equal to 10 or 16
(`10#123`, `16#FFF`) is a fatal, non-backtrackable error, as are digits
outside the radix alphabet (`8#9`); forms that merely fail to match the
literal syntax — lowercase hex digits (`#fff`), a radix prefix without
digits (`2#`) — give an ordinary recoverable parse error. -/
theorem C7_number_error_kinds :
    parse_expr "16#FFF" = .fatal ∧
    parse_expr "10#123" = .fatal ∧
    parse_expr "1#0" = .fatal ∧
    parse_expr "37#0" = .fatal ∧
    parse_expr "8#9" = .fatal ∧
    parse_expr "#fff" = .err ∧
    parse_expr "2#" = .err :=
  ⟨rfl, rfl, rfl, rfl, rfl, rfl, rfl⟩

/-- **C8.**  The numeric scanner evaluates literals in their declared
radix — `2#1000 = 8`, `8#777 = 511`, `#FFF = 4095` (hex prefix means
radix 16), `36#Z = 35`, `#1 = 1` — and whenever a literal has no
fractional part and no exponent the result is a Python integer, never a
float. -/
theorem C8_number_values :
    parse_expr "2#1000" = .ok (.pyint 8) ∧
    parse_expr "8#777" = .ok (.pyint 511) ∧
    parse_expr "#FFF" = .ok (.pyint 4095) ∧
    parse_expr "36#Z" = .ok (.pyint 35) ∧
    parse_expr "#1" = .ok (.pyint 1) ∧
    ∀ (sign : String) (body : List Char) (q : ℚ),
      '.' ∉ body → numberCore sign body none ≠ .ok (.pyreal q) :=
  ⟨rfl, rfl, rfl, rfl, rfl, fun sign body q h => numberCore_int_of_no_dot sign body h q⟩

/-- Witness for C8: the integer literal `7` has no dot, and the scanner
does not return a float on it. -/
theorem C8_number_values_witness :
    ('.' ∉ "7".toList) ∧ numberCore "" "7".toList none ≠ .ok (.pyreal 0) :=
  ⟨by decide, C8_number_values.2.2.2.2.2 "" "7".toList 0 (by decide)⟩

/-- **C10 (counterexample).**  The claim: any explicit `:: Expr` member
value that is not a numeric literal makes enum construction fail with an
assertion failure.  A boolean literal is not a numeric literal, yet
Python's `True + 1 == 2` lets the counter advance: `enum E A :: true end
enum` parses to a complete enum node with member value `True`. -/
theorem C10_counterexample :
    parse_stmt "enum E A :: true end enum" =
      .ok [.node (.enumN (.node (.symbol "E"))
        [.mk (.node (.symbol "A")) (.pybool true)])] [] :=
  rfl

/-- **C10 (amended).**  If any member's explicit `:: Expr` value is
neither an int, a float, nor a boolean (e.g. a name or a compound
expression, which the grammar accepts), building the `Enum` node never
succeeds — advancing the running counter past the value raises
`TypeError`, which `Node.parse` converts to an assertion failure — and on
the two example programs `parse_stmt` crashes with exactly that
`AssertionError`. -/
theorem C10_enum_nonnumeric_asserts :
    (∀ (v : Tok), addable v = false → v ≠ .pynone →
      ∀ (pre : List Tok) (cur : Tok) (post : List Tok) (k : Tok) (res : List EPair),
        enumFold cur (pre ++ .tup [k, v] :: post) ≠ .ok res) ∧
    parse_stmt "enum E A :: x end enum" = .crash .assertionError ∧
    parse_stmt "enum E A :: 1 + 2 end enum" = .crash .assertionError :=
  ⟨fun _ h hn => enumFold_not_ok h hn, rfl, rfl⟩

/-- Witness for C10: instantiated at the symbol value `` `x` `` produced
by `enum E A :: x end enum`. -/
theorem C10_enum_nonnumeric_asserts_witness :
    addable (.node (.symbol "`x`")) = false ∧
    Tok.node (.symbol "`x`") ≠ .pynone ∧
    enumFold (.pyint 0)
      [.tup [.node (.symbol "A"), .node (.symbol "`x`")]] ≠ .ok [] :=
  ⟨rfl, fun h => Tok.noConfusion h,
   C10_enum_nonnumeric_asserts.1 (.node (.symbol "`x`")) rfl
     (fun h => Tok.noConfusion h) [] (.pyint 0) [] (.node (.symbol "A")) []⟩

end Kuin
